import Mathlib

/-!
# Huffman compressor: shallow embedding and verified properties

The definitions below are a shallow embedding of the C sources
(`huffman.c`, `minheap.c`, `bitio.c`, `compressor.c`).

Conventions of the embedding:

* a byte is a `Nat` below 256, a file is a list of bytes with a position;
* `size_t` is 64 bits wide: arithmetic that can wrap is reduced modulo `2 ^ 64`;
* memory returned by `malloc` and read before it is written (the writer's bit
  buffer, the code table) is an explicit argument, see `Uninit`;
* allocation never fails; a sink accepts every byte unless its `room` is bounded;
* a dereference of `NULL` is the outcome `none` of the function that performs it;
* loops that the C code runs until a state condition holds are structural
  recursions on a fuel argument that the callers set large enough.
-/

namespace HuffmanC

/-! ## Constants and machine integers -/

/-- Modelled from the spec: `constants.h` is not among the sources; the spec fixes the
alphabet at 256 slots, which is the value of `FREQUENCY_TABLE_SIZE`. -/
def FREQUENCY_TABLE_SIZE : Nat := 256

/-- Number of values of a `size_t` (64-bit target). -/
def SIZE_T_MOD : Nat := 18446744073709551616

/-- Buffer sizes of `constants.h` (not among the sources): taken as parameters. -/
structure Config where
  READ_BUFFER_SIZE : Nat
  OUTPUT_BUFFER_SIZE : Nat

/-- Conversion of a `size_t` value to `int` (two's complement, 32 bits). -/
def to_int (x : Nat) : Int :=
  if x % 4294967296 < 2147483648 then ((x % 4294967296 : Nat) : Int)
  else ((x % 4294967296 : Nat) : Int) - 4294967296

/-! ## Files -/

/-- A `FILE*`: the bytes of the file, the stream position, and how many more bytes the
device accepts (`none`: no limit). -/
structure FILE where
  data : List Nat
  pos : Nat
  room : Option Nat
  deriving DecidableEq, Repr

/-- The call `fread(buf, 1, n, f)`: the bytes read and the stream afterwards. -/
def fread (f : FILE) (n : Nat) : List Nat × FILE :=
  let chunk := (f.data.drop f.pos).take n
  (chunk, { f with pos := f.pos + chunk.length })

/-- The call `fwrite(buf, 1, n, f)` on a stream positioned at its end: the number of bytes
written and the stream afterwards. -/
def fwrite (f : FILE) (bytes : List Nat) : Nat × FILE :=
  match f.room with
  | none => (bytes.length, { f with data := f.data ++ bytes, pos := f.pos + bytes.length })
  | some r =>
    let w := bytes.take r
    (w.length, { data := f.data ++ w, pos := f.pos + w.length, room := some (r - w.length) })

/-- The function `get_file_size` of `utils.c`: the stream position is restored. -/
def get_file_size (f : FILE) : Nat := f.data.length

/-! ## Frequency table and scaling (`huffman.c`) -/

/-- One iteration of the loop of `get_list_size`; the state is `(list_size, *max_value)`. -/
def get_list_size_step (list : Nat → Nat) (acc : Nat × Nat) (i : Nat) : Nat × Nat :=
  if list i ≠ 0 then (acc.1 + 1, if list i > acc.2 then list i else acc.2) else acc

/-- The function `get_list_size`: returns `(list_size, *max_value)` after the call. -/
def get_list_size (list : Nat → Nat) (max_value : Nat) : Nat × Nat :=
  let r := (List.range FREQUENCY_TABLE_SIZE).foldl (get_list_size_step list) (0, max_value)
  (r.1, r.2 / 255 + 1)

/-- The inner `for` loop of `count_run` over one chunk. -/
def count_chunk (table : Nat → Nat) (chunk : List Nat) : Nat → Nat :=
  chunk.foldl (fun t b => Function.update t b (t b + 1)) table

/-- The `while` loop of `count_run`: one `fread` per iteration, until it returns 0. -/
def count_loop (cfg : Config) : Nat → FILE → (Nat → Nat) → (Nat → Nat) × FILE
  | 0, f, table => (table, f)
  | fuel + 1, f, table =>
    let r := fread f cfg.READ_BUFFER_SIZE
    if r.1.length = 0 then (table, r.2)
    else count_loop cfg fuel r.2 (count_chunk table r.1)

/-- The function `count_run`: the table starts all zero; every iteration but the last
consumes at least one byte, so `length + 1` iterations suffice. -/
def count_run (cfg : Config) (f : FILE) : (Nat → Nat) × FILE :=
  count_loop cfg (f.data.length + 1) f (fun _ => 0)

/-- The function `scale_down`. -/
def scale_down (value scale : Nat) : Nat :=
  let result := if scale > 1 then value / scale else value
  if result = 0 ∧ scale > 1 then result + 1 else result

/-! ## Tree nodes (`huffman.h`, `huffman.c`) -/

/-- A `Node`: a leaf has both child pointers `NULL`; the only other nodes the program
creates come from `combine_nodes` and have two children. -/
inductive Node where
  | leaf (symbol : Nat) (frequency : Nat) : Node
  | inner (symbol : Nat) (frequency : Nat) (l_node r_node : Node) : Node
  deriving DecidableEq, Repr

/-- Field `symbol`. -/
def Node.symbol : Node → Nat
  | .leaf s _ => s
  | .inner s _ _ _ => s

/-- Field `frequency`. -/
def Node.frequency : Node → Nat
  | .leaf _ f => f
  | .inner _ f _ _ => f

/-- The function `compare_nodes`: the `size_t` difference of the frequencies is converted
to `int`. -/
def compare_nodes (a b : Node) : Int :=
  if a.frequency = b.frequency then (a.symbol : Int) - (b.symbol : Int)
  else to_int ((a.frequency + SIZE_T_MOD - b.frequency) % SIZE_T_MOD)

/-- The function `combine_nodes`. -/
def combine_nodes (n1 n2 : Node) : Node :=
  .inner 0xFF ((n1.frequency + n2.frequency) % SIZE_T_MOD) n1 n2

/-! ## Binary min-heap (`minheap.c`) -/

/-- A `Heap`: `nodes` holds the `size` occupied slots of the array, in order. -/
structure Heap (α : Type) where
  compare : α → α → Int
  nodes : List α
  max_size : Nat

/-- Field `size`. -/
def Heap.size {α : Type} (heap : Heap α) : Nat := heap.nodes.length

/-- The function `create_priority_queue`. -/
def create_priority_queue {α : Type} (initial_capacity : Nat) (compare : α → α → Int) : Heap α :=
  { compare := compare, nodes := [], max_size := initial_capacity }

/-- The function `swap` applied to the slots `i` and `j` of the array. -/
def swap {α : Type} (nodes : List α) (i j : Nat) : List α :=
  match nodes[i]?, nodes[j]? with
  | some a, some b => (nodes.set i b).set j a
  | _, _ => nodes

/-- The test `heap->compare(heap->nodes[i], heap->nodes[j]) < 0`. -/
def compare_lt {α : Type} (compare : α → α → Int) (nodes : List α) (i j : Nat) : Bool :=
  match nodes[i]?, nodes[j]? with
  | some a, some b => decide (compare a b < 0)
  | _, _ => false

/-- The `while` loop of `heapify_up`; `index` decreases at each iteration, so `index`
iterations suffice. -/
def heapify_up_loop {α : Type} (compare : α → α → Int) : Nat → List α → Nat → List α × Nat
  | 0, nodes, index => (nodes, index)
  | fuel + 1, nodes, index =>
    if index > 0 then
      if compare_lt compare nodes index ((index - 1) / 2) then
        heapify_up_loop compare fuel (swap nodes index ((index - 1) / 2)) ((index - 1) / 2)
      else (nodes, index)
    else (nodes, index)

/-- The function `heapify_up`: the returned index (-1 on failure) and the heap. -/
def heapify_up {α : Type} (heap : Heap α) (index : Nat) : Int × Heap α :=
  if index ≥ heap.size then (-1, heap)
  else
    let r := heapify_up_loop heap.compare index heap.nodes index
    ((r.2 : Int), { heap with nodes := r.1 })

/-- The function `heap_insert`: the returned index (-1 on failure) and the heap. -/
def heap_insert {α : Type} (heap : Heap α) (node : α) : Int × Heap α :=
  if heap.size ≥ heap.max_size then (-1, heap)
  else heapify_up { heap with nodes := heap.nodes ++ [node] } heap.size

/-- The value of `min_index` that `heapify_down` computes before its final test: the index
among `index` and its children in range whose element compares least. -/
def min_child_index {α : Type} (compare : α → α → Int) (nodes : List α) (index : Nat) : Nat :=
  let left_child_idx := index * 2 + 1
  let right_child_idx := index * 2 + 2
  let min_index :=
    if left_child_idx < nodes.length ∧ compare_lt compare nodes left_child_idx index
    then left_child_idx else index
  if right_child_idx < nodes.length ∧ compare_lt compare nodes right_child_idx min_index
  then right_child_idx else min_index

/-- The function `heapify_down`; the recursion descends one level per call, so `size`
calls suffice. -/
def heapify_down {α : Type} (compare : α → α → Int) : Nat → List α → Nat → List α × Nat
  | 0, nodes, index => (nodes, index)
  | fuel + 1, nodes, index =>
    if min_child_index compare nodes index ≠ index then
      heapify_down compare fuel (swap nodes index (min_child_index compare nodes index))
        (min_child_index compare nodes index)
    else (nodes, min_child_index compare nodes index)

/-- The function `heap_extract`: the extracted node (`none` for `NULL`) and the heap. -/
def heap_extract {α : Type} (heap : Heap α) : Option α × Heap α :=
  match heap.nodes with
  | [] => (none, heap)
  | node :: rest =>
    match rest.getLast? with
    | none => (some node, { heap with nodes := [] })
    | some last =>
      (some node,
        { heap with nodes := (heapify_down heap.compare rest.length (last :: rest.dropLast) 0).1 })

/-! ## Tree construction and code generation (`huffman.c`) -/

/-- The `while` loop of `build_tree`: `false` when the function returns `NULL` from inside
the loop. The size decreases by one per iteration, so `size` iterations suffice. -/
def build_tree_loop : Nat → Heap Node → Bool × Heap Node
  | 0, heap => (true, heap)
  | fuel + 1, heap =>
    if heap.size ≥ 2 then
      let e1 := heap_extract heap
      let e2 := heap_extract e1.2
      match e1.1, e2.1 with
      | some n1, some n2 =>
        let r := heap_insert e2.2 (combine_nodes n1 n2)
        if r.1 = -1 then (false, r.2) else build_tree_loop fuel r.2
      | _, _ => (false, e2.2)
    else (true, heap)

/-- The function `build_tree`: the root (`none` for `NULL`) and the heap afterwards. -/
def build_tree (heap : Heap Node) : Option Node × Heap Node :=
  let r := build_tree_loop heap.size heap
  if r.1 then heap_extract r.2 else (none, r.2)

/-- A `Code`: entry of the code table. -/
structure Code where
  length : Nat
  code : Nat
  deriving DecidableEq, Repr

/-- The function `generate_huffman_code` on a non-`NULL` node: `code` is a `uint32_t`,
`depth` a `uint8_t`; the right child is visited first. -/
def generate_huffman_code (code_table : Nat → Code) (code depth : Nat) : Node → Nat → Code
  | .leaf symbol _ =>
    Function.update code_table symbol { length := if depth = 0 then 1 else depth, code := code }
  | .inner _ _ l_node r_node =>
    generate_huffman_code
      (generate_huffman_code code_table (((code <<< 1) % 4294967296) ||| 1) ((depth + 1) % 256) r_node)
      ((code <<< 1) % 4294967296) ((depth + 1) % 256) l_node

/-! ## Filling the heap (`compressor.c`) -/

/-- One iteration of the `for` loop of `fill_minheap`: the state is the heap and whether
the function has already returned (after a failed `heap_insert`). -/
def fill_minheap_step (frequency_table : Nat → Nat) (max_count : Nat)
    (st : Heap Node × Bool) (i : Nat) : Heap Node × Bool :=
  if st.2 then st
  else if frequency_table i ≠ 0 then
    let f := scale_down (frequency_table i) max_count
    let node := Node.leaf i (if f = 0 then f + 1 else f)
    let r := heap_insert st.1 node
    if r.1 = -1 then (r.2, true) else (r.2, false)
  else st

/-- The function `fill_minheap` on non-`NULL` arguments: the returned count
(`priority_queue->size` on every path) and the heap. -/
def fill_minheap (frequency_table : Nat → Nat) (priority_queue : Heap Node) (max_count : Nat) :
    Nat × Heap Node :=
  let r := (List.range FREQUENCY_TABLE_SIZE).foldl
    (fill_minheap_step frequency_table max_count) (priority_queue, false)
  (r.1.size, r.1)

/-! ## Bit writer (`bitio.c`) -/

/-- Contents of the memory blocks that `compress` obtains from `malloc` and uses without
initialising them: the writer's bit buffer (`init_writer` leaves its `memset` commented
out) and the code table. -/
structure Uninit where
  writer_buffer : Nat → Nat
  code_table : Nat → Code

/-- A `BitWriter`: `buffer i` is the byte at index `i` of the buffer. -/
structure BitWriter where
  buffer : Nat → Nat
  file : FILE
  bit_count : Nat
  total_bits : Nat

/-- The function `init_writer`: the buffer keeps whatever bytes the allocation held. -/
def init_writer (memory : Nat → Nat) (file : FILE) : BitWriter :=
  { buffer := fun i => memory i % 256, file := file, bit_count := 0, total_bits := 0 }

/-- The statements that set one bit in the buffer and advance both counters. -/
def put_bit (bw : BitWriter) (byte_idx bit_idx bit : Nat) : BitWriter :=
  { bw with
    buffer := Function.update bw.buffer byte_idx (bw.buffer byte_idx ||| (bit <<< (7 - bit_idx)))
    bit_count := bw.bit_count + 1
    total_bits := bw.total_bits + 1 }

/-- One iteration of the `for` loop of `write_bits`; the flag records that the function
has returned -1. -/
def write_bits_step (cfg : Config) (code length : Nat) (st : BitWriter × Bool) (i : Nat) :
    BitWriter × Bool :=
  if st.2 then st
  else if st.1.bit_count / 8 ≥ cfg.OUTPUT_BUFFER_SIZE then
    let w := fwrite st.1.file ((List.range cfg.OUTPUT_BUFFER_SIZE).map st.1.buffer)
    if w.1 < cfg.OUTPUT_BUFFER_SIZE then ({ st.1 with file := w.2 }, true)
    else
      (put_bit { st.1 with buffer := fun _ => 0, file := w.2, bit_count := 0 } 0 0
        ((code >>> (length - 1 - i)) &&& 1), false)
  else
    (put_bit st.1 (st.1.bit_count / 8) (st.1.bit_count % 8) ((code >>> (length - 1 - i)) &&& 1),
      false)

/-- The function `write_bits` on a non-`NULL` writer: the returned value and the writer. -/
def write_bits (cfg : Config) (bit_writer : BitWriter) (code length : Nat) : Int × BitWriter :=
  if length = 0 then (0, bit_writer)
  else
    let r := (List.range length).foldl (write_bits_step cfg code length) (bit_writer, false)
    if r.2 then (-1, r.1) else ((length : Int), r.1)

/-- The function `flush_writer` on a non-`NULL` writer: the returned value and the writer. -/
def flush_writer (bit_writer : BitWriter) : Int × BitWriter :=
  let bytes := (bit_writer.bit_count + 7) / 8
  if bytes > 0 then
    let w := fwrite bit_writer.file ((List.range bytes).map bit_writer.buffer)
    if w.1 = 0 then (-1, { bit_writer with file := w.2 })
    else ((w.1 : Int), { bit_writer with buffer := fun _ => 0, file := w.2, bit_count := 0 })
  else (0, { bit_writer with buffer := fun _ => 0, bit_count := 0 })

/-! ## Header codec (`huffman.c`) -/

/-- One iteration of the `for` loop of `write_file_header`: the state is the bytes of the
entries filled so far (two per entry). -/
def header_step (frequency_table : Nat → Nat) (list_size max_value : Nat)
    (entries : List Nat) (i : Nat) : List Nat :=
  if entries.length / 2 < list_size ∧ frequency_table i > 0 then
    entries ++ [i % 256, scale_down (frequency_table i) max_value % 256]
  else entries

/-- The function `write_file_header`: the returned value and the stream. -/
def write_file_header (output_file : FILE) (frequency_table : Nat → Nat) : Nat × FILE :=
  let g := get_list_size frequency_table 0
  if g.1 = 0 then (0, output_file)
  else
    let w1 := fwrite output_file [(g.1 - 1) % 256]
    if w1.1 < 1 then (0, w1.2)
    else
      let entries := (List.range FREQUENCY_TABLE_SIZE).foldl
        (header_step frequency_table g.1 g.2) []
      let w2 := fwrite w1.2 entries
      if w2.1 / 2 < g.1 then (0, w2.2) else (1, w2.2)

/-- The `for` loop of `read_file_header` over the pairs read from the file. -/
def read_pairs (frequency_table : Nat → Nat) : List Nat → Nat → Nat
  | symbol :: count :: rest => read_pairs (Function.update frequency_table symbol count) rest
  | _ => frequency_table

/-- The function `read_file_header`, called as `decompress` calls it (with `*list_size` and
`*bit_padding` zero): `none` for `NULL`, else the table, `*list_size`, `*bit_padding` and
the stream. -/
def read_file_header (input_file : FILE) : Option ((Nat → Nat) × Nat × Nat × FILE) :=
  let r1 := fread { input_file with pos := 0 } 1
  match r1.1 with
  | [] => none
  | c :: _ =>
    let list_size := c + 1
    let r2 := fread r1.2 (list_size * 2)
    if r2.1.length < list_size * 2 then none
    else
      let frequency_table := read_pairs (fun _ => 0) r2.1
      let header_end_pos := r2.2.pos
      let r3 := fread { r2.2 with pos := r2.2.data.length - 1 } 1
      match r3.1 with
      | [] => none
      | p :: _ => some (frequency_table, list_size, p, { r3.2 with pos := header_end_pos })

/-! ## Encoding and compression (`huffman.c`, `compressor.c`) -/

/-- One iteration of the inner `for` loop of `encode`; the flag records that the function
has returned 0. -/
def encode_step (cfg : Config) (code_table : Nat → Code) (st : BitWriter × Bool) (symbol : Nat) :
    BitWriter × Bool :=
  if st.2 then st
  else if (code_table symbol).length > 0 then
    let r := write_bits cfg st.1 (code_table symbol).code (code_table symbol).length
    (r.2, decide (r.1 = -1))
  else st

/-- The `while` loop of `encode`: `false` when the function returns 0 from inside it. -/
def encode_loop (cfg : Config) (code_table : Nat → Code) : Nat → FILE → BitWriter → Bool × BitWriter
  | 0, _, bw => (true, bw)
  | fuel + 1, f, bw =>
    let r := fread f cfg.READ_BUFFER_SIZE
    if r.1.length > 0 then
      let s := r.1.foldl (encode_step cfg code_table) (bw, false)
      if s.2 then (false, s.1) else encode_loop cfg code_table fuel r.2 s.1
    else (true, bw)

/-- The function `encode`: the returned value and the writer. -/
def encode (cfg : Config) (input_file : FILE) (bit_writer : BitWriter) (code_table : Nat → Code) :
    Nat × BitWriter :=
  let r := encode_loop cfg code_table (input_file.data.length + 1) { input_file with pos := 0 }
    bit_writer
  if r.1 then
    let fl := flush_writer r.2
    if fl.1 = -1 then (0, fl.2) else (1, fl.2)
  else (0, r.2)

/-- Lines 80 to 105 of `compress`: the heap is created with the capacity and filled with
the scale factor that `get_list_size` computes, then the tree is built; `none` when
`compress` returns 0 there. -/
def compress_tree (frequency_table : Nat → Nat) : Option Node :=
  let g := get_list_size frequency_table 0
  let fm := fill_minheap frequency_table (create_priority_queue g.1 compare_nodes) g.2
  if fm.1 < g.1 then none else (build_tree fm.2).1

/-- The function `compress` on non-`NULL` streams: the returned value and the output
stream. The writer's `file` is the output stream itself, so it sees the header. -/
def compress (cfg : Config) (memory : Uninit) (input_file output_file : FILE) : Nat × FILE :=
  let c := count_run cfg input_file
  match compress_tree c.1 with
  | none => (0, output_file)
  | some root =>
    let code_table := generate_huffman_code memory.code_table 0 0 root
    let bit_writer := init_writer memory.writer_buffer output_file
    let h := write_file_header output_file c.1
    if h.1 = 0 then (0, h.2)
    else
      let e := encode cfg c.2 { bit_writer with file := h.2 } code_table
      if e.1 = 0 then (0, e.2.file)
      else fwrite e.2.file [e.2.total_bits % 8]

/-- The code table that `compress` generates (its line 116), when it gets that far. -/
def compress_code_table (cfg : Config) (memory : Uninit) (input_file : FILE) :
    Option (Nat → Code) :=
  (compress_tree (count_run cfg input_file).1).map
    (generate_huffman_code memory.code_table 0 0)

/-! ## Bit reader, decoding and decompression -/

/-- A `BitReader`; `buffer` holds the bytes of the last `fread`. -/
structure BitReader where
  buffer : List Nat
  bit_pos : Nat
  file : FILE
  buffer_pos : Nat
  buffer_size : Nat
  bits_read : Nat

/-- The function `init_reader`; the buffer is not read before the first `fread` fills it. -/
def init_reader (file : FILE) : BitReader :=
  { buffer := [], bit_pos := 8, file := file, buffer_pos := 0, buffer_size := 0, bits_read := 0 }

/-- The last three statements of `read_bits`. -/
def take_bit (br : BitReader) : Int × BitReader :=
  ((((br.buffer.getD (br.buffer_pos - 1) 0 >>> (7 - br.bit_pos)) &&& 1 : Nat) : Int),
    { br with bit_pos := br.bit_pos + 1, bits_read := br.bits_read + 1 })

/-- The function `read_bits` on a non-`NULL` reader: the bit (or -1) and the reader. -/
def read_bits (cfg : Config) (br : BitReader) : Int × BitReader :=
  if br.bit_pos = 8 then
    if br.buffer_pos ≥ br.buffer_size then
      let r := fread br.file cfg.READ_BUFFER_SIZE
      if r.1.length = 0 then (-1, { br with buffer_size := 0, file := r.2 })
      else
        take_bit { br with
          buffer := r.1 ++ br.buffer.drop r.1.length
          buffer_size := r.1.length
          file := r.2
          buffer_pos := 1
          bit_pos := 0 }
    else take_bit { br with bit_pos := 0, buffer_pos := br.buffer_pos + 1 }
  else take_bit br

/-- The `while` loop of `decode`. The result is `none` when the loop dereferences `NULL`
(the `current` node is a leaf, so the child it moves to is `NULL`); otherwise whether the
loop was left normally (`false`: the function returned 0 from inside), the output stream,
the reader and the bytes pending in the output buffer. -/
def decode_loop (cfg : Config) (root : Node) (total_bits : Nat) :
    Nat → BitReader → Node → List Nat → FILE → Option (Bool × FILE × BitReader × List Nat)
  | 0, br, _, pending, out => some (true, out, br, pending)
  | fuel + 1, br, current, pending, out =>
    if br.bits_read ≤ total_bits then
      let rb := read_bits cfg br
      if rb.1 = -1 then some (true, out, rb.2, pending)
      else
        match current with
        | .leaf _ _ => none
        | .inner _ _ l_node r_node =>
          match (if rb.1 ≠ 0 then r_node else l_node) with
          | .leaf symbol _ =>
            if (pending ++ [symbol]).length ≥ cfg.READ_BUFFER_SIZE then
              let w := fwrite out (pending ++ [symbol])
              if w.1 < (pending ++ [symbol]).length then
                some (false, w.2, rb.2, pending ++ [symbol])
              else decode_loop cfg root total_bits fuel rb.2 root [] w.2
            else decode_loop cfg root total_bits fuel rb.2 root (pending ++ [symbol]) out
          | .inner s f l r => decode_loop cfg root total_bits fuel rb.2 (.inner s f l r) pending out
    else some (true, out, br, pending)

/-- The valid-bit budget `total_bits` that `decode` computes, in `size_t` arithmetic. -/
def decode_total_bits (file_size processed bit_padding : Nat) : Nat :=
  ((((file_size : Int) - (processed : Int) - 1) * 8 - 8 + (bit_padding : Int))
    % (SIZE_T_MOD : Int)).toNat

/-- The function `decode`: `none` when it dereferences `NULL`, else the returned value,
the output stream and the reader. Every iteration of its loop but the last consumes one
bit of the file, so `8 * file_size + 2` iterations suffice. -/
def decode (cfg : Config) (output_file : FILE) (bit_reader : BitReader) (root : Node)
    (bit_padding : Nat) : Option (Nat × FILE × BitReader) :=
  let file_size := get_file_size bit_reader.file
  let processed := bit_reader.file.pos
  let total_bits := decode_total_bits file_size processed bit_padding
  match decode_loop cfg root total_bits (8 * file_size + 2) bit_reader root [] output_file with
  | none => none
  | some (false, out, br, _) => some (0, out, br)
  | some (true, out, br, pending) =>
    if pending.length > 0 then
      let w := fwrite out pending
      if w.1 < pending.length then some (0, w.2, br) else some (1, w.2, br)
    else some (1, out, br)

/-- Lines 190 to 210 of `decompress`: the heap is created with the list size read from
the header and filled without scaling, then the tree is built; `none` when `decompress`
returns 0 there. -/
def decompress_tree (frequency_table : Nat → Nat) (list_size : Nat) : Option Node :=
  let fm := fill_minheap frequency_table (create_priority_queue list_size compare_nodes) 0
  if fm.1 < list_size then none else (build_tree fm.2).1

/-- The function `decompress`: `none` when `decode` dereferences `NULL`, else the returned
value and the output stream. The reader's `file` is the input stream itself, so it is
positioned where `read_file_header` leaves it. -/
def decompress (cfg : Config) (input_file output_file : FILE) : Option (Nat × FILE) :=
  let bit_reader := init_reader input_file
  match read_file_header input_file with
  | none => some (0, output_file)
  | some (frequency_table, list_size, bit_padding, f) =>
    match decompress_tree frequency_table list_size with
    | none => some (0, output_file)
    | some root =>
      match decode cfg output_file { bit_reader with file := f } root bit_padding with
      | none => none
      | some r => some (r.1, r.2.1)

/-! ## Running the program on a file -/

/-- A freshly opened stream over the bytes `bytes`, on a device with no size limit. -/
def file_of (bytes : List Nat) : FILE := { data := bytes, pos := 0, room := none }

/-- Memory that `malloc` hands out zero-filled. -/
def zero_memory : Uninit :=
  { writer_buffer := fun _ => 0, code_table := fun _ => { length := 0, code := 0 } }

/-- Compression of `S` into a new file followed by decompression of that file into
another new file: the value `compress` returns, and the outcome of `decompress` (the
value it returns and the bytes it writes, `none` when it dereferences `NULL`). -/
def round_trip (cfg : Config) (memory : Uninit) (S : List Nat) :
    Nat × Option (Nat × List Nat) :=
  let c := compress cfg memory (file_of S) (file_of [])
  (c.1, (decompress cfg (file_of c.2.data) (file_of [])).map (fun r => (r.1, r.2.data)))

/-! ## Reference descriptions used in the statements -/

/-- Number of non-zero entries among the 256 slots of a frequency table. -/
def nonzero_count (t : Nat → Nat) : Nat :=
  ((List.range FREQUENCY_TABLE_SIZE).filter (fun i => t i ≠ 0)).length

/-- For the slots listed in `L`, in that order: the symbol and the scaled count of every
non-zero entry. -/
def header_pairs (t : Nat → Nat) (scale : Nat) : List Nat → List Nat
  | [] => []
  | i :: L =>
    if t i ≠ 0 then i :: scale_down (t i) scale :: header_pairs t scale L
    else header_pairs t scale L

/-- The header of a table with `N` non-zero entries: the byte `N - 1`, then one pair
(symbol, scaled count) per non-zero entry in ascending symbol order, scaled by the factor
that `get_list_size` computes. -/
def header_bytes (t : Nat → Nat) : List Nat :=
  (nonzero_count t - 1) :: header_pairs t (get_list_size t 0).2 (List.range FREQUENCY_TABLE_SIZE)

/-- The table of scaled counts: `scale_down` of every non-zero entry, 0 elsewhere. -/
def scaled_table (t : Nat → Nat) : Nat → Nat :=
  fun i => if i < FREQUENCY_TABLE_SIZE ∧ t i ≠ 0 then scale_down (t i) (get_list_size t 0).2 else 0

/-- The comparator is a total preorder on the elements that satisfy `P`: "less than"
(a negative result) is asymmetric and "not less than" is transitive. -/
structure GoodCompare {α : Type} (compare : α → α → Int) (P : α → Prop) : Prop where
  asymm : ∀ a b, P a → P b → compare a b < 0 → ¬ compare b a < 0
  trans : ∀ a b c, P a → P b → P c → ¬ compare b a < 0 → ¬ compare c b < 0 → ¬ compare c a < 0

/-- Min-heap order of the array: no element compares less than its parent. -/
def HeapOrdered {α : Type} (compare : α → α → Int) (nodes : List α) : Prop :=
  ∀ i j a b, nodes[i]? = some a → nodes[j]? = some b → (j = 2 * i + 1 ∨ j = 2 * i + 2) →
    ¬ compare b a < 0

/-- Loop invariant of `heapify_up` at index `k`: the array is heap-ordered except that
the element at `k` may compare less than its parent. -/
def UpInv {α : Type} (compare : α → α → Int) (l : List α) (k : Nat) : Prop :=
  (∀ i j a b, l[i]? = some a → l[j]? = some b → (j = 2 * i + 1 ∨ j = 2 * i + 2) → j ≠ k →
    ¬ compare b a < 0) ∧
  (∀ i j a b, l[i]? = some a → l[j]? = some b → (k = 2 * i + 1 ∨ k = 2 * i + 2) →
    (j = 2 * k + 1 ∨ j = 2 * k + 2) → ¬ compare b a < 0)

/-- Invariant of `heapify_down` at index `k`: the array is heap-ordered except that the
children of `k` may compare less than the element at `k`. -/
def DownInv {α : Type} (compare : α → α → Int) (l : List α) (k : Nat) : Prop :=
  (∀ i j a b, l[i]? = some a → l[j]? = some b → (j = 2 * i + 1 ∨ j = 2 * i + 2) → i ≠ k →
    ¬ compare b a < 0) ∧
  (∀ i j a b, l[i]? = some a → l[j]? = some b → (k = 2 * i + 1 ∨ k = 2 * i + 2) →
    (j = 2 * k + 1 ∨ j = 2 * k + 2) → ¬ compare b a < 0)

/-- The leaves of a tree from left to right, as pairs (symbol, frequency). -/
def Node.leaves : Node → List (Nat × Nat)
  | .leaf symbol frequency => [(symbol, frequency)]
  | .inner _ _ l_node r_node => l_node.leaves ++ r_node.leaves

/-- Sum of the frequencies of the leaves of a tree. -/
def Node.weight : Node → Nat
  | .leaf _ frequency => frequency
  | .inner _ _ l_node r_node => l_node.weight + r_node.weight

/-- Weighted path length of a tree: the sum over its leaves of frequency times depth. -/
def Node.cost : Node → Nat
  | .leaf _ _ => 0
  | .inner _ _ l_node r_node => l_node.cost + r_node.cost + l_node.weight + r_node.weight

/-- A tree as `fill_minheap` and `combine_nodes` make them: leaf symbols are bytes, an
inner node carries the symbol 0xFF and the sum of the frequencies of its children. -/
def Node.WellFormed : Node → Prop
  | .leaf symbol _ => symbol < 256
  | .inner symbol frequency l_node r_node =>
    symbol = 0xFF ∧ frequency = l_node.frequency + r_node.frequency ∧
      l_node.WellFormed ∧ r_node.WellFormed

/-- Sum of the `frequency` fields of the nodes of a list. -/
def total_frequency (L : List Node) : Nat := (L.map Node.frequency).sum

/-- The nodes on which `compare_nodes` orders by (frequency, symbol): the symbol is a
byte and the frequency is small enough for the difference to fit an `int`. -/
def SmallNode (n : Node) : Prop := n.symbol < 256 ∧ n.frequency < 2147483648

/-- The tree `R` results from the nodes `L` by repeatedly replacing two nodes of least
frequency `a` and `b` by `combine_nodes a b`. -/
inductive Builds : List Node → Node → Prop
  | single (n : Node) : Builds [n] n
  | merge (L : List Node) (a b : Node) (rest : List Node) (R : Node) :
      L.Perm (a :: b :: rest) →
      (∀ x ∈ b :: rest, a.frequency ≤ x.frequency) →
      (∀ x ∈ rest, b.frequency ≤ x.frequency) →
      Builds (combine_nodes a b :: rest) R → Builds L R

/-- Invariant of the priority queue while `build_tree` runs: it uses `compare_nodes`, is
heap-ordered and within its capacity, its symbols are bytes and the sum of its
frequencies fits an `int`. -/
structure QueueInv (heap : Heap Node) : Prop where
  cmp : heap.compare = compare_nodes
  ordered : HeapOrdered compare_nodes heap.nodes
  bytes : ∀ n ∈ heap.nodes, n.symbol < 256
  total : total_frequency heap.nodes < 2147483648
  room : heap.size ≤ heap.max_size

/-- The leaves that `fill_minheap` creates for the slots listed in `L`: one per non-zero
entry, carrying the scaled count. -/
def leaf_nodes (t : Nat → Nat) (scale : Nat) (L : List Nat) : List Node :=
  (L.filter (fun i => t i ≠ 0)).map (fun i => Node.leaf i (scale_down (t i) scale))

/-- The leaves `compress` puts in the heap for the table `t`. -/
def compress_leaves (t : Nat → Nat) : List Node :=
  leaf_nodes t (get_list_size t 0).2 (List.range FREQUENCY_TABLE_SIZE)

/-- Kraft sum, scaled by `2 ^ H`, of an assignment of depths: a multiset of pairs
(weight, depth). -/
def kraft_sum (H : Nat) (A : Multiset (Nat × Nat)) : Nat :=
  (A.map (fun p => 2 ^ (H - p.2))).sum

/-- Cost of an assignment of depths: the sum of weight times depth. -/
def assignment_cost (A : Multiset (Nat × Nat)) : Nat :=
  (A.map (fun p => p.1 * p.2)).sum

/-- The depths of the assignment are at most `H` and satisfy Kraft's inequality. -/
def ValidDepths (H : Nat) (A : Multiset (Nat × Nat)) : Prop :=
  (∀ p ∈ A, p.2 ≤ H) ∧ kraft_sum H A ≤ 2 ^ H

/-- Neither of two words is a prefix of the other. -/
def Incomparable (u v : List Bool) : Prop := ¬ u <+: v ∧ ¬ v <+: u

/-- The words of `ws` that start with the bit `b`, without that bit. -/
def tails_of (b : Bool) (ws : List (List Bool)) : List (List Bool) :=
  ws.filterMap (fun w => match w with
    | [] => none
    | x :: t => if x = b then some t else none)

/-- The leaves of a tree whose root is at depth `d`, as triples (symbol, frequency,
depth). -/
def Node.leaves_at : Node → Nat → List (Nat × Nat × Nat)
  | .leaf symbol frequency, d => [(symbol, frequency, d)]
  | .inner _ _ l_node r_node, d => l_node.leaves_at (d + 1) ++ r_node.leaves_at (d + 1)

/-- Height of a tree: the largest depth of a leaf. -/
def Node.height : Node → Nat
  | .leaf _ _ => 0
  | .inner _ _ l_node r_node => max l_node.height r_node.height + 1

/-- The symbols present in a frequency table, in ascending order. -/
def present_symbols (t : Nat → Nat) : List Nat :=
  (List.range FREQUENCY_TABLE_SIZE).filter (fun i => t i ≠ 0)

/-- Cost of a code with the code lengths `len` on the table `t`: the sum over the symbols
present of scaled frequency times code length. -/
def code_cost (t : Nat → Nat) (len : Nat → Nat) : Nat :=
  ((present_symbols t).map (fun s => scale_down (t s) (get_list_size t 0).2 * len s)).sum

/-- The binary code `c` is prefix-free on the symbols `syms`: the codeword of a symbol is
never a prefix of the codeword of another symbol. -/
def PrefixFreeOn (syms : List Nat) (c : Nat → List Bool) : Prop :=
  ∀ a ∈ syms, ∀ b ∈ syms, a ≠ b → ¬ c a <+: c b

/-- The largest of the 256 entries of a frequency table. -/
def table_max (t : Nat → Nat) : Nat :=
  ((List.range FREQUENCY_TABLE_SIZE).map t).foldr max 0

/-- The frequency table of the input "AAAB". -/
def table_AAAB : Nat → Nat := fun i => if i = 0x41 then 3 else if i = 0x42 then 1 else 0

/-- A run of the bit writer: `init_writer` on an empty sink that accepts every byte, one
`write_bits` call per `(code, length)` pair (in order), then `flush_writer`; the result is
the bytes delivered to the sink. -/
def write_calls (cfg : Config) (memory : Nat → Nat) (calls : List (Nat × Nat)) : List Nat :=
  (flush_writer (calls.foldl (fun bw c => (write_bits cfg bw c.1 c.2).2)
    (init_writer memory (file_of [])))).2.file.data

/-- The low `length` bits of `code`, most significant first. -/
def code_bits (code length : Nat) : List Nat :=
  (List.range length).map (fun i => code / 2 ^ (length - 1 - i) % 2)

/-- The byte made of the first eight bits of a list, most significant first; missing bits
count as zero. -/
def byte_value (bits : List Nat) : Nat :=
  bits.getD 0 0 * 128 + bits.getD 1 0 * 64 + bits.getD 2 0 * 32 + bits.getD 3 0 * 16 +
    bits.getD 4 0 * 8 + bits.getD 5 0 * 4 + bits.getD 6 0 * 2 + bits.getD 7 0

/-- A bit sequence packed 8 per byte, the last byte padded with zero bits. -/
def pack_bytes (bits : List Nat) : List Nat :=
  (List.range ((bits.length + 7) / 8)).map (fun j => byte_value (bits.drop (8 * j)))

/-- The bit sequence of a list of `write_bits` calls. -/
def calls_bits (calls : List (Nat × Nat)) : List Nat :=
  calls.flatMap (fun c => code_bits c.1 c.2)

/-- State of a writer that has taken the bit sequence `bits` on a sink without limit: `k`
whole bytes are in the sink, the rest of the bits sit in the buffer, packed, over zeros. -/
def WriterInv (cap : Nat) (bw : BitWriter) (bits : List Nat) : Prop :=
  ∃ k, bits.length = 8 * k + bw.bit_count ∧ bw.bit_count ≤ 8 * cap ∧
    bw.file.room = none ∧ bw.total_bits = bits.length ∧
    bw.file.data = (List.range k).map (fun j => byte_value (bits.drop (8 * j))) ∧
    ∀ j, bw.buffer j = byte_value (bits.drop (8 * (k + j)))

/-- The comparator is a total preorder: the relation "`a` does not compare less than `b`"
is total and transitive. -/
def TotalPreorder {α : Type} (compare : α → α → Int) : Prop :=
  (∀ a b, ¬ compare a b < 0 ∨ ¬ compare b a < 0) ∧
  (∀ a b c, ¬ compare b a < 0 → ¬ compare c b < 0 → ¬ compare c a < 0)

/-- A comparator on integers: the difference. -/
def int_compare (a b : Int) : Int := a - b

/-- A heap of three integers with one free slot. -/
def heap_example : Heap Int := { compare := int_compare, nodes := [1, 3, 2], max_size := 4 }

/-- A heap of two integers without a free slot. -/
def heap_full : Heap Int := { compare := int_compare, nodes := [1, 3], max_size := 2 }

/-- A heap of the three leaves B, A, C, filled to its capacity. -/
def heap_BAC : Heap Node :=
  { compare := compare_nodes, nodes := [.leaf 0x42 1, .leaf 0x41 3, .leaf 0x43 2], max_size := 3 }

/-- The largest object size `malloc` serves: a request beyond it returns `NULL`. -/
def PTRDIFF_MAX : Nat := 9223372036854775807

/-- One iteration of the `while` loop of `extract_filename_format` (`utils.c`) on the
character `c` of the path: the state is `(last_slash_pos, last_dot_pos, pos)`. -/
def extract_step (st : Int × Int × Nat) (c : Nat) : Int × Int × Nat :=
  (if c = 0x2F ∨ c = 0x5C then (st.2.2 : Int) else st.1,
    if c = 0x2E then (st.2.2 : Int) else st.2.1,
    st.2.2 + 1)

/-- The function `extract_filename_format` on the characters of `filepath` (without the
terminating zero): the returned value, `*filename` and `*fileformat` (`none`: the pointer
was not assigned, or `malloc` returned `NULL`). The sizes are `size_t` values. -/
def extract_filename_format (filepath : List Nat) :
    Int × Option (List Nat) × Option (List Nat) :=
  let st := filepath.foldl extract_step (-1, -1, 0)
  let last_slash_pos := st.1
  let pos := st.2.2
  if last_slash_pos = -1 then (-1, none, none)
  else
    let last_dot_pos := if st.2.1 < 1 then (pos : Int) else st.2.1
    let filename_size := ((last_dot_pos - last_slash_pos - 1) % (SIZE_T_MOD : Int)).toNat
    if filename_size ≥ 1 ∧ (filename_size + 1) % SIZE_T_MOD > PTRDIFF_MAX then (-1, none, none)
    else
      let filename :=
        if filename_size ≥ 1 then
          some ((filepath.drop (last_slash_pos + 1).toNat).take filename_size)
        else none
      let result : Int := if filename_size ≥ 1 then 0 else -1
      if last_dot_pos > -1 ∧ ((pos : Int) - last_dot_pos) % (SIZE_T_MOD : Int) > 1 then
        let fileformat_size := (((pos : Int) - last_dot_pos - 1) % (SIZE_T_MOD : Int)).toNat
        if (fileformat_size + 1) % SIZE_T_MOD > PTRDIFF_MAX then (-1, filename, none)
        else
          (if result = 0 then 2 else 1, filename,
            some ((filepath.drop (last_dot_pos + 1).toNat).take fileformat_size))
      else (result, filename, none)

/-- The path "./a.huf". -/
def path_a_huf : List Nat := [0x2E, 0x2F, 0x61, 0x2E, 0x68, 0x75, 0x66]

/-- The reader after `n` calls of `read_bits`. -/
def read_bits_iter (cfg : Config) : Nat → BitReader → BitReader
  | 0, br => br
  | n + 1, br => read_bits_iter cfg n (read_bits cfg br).2

/-- State of a reader over the bytes `B` that has not met the end of the file: the buffer
holds the bytes of `B` from the offset `base` on, and `bits_read` bits, up to the current
position in the buffer, have been returned. -/
def ReaderLive (B : List Nat) (br : BitReader) : Prop :=
  br.file.data = B ∧ br.bit_pos ≤ 8 ∧
  ∃ base, br.file.pos = base + br.buffer_size ∧ br.file.pos ≤ B.length ∧
    br.buffer_pos ≤ br.buffer_size ∧ (br.bit_pos < 8 → 1 ≤ br.buffer_pos) ∧
    br.bits_read + 8 = 8 * (base + br.buffer_pos) + br.bit_pos ∧
    ∀ i, i < br.buffer_size → br.buffer.getD i 0 = B.getD (base + i) 0

/-- State of a reader over the bytes `B` that has returned all the bits of `B`. -/
def ReaderDone (B : List Nat) (br : BitReader) : Prop :=
  br.file.data = B ∧ br.bit_pos = 8 ∧ br.buffer_pos ≥ br.buffer_size ∧
    br.file.pos ≥ B.length ∧ br.bits_read = 8 * B.length

/-- The writer that `compress` holds when `encode` has returned 1 (its line 137), when it
gets that far. -/
def compress_writer (cfg : Config) (memory : Uninit) (input_file output_file : FILE) :
    Option BitWriter :=
  let c := count_run cfg input_file
  match compress_tree c.1 with
  | none => none
  | some root =>
    let code_table := generate_huffman_code memory.code_table 0 0 root
    let bit_writer := init_writer memory.writer_buffer output_file
    let h := write_file_header output_file c.1
    if h.1 = 0 then none
    else
      let e := encode cfg c.2 { bit_writer with file := h.2 } code_table
      if e.1 = 0 then none else some e.2

/-- Counters of a writer on a sink without limit that has taken `T` bits since the sink
held `pre`: the whole bytes are in the sink, `bit_count` bits are in the buffer. -/
def WriterCount (cap : Nat) (bw : BitWriter) (pre : List Nat) (T : Nat) : Prop :=
  bw.file.room = none ∧ bw.bit_count ≤ 8 * cap ∧ bw.total_bits = T ∧
    ∃ body, bw.file.data = pre ++ body ∧ T = 8 * body.length + bw.bit_count

/-- The frequency table of `n` copies of the byte `b`. -/
def single_table (b n : Nat) : Nat → Nat := fun i => if i = b then n else 0

/-- Number of internal nodes of a tree. -/
def Node.inner_count : Node → Nat
  | .leaf _ _ => 0
  | .inner _ _ l_node r_node => l_node.inner_count + r_node.inner_count + 1

/-- The leaves of a tree from left to right, as nodes. -/
def Node.leaf_list : Node → List Node
  | .leaf symbol frequency => [.leaf symbol frequency]
  | .inner _ _ l_node r_node => l_node.leaf_list ++ r_node.leaf_list

/-- Every internal node of the tree carries the symbol 0xFF and the sum of the
frequencies of its two children. -/
def Node.Combined : Node → Prop
  | .leaf _ _ => True
  | .inner symbol frequency l_node r_node =>
    symbol = 0xFF ∧ frequency = l_node.frequency + r_node.frequency ∧
      l_node.Combined ∧ r_node.Combined

/-- A heap of the two leaves A (frequency 3) and B (frequency 1). -/
def heap_AB : Heap Node :=
  { compare := compare_nodes, nodes := [.leaf 0x42 1, .leaf 0x41 3], max_size := 2 }

/-- The leaves of a tree from left to right, each with its symbol and the path from the
root to it: `true` for a step to the right child, `false` for a step to the left child. -/
def Node.paths : Node → List (Nat × List Bool)
  | .leaf symbol _ => [(symbol, [])]
  | .inner _ _ l_node r_node =>
    l_node.paths.map (fun p => (p.1, false :: p.2)) ++
      r_node.paths.map (fun p => (p.1, true :: p.2))

/-- The bits of a path: 1 for a step to the right child, 0 for a step to the left child. -/
def path_bits (path : List Bool) : List Nat := path.map (fun b => if b then 1 else 0)

/-- The number whose binary digits, most significant first, are `bits`. -/
def bits_value : List Nat → Nat
  | [] => 0
  | b :: bits => b * 2 ^ bits.length + bits_value bits

/-- The tree of three leaves in which A sits at depth 1 and B, C at depth 2. -/
def tree_ABC : Node :=
  .inner 0xFF 6 (.inner 0xFF 2 (.leaf 0x42 1) (.leaf 0x43 1)) (.leaf 0x41 4)

/-- The children of the node, if it has any, have frequencies of at most `w`. -/
def Node.ChildrenLe (w : Nat) : Node → Prop
  | .leaf _ _ => True
  | .inner _ _ l_node r_node => l_node.frequency ≤ w ∧ r_node.frequency ≤ w

/-- Sibling property of a tree built by merging least nodes: at every internal node, each
child has a frequency at least as large as those of the children of the other child. -/
def Node.Sibling : Node → Prop
  | .leaf _ _ => True
  | .inner _ _ l_node r_node =>
    l_node.ChildrenLe r_node.frequency ∧ r_node.ChildrenLe l_node.frequency ∧
      l_node.Sibling ∧ r_node.Sibling

/-- Every internal node carries the sum of the frequencies of its children, and every
leaf a frequency of at least 1. -/
def Node.Weighted : Node → Prop
  | .leaf _ frequency => 1 ≤ frequency
  | .inner _ frequency l_node r_node =>
    frequency = l_node.frequency + r_node.frequency ∧ l_node.Weighted ∧ r_node.Weighted

/-- A table of three symbols with the counts 4, 1, 1. -/
def table_ABC : Nat → Nat :=
  fun i => if i = 0x41 then 4 else if i = 0x42 then 1 else if i = 0x43 then 1 else 0

/-- The pairs (symbol, frequency byte) of a header, in the order of the file. -/
def pair_list : List Nat → List (Nat × Nat)
  | symbol :: count :: rest => (symbol, count) :: pair_list rest
  | _ => []

/-- The tree `decompress` builds for the file that `compress` writes for "AAAB". -/
def tree_AAAB : Node := .inner 0xFF 4 (.leaf 0x42 1) (.leaf 0x41 3)

/-- The file that `compress` writes for "AAAB" (zero-filled memory). -/
def file_AAAB : List Nat := [0x01, 0x41, 0x03, 0x42, 0x01, 0xE0, 0x04]

/-- The stream `f` on a device that already holds the bytes `pre` in front of it. -/
def FILE.after (pre : List Nat) (f : FILE) : FILE := { f with data := pre ++ f.data }

/-- The writer `bw` with its sink on a device that already holds the bytes `pre`. -/
def BitWriter.after (pre : List Nat) (bw : BitWriter) : BitWriter :=
  { bw with file := bw.file.after pre }

/-- The bits that `encode` writes for the symbols `S` with the code table `ct`. -/
def encoded_bits (ct : Nat → Code) (S : List Nat) : List Nat :=
  S.flatMap (fun x => code_bits (ct x).code (ct x).length)

/-- The reader `br` with its bit counter advanced by `c`. -/
def BitReader.ahead (c : Nat) (br : BitReader) : BitReader :=
  { br with bits_read := br.bits_read + c }

/-- Reference decoder: the symbols reached by walking the bits from the node `current` in
the tree `root`, right child on a non-zero bit and left child on 0, restarting at the root
after each leaf; `none` when a step is asked of a leaf. -/
def walk_bits (root : Node) : Node → List Nat → Option (List Nat)
  | _, [] => some []
  | .leaf _ _, _ :: _ => none
  | .inner _ _ l_node r_node, b :: bits =>
    match (if b ≠ 0 then r_node else l_node) with
    | .leaf symbol _ => (walk_bits root root bits).map (fun out => symbol :: out)
    | .inner s f l r => walk_bits root (.inner s f l r) bits

/-- Whether the left child of a node is a leaf (`false` for a leaf, which has no child). -/
def Node.left_leaf : Node → Bool
  | .inner _ _ (.leaf _ _) _ => true
  | _ => false

/-- The codeword of a code-table entry: the low `length` bits of `code`, most significant
first, `true` for the bit 1. -/
def code_word (entry : Code) : List Bool :=
  (code_bits entry.code entry.length).map (fun b => decide (b = 1))

/-- A tree whose two leaves carry the same symbol A. -/
def tree_AA : Node := .inner 0xFF 2 (.leaf 0x41 1) (.leaf 0x41 1)

/-! # Properties -/

/-! ## Reading a file in chunks -/

theorem chunk_split (l : List Nat) (n : Nat) : l.take n ++ l.drop (l.take n).length = l := by
  rw [List.length_take]
  rcases Nat.le_total n l.length with h | h
  · rw [Nat.min_eq_left h]; exact List.take_append_drop n l
  · rw [Nat.min_eq_right h, List.take_of_length_le h, List.drop_length]; simp

theorem fread_data (f : FILE) (n : Nat) : (fread f n).2.data = f.data := rfl

theorem fread_room (f : FILE) (n : Nat) : (fread f n).2.room = f.room := rfl

theorem count_chunk_append (table : Nat → Nat) (xs ys : List Nat) :
    count_chunk table (xs ++ ys) = count_chunk (count_chunk table xs) ys := by
  simp [count_chunk, List.foldl_append]

theorem fread_rest (f : FILE) (n : Nat) :
    (fread f n).1 ++ (fread f n).2.data.drop (fread f n).2.pos = f.data.drop f.pos := by
  simp only [fread]
  rw [← List.drop_drop]
  exact chunk_split _ _

theorem fread_nil (f : FILE) (n : Nat) (hn : 1 ≤ n) (h0 : (fread f n).1.length = 0) :
    f.data.drop f.pos = [] := by
  simp only [fread, List.length_take, List.length_drop] at h0
  apply List.eq_nil_of_length_eq_zero
  simp only [List.length_drop]
  omega

theorem fread_measure (f : FILE) (n : Nat) (h0 : ¬ (fread f n).1.length = 0) :
    (fread f n).2.data.length - (fread f n).2.pos < f.data.length - f.pos := by
  simp only [fread, List.length_take, List.length_drop] at h0 ⊢
  omega

theorem count_loop_fst (cfg : Config) (hc : 1 ≤ cfg.READ_BUFFER_SIZE) :
    ∀ (fuel : Nat) (f : FILE) (table : Nat → Nat), f.data.length - f.pos < fuel →
      (count_loop cfg fuel f table).1 = count_chunk table (f.data.drop f.pos) := by
  intro fuel
  induction fuel with
  | zero => intro f table h; omega
  | succ fuel ih =>
    intro f table h
    simp only [count_loop]
    by_cases h0 : (fread f cfg.READ_BUFFER_SIZE).1.length = 0
    · simp only [h0, if_true]
      simp [fread_nil f _ hc h0, count_chunk]
    · simp only [h0, if_false]
      have hm := fread_measure f _ h0
      rw [ih _ _ (by omega), ← count_chunk_append, fread_rest]

theorem count_loop_snd (cfg : Config) :
    ∀ (fuel : Nat) (f : FILE) (table : Nat → Nat),
      (count_loop cfg fuel f table).2.data = f.data ∧
      (count_loop cfg fuel f table).2.room = f.room := by
  intro fuel
  induction fuel with
  | zero => intro f table; exact ⟨rfl, rfl⟩
  | succ fuel ih =>
    intro f table
    simp only [count_loop]
    split
    · exact ⟨rfl, rfl⟩
    · exact ih _ _

theorem count_run_fst (cfg : Config) (hc : 1 ≤ cfg.READ_BUFFER_SIZE) (f : FILE) :
    (count_run cfg f).1 = count_chunk (fun _ => 0) (f.data.drop f.pos) :=
  count_loop_fst cfg hc _ f _ (by omega)

theorem count_run_empty (cfg : Config) (pos : Nat) (room : Option Nat) :
    (count_run cfg ⟨[], pos, room⟩).1 = fun _ => 0 := by
  simp [count_run, count_loop, fread]

/-! ## Empty input -/

theorem get_list_size_zero : get_list_size (fun _ => 0) 0 = (0, 1) := by decide!

theorem fill_minheap_zero_fst :
    (fill_minheap (fun _ => 0) (create_priority_queue 0 compare_nodes) 1).1 = 0 := by decide!

theorem build_tree_zero :
    (build_tree (fill_minheap (fun _ => 0) (create_priority_queue 0 compare_nodes) 1).2).1
      = none := by decide!

/-- C10: `compress` on an empty input returns 0 and leaves the output stream untouched,
whatever the buffer sizes and the contents of uninitialised memory. -/
theorem compress_empty_input_fails (cfg : Config) (memory : Uninit) (pos : Nat)
    (room : Option Nat) (output_file : FILE) :
    compress cfg memory ⟨[], pos, room⟩ output_file = (0, output_file) := by
  unfold compress compress_tree
  simp only [count_run_empty, get_list_size_zero, fill_minheap_zero_fst, build_tree_zero,
    Nat.lt_irrefl, if_false]

/-! ## Runs on concrete inputs -/

/-- C1 (failing input): on the input "AAAB", with zero-filled memory, `compress` succeeds
and `decompress` succeeds on its output but writes "AAABB": the loop of `decode` runs
while `bits_read <= total_bits`, so it reads one bit more than the budget, here a padding
bit that decodes to a fifth symbol. -/
theorem round_trip_AAAB :
    round_trip ⟨4096, 4096⟩ zero_memory [0x41, 0x41, 0x41, 0x42]
      = (1, some (1, [0x41, 0x41, 0x41, 0x42, 0x42])) := by decide!

/-- C2 (failing input): on the one-byte input "A", `compress` succeeds and `decompress`
dereferences `NULL` on its output: the root of the tree is a leaf, and `decode` moves to
a child of the current node before it tests for a leaf. -/
theorem round_trip_single_byte :
    round_trip ⟨4096, 4096⟩ zero_memory [0x41] = (1, none) := by decide!

/-- C3 (failing input): on "AAAAAAAB", whose 8 code bits fill one byte exactly, `compress`
stores 0 in the trailing byte and `decompress` writes the single byte "A" instead of the
8 bytes of the input. -/
theorem round_trip_eight_bits :
    round_trip ⟨4096, 4096⟩ zero_memory [0x41, 0x41, 0x41, 0x41, 0x41, 0x41, 0x41, 0x42]
      = (1, some (1, [0x41])) := by decide!

/-- C4 (counterexample): on "AAAB" with zero-filled memory it is not the case that A gets
the code 0, B the code 1 and the output is 01 41 03 42 01 10 04. -/
theorem compress_AAAB_claimed_fails :
    ¬ ((compress_code_table ⟨4096, 4096⟩ zero_memory (file_of [0x41, 0x41, 0x41, 0x42])).map
          (fun ct => (ct 0x41, ct 0x42)) = some (⟨1, 0⟩, ⟨1, 1⟩) ∧
        (compress ⟨4096, 4096⟩ zero_memory (file_of [0x41, 0x41, 0x41, 0x42]) (file_of [])).2.data
          = [0x01, 0x41, 0x03, 0x42, 0x01, 0x10, 0x04]) := by decide!

/-- C5 (failing input): on "AAAB", when the block that `init_writer` allocates holds the
bytes 0xFF, the byte of the bit stream is 0xFF instead of the code bits 1110 followed by
zero padding: `write_bits` ORs the bits into a buffer that was never cleared. -/
theorem compress_AAAB_garbage :
    (compress ⟨4096, 4096⟩ { zero_memory with writer_buffer := fun _ => 0xFF }
        (file_of [0x41, 0x41, 0x41, 0x42]) (file_of [])).2.data
      = [0x01, 0x41, 0x03, 0x42, 0x01, 0xFF, 0x04] := by decide!

/-! ## The input "AAAB" for every buffer size -/

theorem encode_step_failed (cfg : Config) (ct : Nat → Code) (bw : BitWriter) (xs : List Nat) :
    xs.foldl (encode_step cfg ct) (bw, true) = (bw, true) := by
  induction xs with
  | nil => rfl
  | cons x xs ih => simpa [encode_step] using ih

theorem encode_loop_eq (cfg : Config) (hc : 1 ≤ cfg.READ_BUFFER_SIZE) (ct : Nat → Code) :
    ∀ (fuel : Nat) (f : FILE) (bw : BitWriter), f.data.length - f.pos < fuel →
      encode_loop cfg ct fuel f bw =
        (!((f.data.drop f.pos).foldl (encode_step cfg ct) (bw, false)).2,
          ((f.data.drop f.pos).foldl (encode_step cfg ct) (bw, false)).1) := by
  intro fuel
  induction fuel with
  | zero => intro f bw h; omega
  | succ fuel ih =>
    intro f bw h
    simp only [encode_loop]
    by_cases h0 : (fread f cfg.READ_BUFFER_SIZE).1.length = 0
    · simp [h0, fread_nil f _ hc h0]
    · have hm := fread_measure f _ h0
      have hpos : (fread f cfg.READ_BUFFER_SIZE).1.length > 0 := Nat.pos_of_ne_zero h0
      simp only [hpos, if_true]
      rw [← fread_rest f cfg.READ_BUFFER_SIZE, List.foldl_append]
      generalize hs : List.foldl (encode_step cfg ct) (bw, false)
        (fread f cfg.READ_BUFFER_SIZE).1 = s
      obtain ⟨sw, sb⟩ := s
      cases sb with
      | true => simp [encode_step_failed]
      | false => simpa using ih (fread f cfg.READ_BUFFER_SIZE).2 sw (by omega)

theorem encode_AAAB_fold (cfg : Config) (h2 : 1 ≤ cfg.OUTPUT_BUFFER_SIZE) (ct : Nat → Code)
    (hA : ct 0x41 = ⟨1, 1⟩) (hB : ct 0x42 = ⟨1, 0⟩) (f : FILE) :
    [0x41, 0x41, 0x41, 0x42].foldl (encode_step cfg ct)
        ({ buffer := fun _ => 0, file := f, bit_count := 0, total_bits := 0 }, false)
      = ({ buffer := Function.update (fun _ => 0) 0 0xE0, file := f, bit_count := 4,
           total_bits := 4 }, false) := by
  have hk : ¬ cfg.OUTPUT_BUFFER_SIZE ≤ 0 := by omega
  have e1 : (0 ||| 1 <<< 7) = 128 := by decide
  have e2 : (128 ||| 1 <<< 6) = 192 := by decide
  have e3 : (192 ||| 1 <<< 5) = 224 := by decide
  have e4 : (224 ||| 0 <<< 4) = 224 := by decide
  simp [encode_step, write_bits, write_bits_step, put_bit, hA, hB, hk, List.range_succ,
    e1, e2, e3, e4]

theorem count_run_file_of (cfg : Config) (hc : 1 ≤ cfg.READ_BUFFER_SIZE) (S : List Nat) :
    (count_run cfg (file_of S)).1 = count_chunk (fun _ => 0) S := by
  rw [count_run_fst cfg hc]; rfl

theorem count_run_data (cfg : Config) (f : FILE) : (count_run cfg f).2.data = f.data :=
  (count_loop_snd cfg _ f _).1

theorem compress_tree_AAAB :
    compress_tree (count_chunk (fun _ => 0) [0x41, 0x41, 0x41, 0x42])
      = some (.inner 0xFF 4 (.leaf 0x42 1) (.leaf 0x41 3)) := by decide!

theorem write_file_header_AAAB :
    write_file_header (file_of []) (count_chunk (fun _ => 0) [0x41, 0x41, 0x41, 0x42])
      = (1, ⟨[0x01, 0x41, 0x03, 0x42, 0x01], 5, none⟩) := by decide!

/-- C4 (amended): whatever the buffer sizes (at least 1) and the garbage in the code table,
`compress` on "AAAB" gives A the code 1 of length 1 and B the code 0 of length 1 and, when
the writer's buffer is zero at allocation, returns 1 and writes the 7 bytes
01 41 03 42 01 E0 04 (bit stream 1110, zero padded, then the trailing byte 4). -/
theorem compress_AAAB_output (cfg : Config) (memory : Uninit)
    (h1 : 1 ≤ cfg.READ_BUFFER_SIZE) (h2 : 1 ≤ cfg.OUTPUT_BUFFER_SIZE)
    (hz : ∀ i, memory.writer_buffer i = 0) :
    (compress_code_table cfg memory (file_of [0x41, 0x41, 0x41, 0x42])).map
        (fun ct => (ct 0x41, ct 0x42)) = some (⟨1, 1⟩, ⟨1, 0⟩) ∧
      compress cfg memory (file_of [0x41, 0x41, 0x41, 0x42]) (file_of [])
        = (1, ⟨[0x01, 0x41, 0x03, 0x42, 0x01, 0xE0, 0x04], 7, none⟩) := by
  have hbuf : (fun i => memory.writer_buffer i % 256) = fun _ => 0 := by
    funext i; simp [hz]
  have hA : generate_huffman_code memory.code_table 0 0
      (.inner 0xFF 4 (.leaf 0x42 1) (.leaf 0x41 3)) 0x41 = ⟨1, 1⟩ := by
    simp [generate_huffman_code, Function.update_apply]
  have hB : generate_huffman_code memory.code_table 0 0
      (.inner 0xFF 4 (.leaf 0x42 1) (.leaf 0x41 3)) 0x42 = ⟨1, 0⟩ := by
    simp [generate_huffman_code, Function.update_apply]
  constructor
  · simp only [compress_code_table, count_run_file_of cfg h1, compress_tree_AAAB,
      Option.map_some', hA, hB]
  · unfold compress
    simp only [count_run_file_of cfg h1, compress_tree_AAAB, write_file_header_AAAB]
    simp only [encode, count_run_data, file_of, init_writer, hbuf]
    rw [encode_loop_eq cfg h1 _ _ _ _ (by simp)]
    simp only [List.drop_zero, encode_AAAB_fold cfg h2 _ hA hB]
    simp [flush_writer, fwrite, List.range_succ]

/-- Witness for `compress_AAAB_output`: buffer sizes 4096 and zero-filled memory. -/
theorem compress_AAAB_output_witness :
    (compress_code_table ⟨4096, 4096⟩ zero_memory (file_of [0x41, 0x41, 0x41, 0x42])).map
        (fun ct => (ct 0x41, ct 0x42)) = some (⟨1, 1⟩, ⟨1, 0⟩) ∧
      compress ⟨4096, 4096⟩ zero_memory (file_of [0x41, 0x41, 0x41, 0x42]) (file_of [])
        = (1, ⟨[0x01, 0x41, 0x03, 0x42, 0x01, 0xE0, 0x04], 7, none⟩) :=
  compress_AAAB_output ⟨4096, 4096⟩ zero_memory (by decide) (by decide) (fun _ => rfl)

/-! ## Scaling and the header -/

theorem scale_down_ne_zero (value scale : Nat) (h : value ≠ 0) : scale_down value scale ≠ 0 := by
  unfold scale_down
  by_cases hs : scale > 1
  · simp only [hs, if_true, and_true]
    split <;> omega
  · simp only [hs, if_false, and_false]
    exact h

theorem scale_down_zero_scale (value : Nat) : scale_down value 0 = value := by
  simp [scale_down]

theorem scale_down_le (value m : Nat) (h : value ≤ m) : scale_down value (m / 255 + 1) ≤ 255 := by
  unfold scale_down
  by_cases hs : m / 255 + 1 > 1
  · simp only [hs, if_true, and_true]
    have h1 : value / (m / 255 + 1) ≤ 255 := by
      rw [Nat.div_le_iff_le_mul_add_pred (by omega)]
      have := Nat.div_add_mod m 255
      have := Nat.mod_lt m (show 255 > 0 by omega)
      nlinarith
    split <;> omega
  · simp only [hs, if_false, and_false]
    omega

theorem get_list_size_step_pos (t : Nat → Nat) (n m a : Nat) (h : t a ≠ 0) :
    get_list_size_step t (n, m) a = (n + 1, if t a > m then t a else m) := by
  simp [get_list_size_step, h]

theorem get_list_size_step_neg (t : Nat → Nat) (n m a : Nat) (h : t a = 0) :
    get_list_size_step t (n, m) a = (n, m) := by
  simp [get_list_size_step, h]

theorem get_list_size_fold (t : Nat → Nat) (L : List Nat) (n m : Nat) :
    (L.foldl (get_list_size_step t) (n, m)).1 = n + (L.filter (fun i => t i ≠ 0)).length ∧
    m ≤ (L.foldl (get_list_size_step t) (n, m)).2 ∧
    ∀ i ∈ L, t i ≤ (L.foldl (get_list_size_step t) (n, m)).2 := by
  induction L generalizing n m with
  | nil => simp
  | cons a L ih =>
    simp only [List.foldl_cons]
    by_cases ha : t a = 0
    · rw [get_list_size_step_neg t n m a ha]
      obtain ⟨h1, h2, h3⟩ := ih n m
      refine ⟨?_, h2, ?_⟩
      · rw [h1]; simp [List.filter_cons, ha]
      · intro i hi
        rcases List.mem_cons.mp hi with rfl | hi
        · omega
        · exact h3 i hi
    · rw [get_list_size_step_pos t n m a ha]
      obtain ⟨h1, h2, h3⟩ := ih (n + 1) (if t a > m then t a else m)
      refine ⟨?_, ?_, ?_⟩
      · rw [h1]; simp [List.filter_cons, ha]; omega
      · refine le_trans ?_ h2; split <;> omega
      · intro i hi
        rcases List.mem_cons.mp hi with rfl | hi
        · refine le_trans ?_ h2; split <;> omega
        · exact h3 i hi

theorem get_list_size_fst (t : Nat → Nat) (m : Nat) : (get_list_size t m).1 = nonzero_count t := by
  simp only [get_list_size, nonzero_count]
  rw [(get_list_size_fold t _ 0 m).1]; simp

theorem get_list_size_scale (t : Nat → Nat) (m : Nat) :
    ∃ M, (get_list_size t m).2 = M / 255 + 1 ∧ ∀ i, i < FREQUENCY_TABLE_SIZE → t i ≤ M := by
  refine ⟨((List.range FREQUENCY_TABLE_SIZE).foldl (get_list_size_step t) (0, m)).2, rfl, ?_⟩
  intro i hi
  exact (get_list_size_fold t _ 0 m).2.2 i (List.mem_range.mpr hi)

theorem scaled_le (t : Nat → Nat) (i : Nat) (hi : i < FREQUENCY_TABLE_SIZE) :
    scale_down (t i) (get_list_size t 0).2 ≤ 255 := by
  obtain ⟨M, hM, hle⟩ := get_list_size_scale t 0
  rw [hM]
  exact scale_down_le _ _ (hle i hi)

theorem header_pairs_length (t : Nat → Nat) (scale : Nat) (L : List Nat) :
    (header_pairs t scale L).length = 2 * (L.filter (fun i => t i ≠ 0)).length := by
  induction L with
  | nil => rfl
  | cons a L ih =>
    by_cases ha : t a = 0
    · simp [header_pairs, ha, ih]
    · simp [header_pairs, ha, ih]; omega

theorem header_loop (t : Nat → Nat) (N scale : Nat) (L : List Nat)
    (hL : ∀ i ∈ L, i < 256 ∧ scale_down (t i) scale ≤ 255) :
    ∀ acc : List Nat, acc.length / 2 + (L.filter (fun i => t i ≠ 0)).length ≤ N →
      L.foldl (header_step t N scale) acc = acc ++ header_pairs t scale L := by
  induction L with
  | nil => intro acc _; simp [header_pairs]
  | cons a L ih =>
    intro acc hacc
    have ha := hL a (List.mem_cons_self _ _)
    have hL' : ∀ i ∈ L, i < 256 ∧ scale_down (t i) scale ≤ 255 :=
      fun i hi => hL i (List.mem_cons_of_mem _ hi)
    simp only [List.foldl_cons]
    by_cases h0 : t a = 0
    · have hstep : header_step t N scale acc a = acc := by simp [header_step, h0]
      rw [hstep, ih hL' acc (by simpa [List.filter_cons, h0] using hacc)]
      simp [header_pairs, h0]
    · have hcount : ((a :: L).filter (fun i => t i ≠ 0)).length
          = (L.filter (fun i => t i ≠ 0)).length + 1 := by simp [List.filter_cons, h0]
      rw [hcount] at hacc
      have hstep : header_step t N scale acc a = acc ++ [a, scale_down (t a) scale] := by
        have h1 : acc.length / 2 < N := by omega
        have h2 : t a > 0 := Nat.pos_of_ne_zero h0
        have h3 : a % 256 = a := Nat.mod_eq_of_lt ha.1
        have h4 : scale_down (t a) scale % 256 = scale_down (t a) scale :=
          Nat.mod_eq_of_lt (by omega)
        simp [header_step, h1, h2, h3, h4]
      rw [hstep, ih hL' _ (by simp only [List.length_append, List.length_cons, List.length_nil]; omega)]
      simp [header_pairs, h0]

theorem nonzero_count_le (t : Nat → Nat) : nonzero_count t ≤ 256 := by
  unfold nonzero_count
  refine le_trans (List.length_filter_le _ _) ?_
  simp [FREQUENCY_TABLE_SIZE]

theorem header_bytes_length (t : Nat → Nat) :
    (header_bytes t).length = 1 + 2 * nonzero_count t := by
  simp [header_bytes, header_pairs_length, nonzero_count]; omega

theorem header_pairs_lt (t : Nat → Nat) (scale : Nat) (L : List Nat)
    (hL : ∀ i ∈ L, i < 256 ∧ scale_down (t i) scale ≤ 255) :
    ∀ b ∈ header_pairs t scale L, b < 256 := by
  induction L with
  | nil => simp [header_pairs]
  | cons a L ih =>
    have ha := hL a (List.mem_cons_self _ _)
    have hL' : ∀ i ∈ L, i < 256 ∧ scale_down (t i) scale ≤ 255 :=
      fun i hi => hL i (List.mem_cons_of_mem _ hi)
    intro b hb
    by_cases h0 : t a = 0
    · simp only [header_pairs, h0, ne_eq, not_true_eq_false, if_false] at hb
      exact ih hL' b hb
    · simp only [header_pairs, h0, ne_eq, not_false_eq_true, if_true, List.mem_cons] at hb
      rcases hb with rfl | rfl | hb
      · exact ha.1
      · omega
      · exact ih hL' b hb

theorem range_scaled (t : Nat → Nat) :
    ∀ i ∈ List.range FREQUENCY_TABLE_SIZE,
      i < 256 ∧ scale_down (t i) (get_list_size t 0).2 ≤ 255 := by
  intro i hi
  have hi' : i < FREQUENCY_TABLE_SIZE := List.mem_range.mp hi
  exact ⟨hi', scaled_le t i hi'⟩

theorem write_file_header_spec (t : Nat → Nat) (out : FILE) (hroom : out.room = none)
    (hN : 1 ≤ nonzero_count t) :
    write_file_header out t
        = (1, { out with data := out.data ++ header_bytes t
                         pos := out.pos + (1 + 2 * nonzero_count t) }) ∧
      (header_bytes t).length = 1 + 2 * nonzero_count t ∧
      ∀ b ∈ header_bytes t, b < 256 := by
  have hle := nonzero_count_le t
  refine ⟨?_, header_bytes_length t, ?_⟩
  · unfold write_file_header
    have hloop := header_loop t (nonzero_count t) (get_list_size t 0).2 _ (range_scaled t) []
      (by simp [nonzero_count])
    simp only [get_list_size_fst, hloop, List.nil_append]
    have hmod : (nonzero_count t - 1) % 256 = nonzero_count t - 1 := Nat.mod_eq_of_lt (by omega)
    have hlen : (header_pairs t (get_list_size t 0).2 (List.range FREQUENCY_TABLE_SIZE)).length
        = 2 * nonzero_count t := by simp [header_pairs_length, nonzero_count]
    have hN0 : ¬ nonzero_count t = 0 := by omega
    simp [fwrite, hroom, hmod, hlen, hN0, header_bytes]
    omega
  · intro b hb
    simp only [header_bytes, List.mem_cons] at hb
    rcases hb with rfl | hb
    · omega
    · exact header_pairs_lt t _ _ (range_scaled t) b hb

/-- C6: for a table with `N >= 1` non-zero entries, `write_file_header` on a sink that
accepts every byte returns 1 and appends exactly `1 + 2N` bytes: the byte `N - 1`, then for
each non-zero entry in ascending symbol order the symbol and `scale_down(count, scale)`,
with `scale` the factor `get_list_size` computes; each of these values is below 256, so
none is truncated when stored in a byte. -/
theorem write_file_header_bytes (t : Nat → Nat) (out : FILE) (hroom : out.room = none)
    (hN : 1 ≤ nonzero_count t) :
    write_file_header out t
        = (1, { out with data := out.data ++ header_bytes t
                         pos := out.pos + (1 + 2 * nonzero_count t) }) ∧
      (header_bytes t).length = 1 + 2 * nonzero_count t ∧
      ∀ b ∈ header_bytes t, b < 256 :=
  write_file_header_spec t out hroom hN

/-- Witness for `write_file_header_bytes`: the table of "AAAB" and a new output file. -/
theorem write_file_header_bytes_witness :
    write_file_header (file_of []) (fun i => if i = 0x41 then 3 else if i = 0x42 then 1 else 0)
        = (1, ⟨[0x01, 0x41, 0x03, 0x42, 0x01], 5, none⟩) := by
  have h := (write_file_header_bytes (fun i => if i = 0x41 then 3 else if i = 0x42 then 1 else 0)
    (file_of []) rfl (by decide!)).1
  rw [h]
  decide!

theorem read_pairs_header (t : Nat → Nat) (scale : Nat) (L : List Nat) :
    ∀ T : Nat → Nat, read_pairs T (header_pairs t scale L)
      = fun j => if j ∈ L ∧ t j ≠ 0 then scale_down (t j) scale else T j := by
  induction L with
  | nil => intro T; simp [header_pairs, read_pairs]
  | cons a L ih =>
    intro T
    by_cases h0 : t a = 0
    · simp only [header_pairs, h0, ne_eq, not_true_eq_false, if_false]
      rw [ih]
      funext j
      by_cases hj : j = a
      · subst hj; simp [h0]
      · simp [hj]
    · simp only [header_pairs, h0, ne_eq, not_false_eq_true, if_true, read_pairs]
      rw [ih]
      funext j
      by_cases hj : j = a
      · subst hj; simp [h0]
      · simp [hj, Function.update_apply]

theorem read_pairs_header_range (t : Nat → Nat) :
    read_pairs (fun _ => 0)
        (header_pairs t (get_list_size t 0).2 (List.range FREQUENCY_TABLE_SIZE))
      = scaled_table t := by
  rw [read_pairs_header]
  funext j
  simp [scaled_table, List.mem_range]

theorem read_file_header_shape (c : Nat) (P body : List Nat) (p pos : Nat) (room : Option Nat)
    (hlen : P.length = (c + 1) * 2) :
    read_file_header ⟨c :: (P ++ body ++ [p]), pos, room⟩
      = some (read_pairs (fun _ => 0) P, c + 1, p,
          ⟨c :: (P ++ body ++ [p]), 1 + (c + 1) * 2, room⟩) := by
  have h1 : List.take ((c + 1) * 2) (P ++ body ++ [p]) = P := by
    rw [List.append_assoc, ← hlen]; exact List.take_left' rfl
  have h2 : List.drop ((P ++ body ++ [p]).length + 1 - 1) (c :: (P ++ body ++ [p])) = [p] := by
    have : (P ++ body ++ [p]).length + 1 - 1 = (P ++ body).length + 1 := by
      simp only [List.length_append, List.length_cons, List.length_nil]; omega
    rw [this, List.drop_succ_cons]
    exact List.drop_left' rfl
  unfold read_file_header
  simp only [fread, List.drop_zero, List.take_succ_cons, List.take_zero, List.length_cons,
    List.length_nil, Nat.zero_add, List.drop_succ_cons, h1, h2, hlen, Nat.lt_irrefl, if_false]

theorem read_file_header_of_header (t : Nat → Nat) (hN : 1 ≤ nonzero_count t)
    (body : List Nat) (p pos : Nat) (room : Option Nat) :
    read_file_header ⟨header_bytes t ++ body ++ [p], pos, room⟩
      = some (scaled_table t, nonzero_count t, p,
          ⟨header_bytes t ++ body ++ [p], 1 + 2 * nonzero_count t, room⟩) := by
  have hlen : (header_pairs t (get_list_size t 0).2 (List.range FREQUENCY_TABLE_SIZE)).length
      = (nonzero_count t - 1 + 1) * 2 := by
    rw [header_pairs_length]; unfold nonzero_count at hN ⊢; omega
  have hN1 : nonzero_count t - 1 + 1 = nonzero_count t := by omega
  have h := read_file_header_shape (nonzero_count t - 1) _ body p pos room hlen
  rw [hN1, read_pairs_header_range, Nat.mul_comm] at h
  simpa [header_bytes] using h

/-- C7: for a table `t` with at least one non-zero entry, a byte list `body` and a byte
`p`, `read_file_header` on the file made of the bytes `write_file_header` writes for `t`,
then `body`, then `p`, returns the table of scaled counts (`scale_down (t i) scale` where
`t i` is non-zero, 0 elsewhere), sets `*list_size` to the number of non-zero entries and
`*bit_padding` to `p`, and leaves the stream at offset `1 + 2N`, just after the header. -/
theorem read_file_header_written (t : Nat → Nat) (hN : 1 ≤ nonzero_count t)
    (body : List Nat) (p pos : Nat) (room : Option Nat) :
    read_file_header ⟨(write_file_header (file_of []) t).2.data ++ body ++ [p], pos, room⟩
      = some (scaled_table t, nonzero_count t, p,
          ⟨(write_file_header (file_of []) t).2.data ++ body ++ [p],
            1 + 2 * nonzero_count t, room⟩) := by
  have hw : (write_file_header (file_of []) t).2.data = header_bytes t := by
    rw [(write_file_header_spec t (file_of []) rfl hN).1]; rfl
  rw [hw]
  exact read_file_header_of_header t hN body p pos room

/-- Witness for `read_file_header_written`: the table of "AAAB", body E0, trailing byte 4. -/
theorem read_file_header_written_witness :
    read_file_header
        ⟨(write_file_header (file_of [])
            (fun i => if i = 0x41 then 3 else if i = 0x42 then 1 else 0)).2.data
          ++ [0xE0] ++ [4], 0, none⟩
      = some (scaled_table (fun i => if i = 0x41 then 3 else if i = 0x42 then 1 else 0),
          nonzero_count (fun i => if i = 0x41 then 3 else if i = 0x42 then 1 else 0), 4,
          ⟨(write_file_header (file_of [])
              (fun i => if i = 0x41 then 3 else if i = 0x42 then 1 else 0)).2.data
            ++ [0xE0] ++ [4],
            1 + 2 * nonzero_count (fun i => if i = 0x41 then 3 else if i = 0x42 then 1 else 0),
            none⟩) :=
  read_file_header_written _ (by decide!) [0xE0] 4 0 none

/-! ## The decoder fills its heap as the encoder does -/

theorem fill_minheap_step_scaled (t : Nat → Nat) (st : Heap Node × Bool) (i : Nat)
    (hi : i < FREQUENCY_TABLE_SIZE) :
    fill_minheap_step (scaled_table t) 0 st i
      = fill_minheap_step t (get_list_size t 0).2 st i := by
  unfold fill_minheap_step
  by_cases h0 : t i = 0
  · simp [scaled_table, h0]
  · have hs : scaled_table t i = scale_down (t i) (get_list_size t 0).2 := by
      simp [scaled_table, h0, hi]
    have hne := scale_down_ne_zero (t i) (get_list_size t 0).2 h0
    simp only [hs, scale_down_zero_scale, ne_eq, hne, not_false_eq_true, if_true, h0, if_false]

theorem foldl_congr_mem {α β : Type} (f g : α → β → α) (L : List β)
    (h : ∀ a, ∀ b ∈ L, f a b = g a b) : ∀ a, L.foldl f a = L.foldl g a := by
  induction L with
  | nil => intro a; rfl
  | cons b L ih =>
    intro a
    simp only [List.foldl_cons]
    rw [h a b (List.mem_cons_self _ _)]
    exact ih (fun a b hb => h a b (List.mem_cons_of_mem _ hb)) _

theorem decompress_tree_scaled (t : Nat → Nat) :
    decompress_tree (scaled_table t) (nonzero_count t) = compress_tree t := by
  have key : fill_minheap (scaled_table t)
        (create_priority_queue (nonzero_count t) compare_nodes) 0
      = fill_minheap t (create_priority_queue (get_list_size t 0).1 compare_nodes)
          (get_list_size t 0).2 := by
    rw [get_list_size_fst]
    unfold fill_minheap
    rw [foldl_congr_mem _ _ _
      (fun st i hi => fill_minheap_step_scaled t st i (List.mem_range.mp hi))]
  unfold decompress_tree compress_tree
  dsimp only
  rw [key, get_list_size_fst]

/-! ## The array operations of the heap -/

theorem set_perm_cons {α : Type} (x b : α) :
    ∀ (l : List α) (j : Nat), l[j]? = some b → (b :: l.set j x).Perm (x :: l) := by
  intro l
  induction l with
  | nil => intro j h; simp at h
  | cons y l ih =>
    intro j h
    cases j with
    | zero =>
      simp only [List.getElem?_cons_zero, Option.some.injEq] at h
      subst h
      simp only [List.set_cons_zero]
      exact List.Perm.swap _ _ _
    | succ j =>
      simp only [List.getElem?_cons_succ] at h
      simp only [List.set_cons_succ]
      exact ((List.Perm.swap y b _).trans ((ih j h).cons y)).trans (List.Perm.swap x y l)

theorem set_set_perm {α : Type} (a b : α) :
    ∀ (l : List α) (i j : Nat), l[i]? = some a → l[j]? = some b →
      ((l.set i b).set j a).Perm l := by
  intro l
  induction l with
  | nil => intro i j h; simp at h
  | cons x l ih =>
    intro i j hi hj
    cases i with
    | zero =>
      simp only [List.getElem?_cons_zero, Option.some.injEq] at hi
      subst hi
      cases j with
      | zero =>
        simp only [List.getElem?_cons_zero, Option.some.injEq] at hj
        subst hj
        simp
      | succ j =>
        simp only [List.getElem?_cons_succ] at hj
        simp only [List.set_cons_zero, List.set_cons_succ]
        exact set_perm_cons x b l j hj
    | succ i =>
      simp only [List.getElem?_cons_succ] at hi
      cases j with
      | zero =>
        simp only [List.getElem?_cons_zero, Option.some.injEq] at hj
        subst hj
        simp only [List.set_cons_succ, List.set_cons_zero]
        exact set_perm_cons x a l i hi
      | succ j =>
        simp only [List.getElem?_cons_succ] at hj
        simp only [List.set_cons_succ]
        exact (ih i j hi hj).cons x

theorem swap_perm {α : Type} (l : List α) (i j : Nat) : (swap l i j).Perm l := by
  unfold swap
  cases hi : l[i]? with
  | none => simp
  | some a =>
    cases hj : l[j]? with
    | none => simp
    | some b => exact set_set_perm a b l i j hi hj

theorem swap_length {α : Type} (l : List α) (i j : Nat) : (swap l i j).length = l.length :=
  (swap_perm l i j).length_eq

theorem swap_get_right {α : Type} (l : List α) (i j : Nat) (hi : i < l.length)
    (hj : j < l.length) : (swap l i j)[j]? = l[i]? := by
  unfold swap
  rw [List.getElem?_eq_getElem hi, List.getElem?_eq_getElem hj]
  simp [List.getElem?_set, hj, hi]

theorem swap_get_left {α : Type} (l : List α) (i j : Nat) (hi : i < l.length)
    (hj : j < l.length) : (swap l i j)[i]? = l[j]? := by
  unfold swap
  rw [List.getElem?_eq_getElem hi, List.getElem?_eq_getElem hj]
  by_cases hij : i = j
  · subst hij; simp [List.getElem?_set, hi]
  · have hji : ¬ j = i := fun h => hij h.symm
    simp [List.getElem?_set, hj, hi, hij, hji]

theorem swap_get_other {α : Type} (l : List α) (i j m : Nat) (hmi : m ≠ i) (hmj : m ≠ j) :
    (swap l i j)[m]? = l[m]? := by
  unfold swap
  cases hi : l[i]? with
  | none => simp
  | some a =>
    cases hj : l[j]? with
    | none => simp
    | some b =>
      have h1 : ¬ i = m := fun h => hmi h.symm
      have h2 : ¬ j = m := fun h => hmj h.symm
      simp [List.getElem?_set, h1, h2]

theorem compare_lt_eq {α : Type} (compare : α → α → Int) (l : List α) (i j : Nat) (a b : α)
    (hi : l[i]? = some a) (hj : l[j]? = some b) :
    compare_lt compare l i j = decide (compare a b < 0) := by
  simp [compare_lt, hi, hj]

theorem mem_of_get {α : Type} (l : List α) (i : Nat) (a : α) (h : l[i]? = some a) : a ∈ l := by
  obtain ⟨hlt, rfl⟩ := List.getElem?_eq_some.mp h
  exact List.getElem_mem _

theorem upInv_zero {α : Type} (compare : α → α → Int) (l : List α) (h : UpInv compare l 0) :
    HeapOrdered compare l := by
  intro i j a b hi hj hc
  exact h.1 i j a b hi hj hc (by omega)

theorem upInv_done {α : Type} (compare : α → α → Int) (l : List α) (k : Nat) (a b : α)
    (hk : l[k]? = some a) (hp : l[(k - 1) / 2]? = some b) (hlt : ¬ compare a b < 0)
    (h : UpInv compare l k) : HeapOrdered compare l := by
  intro i j x y hi hj hc
  by_cases hjk : j = k
  · subst hjk
    have hi' : i = (j - 1) / 2 := by omega
    subst hi'
    rw [hk] at hj; rw [hp] at hi
    cases hi; cases hj
    exact hlt
  · exact h.1 i j x y hi hj hc hjk

theorem upInv_step {α : Type} (compare : α → α → Int) (P : α → Prop)
    (hgood : GoodCompare compare P) (l : List α) (hP : ∀ x ∈ l, P x) (k : Nat) (a b : α)
    (hk0 : 0 < k) (hk : l[k]? = some a) (hp : l[(k - 1) / 2]? = some b)
    (hlt : compare a b < 0) (h : UpInv compare l k) :
    UpInv compare (swap l k ((k - 1) / 2)) ((k - 1) / 2) := by
  have hkl : k < l.length := (List.getElem?_eq_some.mp hk).1
  have hpl : (k - 1) / 2 < l.length := (List.getElem?_eq_some.mp hp).1
  have hPa : P a := hP a (mem_of_get l k a hk)
  have hPb : P b := hP b (mem_of_get l _ b hp)
  have hba : ¬ compare b a < 0 := hgood.asymm a b hPa hPb hlt
  have gk : (swap l k ((k - 1) / 2))[k]? = some b := by
    rw [swap_get_left l k _ hkl hpl, hp]
  have gp : (swap l k ((k - 1) / 2))[(k - 1) / 2]? = some a := by
    rw [swap_get_right l k _ hkl hpl, hk]
  have go : ∀ m, m ≠ k → m ≠ (k - 1) / 2 → (swap l k ((k - 1) / 2))[m]? = l[m]? :=
    fun m h1 h2 => swap_get_other l k _ m h1 h2
  constructor
  · intro i j x y hi hj hc hjp
    by_cases hjk : j = k
    · subst hjk
      have hi' : i = (j - 1) / 2 := by omega
      subst hi'
      rw [gk] at hj; rw [gp] at hi
      cases hi; cases hj
      exact hba
    · rw [go j hjk hjp] at hj
      have hPy : P y := hP y (mem_of_get l j y hj)
      by_cases hip : i = (k - 1) / 2
      · rw [hip, gp] at hi; cases hi
        have h1 : ¬ compare y b < 0 := h.1 _ j b y hp hj (by omega) hjk
        exact hgood.trans a b y hPa hPb hPy hba h1
      · by_cases hik : i = k
        · rw [hik, gk] at hi; cases hi
          exact h.2 ((k - 1) / 2) j b y hp hj (by omega) (by omega)
        · rw [go i hik hip] at hi
          exact h.1 i j x y hi hj hc hjk
  · intro i j x y hi hj hc1 hc2
    have hik : i ≠ k := by omega
    have hip : i ≠ (k - 1) / 2 := by omega
    rw [go i hik hip] at hi
    have hPx : P x := hP x (mem_of_get l i x hi)
    have h1 : ¬ compare b x < 0 := h.1 i _ x b hi hp hc1 (by omega)
    by_cases hjk : j = k
    · subst hjk
      rw [gk] at hj; cases hj
      exact h1
    · have hjp : j ≠ (k - 1) / 2 := by omega
      rw [go j hjk hjp] at hj
      have hPy : P y := hP y (mem_of_get l j y hj)
      have h2 : ¬ compare y b < 0 := h.1 _ j b y hp hj hc2 hjk
      exact hgood.trans x b y hPx hPb hPy h1 h2

theorem heapify_up_loop_spec {α : Type} (compare : α → α → Int) (P : α → Prop)
    (hgood : GoodCompare compare P) :
    ∀ (fuel : Nat) (l : List α) (k : Nat), k ≤ fuel → k < l.length → (∀ x ∈ l, P x) →
      UpInv compare l k →
      HeapOrdered compare (heapify_up_loop compare fuel l k).1 ∧
      (heapify_up_loop compare fuel l k).1.Perm l := by
  intro fuel
  induction fuel with
  | zero =>
    intro l k hk _ _ h
    have : k = 0 := by omega
    subst this
    exact ⟨upInv_zero compare l h, List.Perm.refl _⟩
  | succ fuel ih =>
    intro l k hk hkl hP h
    simp only [heapify_up_loop]
    by_cases hk0 : k > 0
    · simp only [hk0, if_true]
      have hpl : (k - 1) / 2 < l.length := by omega
      have hka := List.getElem?_eq_getElem hkl
      have hpb := List.getElem?_eq_getElem hpl
      rw [compare_lt_eq compare l k _ _ _ hka hpb]
      by_cases hlt : compare l[k] l[(k - 1) / 2] < 0
      · simp only [hlt, decide_True, if_true]
        have hperm := swap_perm l k ((k - 1) / 2)
        have hP' : ∀ x ∈ swap l k ((k - 1) / 2), P x :=
          fun x hx => hP x (hperm.mem_iff.mp hx)
        obtain ⟨h1, h2⟩ := ih (swap l k ((k - 1) / 2)) ((k - 1) / 2) (by omega)
          (by rw [swap_length]; exact hpl) hP'
          (upInv_step compare P hgood l hP k _ _ hk0 hka hpb hlt h)
        exact ⟨h1, h2.trans hperm⟩
      · simp only [hlt, decide_False, Bool.false_eq_true, if_false]
        exact ⟨upInv_done compare l k _ _ hka hpb hlt h, List.Perm.refl _⟩
    · simp only [hk0, if_false]
      have : k = 0 := by omega
      subst this
      exact ⟨upInv_zero compare l h, List.Perm.refl _⟩

theorem upInv_append {α : Type} (compare : α → α → Int) (l : List α) (x : α)
    (h : HeapOrdered compare l) : UpInv compare (l ++ [x]) l.length := by
  constructor
  · intro i j a b hi hj hc hjk
    have hjl : j < (l ++ [x]).length := (List.getElem?_eq_some.mp hj).1
    simp only [List.length_append, List.length_cons, List.length_nil] at hjl
    have hj' : j < l.length := by omega
    rw [List.getElem?_append_left hj'] at hj
    rw [List.getElem?_append_left (by omega)] at hi
    exact h i j a b hi hj hc
  · intro i j a b _ hj _ hc2
    have hjl : j < (l ++ [x]).length := (List.getElem?_eq_some.mp hj).1
    simp only [List.length_append, List.length_cons, List.length_nil] at hjl
    omega

/-- Effect of a successful `heap_insert` on a heap-ordered array. -/
theorem heap_insert_spec {α : Type} (P : α → Prop) (heap : Heap α) (node : α)
    (hgood : GoodCompare heap.compare P) (hP : ∀ x ∈ heap.nodes, P x) (hnode : P node)
    (hord : HeapOrdered heap.compare heap.nodes) (hsize : heap.size < heap.max_size) :
    (heap_insert heap node).1 ≠ -1 ∧
    (heap_insert heap node).2.compare = heap.compare ∧
    (heap_insert heap node).2.max_size = heap.max_size ∧
    HeapOrdered heap.compare (heap_insert heap node).2.nodes ∧
    (heap_insert heap node).2.nodes.Perm (node :: heap.nodes) := by
  unfold Heap.size at hsize
  have hns : ¬ heap.nodes.length ≥ heap.max_size := by omega
  have hlen : ¬ heap.nodes.length ≥ (heap.nodes ++ [node]).length := by simp
  simp only [heap_insert, heapify_up, Heap.size, hns, hlen, if_false]
  have hP' : ∀ x ∈ heap.nodes ++ [node], P x := by
    intro x hx
    rcases List.mem_append.mp hx with hx | hx
    · exact hP x hx
    · simp only [List.mem_singleton] at hx; subst hx; exact hnode
  obtain ⟨h1, h2⟩ := heapify_up_loop_spec heap.compare P hgood heap.nodes.length
    (heap.nodes ++ [node]) heap.nodes.length (le_refl _) (by simp) hP'
    (upInv_append heap.compare heap.nodes node hord)
  refine ⟨?_, trivial, trivial, h1, h2.trans ?_⟩
  · intro hneg
    have : (0 : Int) ≤ ((heapify_up_loop heap.compare heap.nodes.length
      (heap.nodes ++ [node]) heap.nodes.length).2 : Int) := Int.ofNat_nonneg _
    omega
  · exact List.perm_append_comm

theorem compare_refl_not_lt {α : Type} (compare : α → α → Int) (P : α → Prop)
    (hgood : GoodCompare compare P) (a : α) (ha : P a) : ¬ compare a a < 0 :=
  fun h => hgood.asymm a a ha ha h h

/-- What `min_child_index` selects at an index `k` in range. -/
theorem min_child_index_spec {α : Type} (compare : α → α → Int) (P : α → Prop)
    (hgood : GoodCompare compare P) (l : List α) (hP : ∀ x ∈ l, P x) (k : Nat) (a : α)
    (hk : l[k]? = some a) :
    (min_child_index compare l k = k ∧
      ∀ j y, l[j]? = some y → (j = 2 * k + 1 ∨ j = 2 * k + 2) → ¬ compare y a < 0) ∨
    (∃ c, (min_child_index compare l k = 2 * k + 1 ∨ min_child_index compare l k = 2 * k + 2) ∧
      l[min_child_index compare l k]? = some c ∧ ¬ compare a c < 0 ∧
      ∀ j y, l[j]? = some y → (j = 2 * k + 1 ∨ j = 2 * k + 2) → ¬ compare y c < 0) := by
  have hPa : P a := hP a (mem_of_get l k a hk)
  have e1 : k * 2 + 1 = 2 * k + 1 := by omega
  have e2 : k * 2 + 2 = 2 * k + 2 := by omega
  unfold min_child_index
  simp only [e1, e2]
  by_cases hl : 2 * k + 1 < l.length
  · have hL := List.getElem?_eq_getElem hl
    have hPL : P l[2 * k + 1] := hP _ (List.getElem_mem _)
    rw [compare_lt_eq compare l _ k _ _ hL hk]
    by_cases hlt : compare l[2 * k + 1] a < 0
    · have hLa : ¬ compare a l[2 * k + 1] < 0 := hgood.asymm _ _ hPL hPa hlt
      simp only [hl, hlt, decide_True, and_self, if_true]
      by_cases hr : 2 * k + 2 < l.length
      · have hR := List.getElem?_eq_getElem hr
        have hPR : P l[2 * k + 2] := hP _ (List.getElem_mem _)
        rw [compare_lt_eq compare l _ _ _ _ hR hL]
        by_cases hrl : compare l[2 * k + 2] l[2 * k + 1] < 0
        · have hRL : ¬ compare l[2 * k + 1] l[2 * k + 2] < 0 := hgood.asymm _ _ hPR hPL hrl
          simp only [hr, hrl, decide_True, and_self, if_true]
          right
          refine ⟨l[2 * k + 2], (by simp), hR, hgood.trans _ _ _ hPR hPL hPa hRL hLa, ?_⟩
          intro j y hj hc
          rcases hc with rfl | rfl
          · rw [hL] at hj; cases hj; exact hRL
          · rw [hR] at hj; cases hj; exact compare_refl_not_lt compare P hgood _ hPR
        · simp only [hr, hrl, decide_False, Bool.false_eq_true, and_false, if_false]
          right
          refine ⟨l[2 * k + 1], (by simp), hL, hLa, ?_⟩
          intro j y hj hc
          rcases hc with rfl | rfl
          · rw [hL] at hj; cases hj; exact compare_refl_not_lt compare P hgood _ hPL
          · rw [hR] at hj; cases hj; exact hrl
      · simp only [hr, false_and, if_false]
        right
        refine ⟨l[2 * k + 1], (by simp), hL, hLa, ?_⟩
        intro j y hj hc
        rcases hc with rfl | rfl
        · rw [hL] at hj; cases hj; exact compare_refl_not_lt compare P hgood _ hPL
        · have := (List.getElem?_eq_some.mp hj).1; omega
    · simp only [hlt, decide_False, Bool.false_eq_true, and_false, if_false]
      by_cases hr : 2 * k + 2 < l.length
      · have hR := List.getElem?_eq_getElem hr
        have hPR : P l[2 * k + 2] := hP _ (List.getElem_mem _)
        rw [compare_lt_eq compare l _ _ _ _ hR hk]
        by_cases hra : compare l[2 * k + 2] a < 0
        · have hRa : ¬ compare a l[2 * k + 2] < 0 := hgood.asymm _ _ hPR hPa hra
          simp only [hr, hra, decide_True, and_self, if_true]
          right
          refine ⟨l[2 * k + 2], (by simp), hR, hRa, ?_⟩
          intro j y hj hc
          rcases hc with rfl | rfl
          · rw [hL] at hj; cases hj
            exact hgood.trans _ _ _ hPR hPa hPL hRa hlt
          · rw [hR] at hj; cases hj; exact compare_refl_not_lt compare P hgood _ hPR
        · simp only [hr, hra, decide_False, Bool.false_eq_true, and_false, if_false]
          left
          refine ⟨trivial, ?_⟩
          intro j y hj hc
          rcases hc with rfl | rfl
          · rw [hL] at hj; cases hj; exact hlt
          · rw [hR] at hj; cases hj; exact hra
      · simp only [hr, false_and, if_false]
        left
        refine ⟨trivial, ?_⟩
        intro j y hj hc
        rcases hc with rfl | rfl
        · rw [hL] at hj; cases hj; exact hlt
        · have := (List.getElem?_eq_some.mp hj).1; omega
  · have hr : ¬ 2 * k + 2 < l.length := by omega
    simp only [hl, hr, false_and, if_false]
    left
    refine ⟨trivial, ?_⟩
    intro j y hj hc
    have := (List.getElem?_eq_some.mp hj).1
    omega

theorem downInv_done {α : Type} (compare : α → α → Int) (l : List α) (k : Nat)
    (h : DownInv compare l k)
    (hk : ∀ a j y, l[k]? = some a → l[j]? = some y → (j = 2 * k + 1 ∨ j = 2 * k + 2) →
      ¬ compare y a < 0) : HeapOrdered compare l := by
  intro i j x y hi hj hc
  by_cases hik : i = k
  · subst hik; exact hk x j y hi hj hc
  · exact h.1 i j x y hi hj hc hik

theorem downInv_step {α : Type} (compare : α → α → Int) (l : List α) (k m : Nat) (a c : α)
    (hm : m = 2 * k + 1 ∨ m = 2 * k + 2) (hka : l[k]? = some a) (hmc : l[m]? = some c)
    (hca : ¬ compare a c < 0)
    (hmin : ∀ j y, l[j]? = some y → (j = 2 * k + 1 ∨ j = 2 * k + 2) → ¬ compare y c < 0)
    (h : DownInv compare l k) : DownInv compare (swap l k m) m := by
  have hkl : k < l.length := (List.getElem?_eq_some.mp hka).1
  have hml : m < l.length := (List.getElem?_eq_some.mp hmc).1
  have gk : (swap l k m)[k]? = some c := by rw [swap_get_left l k m hkl hml, hmc]
  have gm : (swap l k m)[m]? = some a := by rw [swap_get_right l k m hkl hml, hka]
  have go : ∀ n, n ≠ k → n ≠ m → (swap l k m)[n]? = l[n]? :=
    fun n h1 h2 => swap_get_other l k m n h1 h2
  constructor
  · intro i j x y hi hj hc him
    by_cases hik : i = k
    · rw [hik, gk] at hi; cases hi
      by_cases hjm : j = m
      · rw [hjm, gm] at hj; cases hj; exact hca
      · rw [go j (by omega) hjm] at hj
        exact hmin j y hj (by omega)
    · rw [go i hik him] at hi
      by_cases hjk : j = k
      · rw [hjk, gk] at hj; cases hj
        exact h.2 i m x c hi hmc (by omega) hm
      · have hjm : j ≠ m := by omega
        rw [go j hjk hjm] at hj
        exact h.1 i j x y hi hj hc hik
  · intro i j x y hi hj hc1 hc2
    have hik : i = k := by omega
    rw [hik, gk] at hi; cases hi
    rw [go j (by omega) (by omega)] at hj
    exact h.1 m j c y hmc hj hc2 (by omega)

theorem heapify_down_spec {α : Type} (compare : α → α → Int) (P : α → Prop)
    (hgood : GoodCompare compare P) :
    ∀ (fuel : Nat) (l : List α) (k : Nat), l.length ≤ k + fuel → (∀ x ∈ l, P x) →
      DownInv compare l k →
      HeapOrdered compare (heapify_down compare fuel l k).1 ∧
      (heapify_down compare fuel l k).1.Perm l := by
  intro fuel
  induction fuel with
  | zero =>
    intro l k hk _ h
    refine ⟨downInv_done compare l k h ?_, List.Perm.refl _⟩
    intro a j y hka
    have := (List.getElem?_eq_some.mp hka).1
    omega
  | succ fuel ih =>
    intro l k hk hP h
    simp only [heapify_down]
    by_cases hkl : k < l.length
    · have hka := List.getElem?_eq_getElem hkl
      rcases min_child_index_spec compare P hgood l hP k _ hka with ⟨hm, hmin⟩ | ⟨c, hm, hmc, hca, hmin⟩
      · simp only [hm, ne_eq, not_true_eq_false, if_false]
        refine ⟨downInv_done compare l k h ?_, List.Perm.refl _⟩
        intro a j y hka' hj hc
        rw [hka] at hka'; cases hka'
        exact hmin j y hj hc
      · have hne : min_child_index compare l k ≠ k := by omega
        simp only [hne, ne_eq, not_false_eq_true, if_true]
        have hperm := swap_perm l k (min_child_index compare l k)
        have hP' : ∀ x ∈ swap l k (min_child_index compare l k), P x :=
          fun x hx => hP x (hperm.mem_iff.mp hx)
        obtain ⟨h1, h2⟩ := ih (swap l k (min_child_index compare l k))
          (min_child_index compare l k) (by rw [swap_length]; omega) hP'
          (downInv_step compare l k _ _ c hm hka hmc hca hmin h)
        exact ⟨h1, h2.trans hperm⟩
    · have hm : min_child_index compare l k = k := by
        unfold min_child_index
        have h1 : ¬ k * 2 + 1 < l.length := by omega
        have h2 : ¬ k * 2 + 2 < l.length := by omega
        simp [h1, h2]
      simp only [hm, ne_eq, not_true_eq_false, if_false]
      refine ⟨downInv_done compare l k h ?_, List.Perm.refl _⟩
      intro a j y hka
      have := (List.getElem?_eq_some.mp hka).1
      omega

theorem heapOrdered_root_min {α : Type} (compare : α → α → Int) (P : α → Prop)
    (hgood : GoodCompare compare P) (l : List α) (hP : ∀ x ∈ l, P x)
    (hord : HeapOrdered compare l) (r : α) (hr : l[0]? = some r) :
    ∀ x ∈ l, ¬ compare x r < 0 := by
  have hPr : P r := hP r (mem_of_get l 0 r hr)
  have key : ∀ (n j : Nat) (x : α), j ≤ n → l[j]? = some x → ¬ compare x r < 0 := by
    intro n
    induction n with
    | zero =>
      intro j x hj hx
      have : j = 0 := by omega
      subst this
      rw [hr] at hx; cases hx
      exact compare_refl_not_lt compare P hgood _ hPr
    | succ n ih =>
      intro j x hj hx
      by_cases hj0 : j = 0
      · subst hj0
        rw [hr] at hx; cases hx
        exact compare_refl_not_lt compare P hgood _ hPr
      · have hjl : j < l.length := (List.getElem?_eq_some.mp hx).1
        have hpl : (j - 1) / 2 < l.length := by omega
        have hp := List.getElem?_eq_getElem hpl
        have h1 := ih ((j - 1) / 2) _ (by omega) hp
        have h2 := hord ((j - 1) / 2) j _ x hp hx (by omega)
        exact hgood.trans r _ x hPr (hP _ (List.getElem_mem _)) (hP x (mem_of_get l j x hx)) h1 h2
  intro x hx
  obtain ⟨j, hj⟩ := List.getElem?_of_mem hx
  exact key j j x (le_refl _) hj

theorem downInv_replace_root {α : Type} (compare : α → α → Int) (node last : α)
    (front : List α) (hord : HeapOrdered compare (node :: (front ++ [last]))) :
    DownInv compare (last :: front) 0 := by
  have key : ∀ (n : Nat) (x : α), n ≠ 0 → (last :: front)[n]? = some x →
      (node :: (front ++ [last]))[n]? = some x := by
    intro n x hn hx
    obtain ⟨n, rfl⟩ := Nat.exists_eq_succ_of_ne_zero hn
    simp only [List.getElem?_cons_succ] at hx ⊢
    have hlt : n < front.length := (List.getElem?_eq_some.mp hx).1
    rw [List.getElem?_append_left hlt]
    exact hx
  constructor
  · intro i j x y hi hj hc hi0
    exact hord i j x y (key i x hi0 hi) (key j y (by omega) hj) hc
  · intro i j x y _ _ hc1 _
    omega

/-- Effect of `heap_extract` on a non-empty heap-ordered array: it returns an element
that no stored element compares less than, and leaves the others heap-ordered. -/
theorem heap_extract_spec {α : Type} (P : α → Prop) (heap : Heap α)
    (hgood : GoodCompare heap.compare P) (hP : ∀ x ∈ heap.nodes, P x)
    (hord : HeapOrdered heap.compare heap.nodes) (hsize : 0 < heap.size) :
    ∃ node rest, heap_extract heap = (some node, { heap with nodes := rest }) ∧
      heap.nodes.Perm (node :: rest) ∧ HeapOrdered heap.compare rest ∧
      ∀ x ∈ heap.nodes, ¬ heap.compare x node < 0 := by
  obtain ⟨cmp, nodes, max_size⟩ := heap
  simp only [Heap.size] at hsize hP hord hgood ⊢
  cases nodes with
  | nil => simp at hsize
  | cons node rest =>
    have hmin := heapOrdered_root_min cmp P hgood (node :: rest) hP hord node (by simp)
    cases hlast : rest.getLast? with
    | none =>
      have hrest : rest = [] := List.getLast?_eq_none_iff.mp hlast
      subst hrest
      refine ⟨node, [], ?_, List.Perm.refl _, ?_, hmin⟩
      · simp [heap_extract]
      · intro i j a b hi; simp at hi
    | some last =>
      have hsplit : rest.dropLast ++ [last] = rest :=
        List.dropLast_append_getLast? last (by simp [hlast])
      have hlen : rest.length = rest.dropLast.length + 1 := by
        conv_lhs => rw [← hsplit]
        simp
      have hord' : HeapOrdered cmp (node :: (rest.dropLast ++ [last])) := by
        rw [hsplit]; exact hord
      have hP0 : ∀ x ∈ last :: rest.dropLast, P x := by
        intro x hx
        apply hP x
        rw [← hsplit]
        rcases List.mem_cons.mp hx with rfl | hx
        · simp
        · simp [hx]
      obtain ⟨h1, h2⟩ := heapify_down_spec cmp P hgood rest.length (last :: rest.dropLast) 0
        (by simp only [List.length_cons]; omega) hP0
        (downInv_replace_root cmp node last rest.dropLast hord')
      refine ⟨node, (heapify_down cmp rest.length (last :: rest.dropLast) 0).1, ?_, ?_, h1, hmin⟩
      · simp [heap_extract, hlast]
      · refine List.Perm.cons node ?_
        refine List.Perm.symm (h2.trans ?_)
        conv_rhs => rw [← hsplit]
        exact (List.perm_append_comm : ([last] ++ rest.dropLast).Perm (rest.dropLast ++ [last]))

/-! ## The priority queue of `build_tree` -/

theorem compare_nodes_lt_iff (a b : Node) (ha : SmallNode a) (hb : SmallNode b) :
    compare_nodes a b < 0 ↔
      (a.frequency < b.frequency ∨ (a.frequency = b.frequency ∧ a.symbol < b.symbol)) := by
  obtain ⟨ha1, ha2⟩ := ha
  obtain ⟨hb1, hb2⟩ := hb
  unfold compare_nodes
  by_cases heq : a.frequency = b.frequency
  · simp only [heq, if_true, lt_irrefl, true_and, false_or]
    omega
  · simp only [heq, if_false, to_int, SIZE_T_MOD, false_and, or_false]
    split <;> omega

theorem compare_nodes_good : GoodCompare compare_nodes SmallNode := by
  constructor
  · intro a b ha hb h
    rw [compare_nodes_lt_iff a b ha hb] at h
    rw [compare_nodes_lt_iff b a hb ha]
    omega
  · intro a b c ha hb hc h1 h2
    rw [compare_nodes_lt_iff b a hb ha] at h1
    rw [compare_nodes_lt_iff c b hc hb] at h2
    rw [compare_nodes_lt_iff c a hc ha]
    omega

theorem not_lt_frequency_le (a b : Node) (ha : SmallNode a) (hb : SmallNode b)
    (h : ¬ compare_nodes b a < 0) : a.frequency ≤ b.frequency := by
  rw [compare_nodes_lt_iff b a hb ha] at h
  omega

theorem frequency_le_total (L : List Node) (n : Node) (h : n ∈ L) :
    n.frequency ≤ total_frequency L := by
  unfold total_frequency
  exact List.single_le_sum (fun _ _ => Nat.zero_le _) _ (List.mem_map_of_mem _ h)

theorem total_frequency_perm (L L' : List Node) (h : L.Perm L') :
    total_frequency L = total_frequency L' := by
  unfold total_frequency
  exact (h.map _).sum_eq

theorem total_frequency_cons (n : Node) (L : List Node) :
    total_frequency (n :: L) = n.frequency + total_frequency L := by
  simp [total_frequency]

theorem queue_small (heap : Heap Node) (h : QueueInv heap) : ∀ n ∈ heap.nodes, SmallNode n :=
  fun n hn => ⟨h.bytes n hn, lt_of_le_of_lt (frequency_le_total _ n hn) h.total⟩

theorem builds_perm (L L' : List Node) (R : Node) (h : Builds L R) (hp : L.Perm L') :
    Builds L' R := by
  cases h with
  | single =>
    have : L' = [R] := List.perm_singleton.mp hp.symm
    subst this
    exact Builds.single R
  | merge _ a b rest _ h1 h2 h3 h4 =>
    exact Builds.merge L' a b rest R (hp.symm.trans h1) h2 h3 h4

theorem build_tree_loop_spec :
    ∀ (fuel : Nat) (heap : Heap Node), QueueInv heap → 1 ≤ heap.size → heap.size ≤ fuel + 1 →
      ∃ R h', build_tree_loop fuel heap = (true, h') ∧ h'.nodes = [R] ∧
        Builds heap.nodes R := by
  intro fuel
  induction fuel with
  | zero =>
    intro heap _ h1 h2
    obtain ⟨R, hR⟩ := List.length_eq_one.mp (show heap.nodes.length = 1 by
      simp only [Heap.size] at h1 h2; omega)
    refine ⟨R, heap, rfl, hR, ?_⟩
    rw [hR]; exact Builds.single R
  | succ fuel ih =>
    intro heap hinv h1 h2
    by_cases hs : heap.size ≥ 2
    · have hsmall := queue_small heap hinv
      have hgood : GoodCompare heap.compare SmallNode := by
        rw [hinv.cmp]; exact compare_nodes_good
      have hord : HeapOrdered heap.compare heap.nodes := by
        rw [hinv.cmp]; exact hinv.ordered
      obtain ⟨n1, rest1, he1, hp1, hord1, hmin1⟩ :=
        heap_extract_spec SmallNode heap hgood hsmall hord (by omega)
      have hlen1 : heap.nodes.length = rest1.length + 1 := by
        rw [hp1.length_eq]; rfl
      have hsmall1 : ∀ n ∈ rest1, SmallNode n :=
        fun n hn => hsmall n (hp1.mem_iff.mpr (List.mem_cons_of_mem _ hn))
      obtain ⟨n2, rest2, he2, hp2, hord2, hmin2⟩ :=
        heap_extract_spec SmallNode { heap with nodes := rest1 } hgood hsmall1 hord1
          (by simp only [Heap.size] at hs ⊢; omega)
      simp only at hp2 hmin2 he2 hord2
      have hlen2 : rest1.length = rest2.length + 1 := by
        rw [hp2.length_eq]; rfl
      have hperm : heap.nodes.Perm (n1 :: n2 :: rest2) := hp1.trans (hp2.cons n1)
      have htot : total_frequency heap.nodes
          = n1.frequency + (n2.frequency + total_frequency rest2) := by
        rw [total_frequency_perm _ _ hperm, total_frequency_cons, total_frequency_cons]
      have htotal := hinv.total
      have hfreq : (combine_nodes n1 n2).frequency = n1.frequency + n2.frequency := by
        show (n1.frequency + n2.frequency) % SIZE_T_MOD = _
        apply Nat.mod_eq_of_lt
        simp only [SIZE_T_MOD]
        omega
      have hn1 : SmallNode n1 := hsmall n1 (hperm.mem_iff.mpr (by simp))
      have hn2 : SmallNode n2 := hsmall n2 (hperm.mem_iff.mpr (by simp))
      have hsmall2 : ∀ n ∈ rest2, SmallNode n :=
        fun n hn => hsmall n (hperm.mem_iff.mpr (by simp [hn]))
      have hcomb : SmallNode (combine_nodes n1 n2) := by
        refine ⟨by simp [combine_nodes, Node.symbol], ?_⟩
        rw [hfreq]; omega
      obtain ⟨hi1, hi2, hi3, hi4, hi5⟩ :=
        heap_insert_spec SmallNode { heap with nodes := rest2 } (combine_nodes n1 n2)
          hgood hsmall2 hcomb hord2
          (by have := hinv.room; simp only [Heap.size] at this hs ⊢; omega)
      simp only at hi2 hi3 hi4
      have hi5 : (heap_insert { heap with nodes := rest2 } (combine_nodes n1 n2)).2.nodes.Perm
          (combine_nodes n1 n2 :: rest2) := hi5
      have hinv3 : QueueInv (heap_insert { heap with nodes := rest2 } (combine_nodes n1 n2)).2 := by
        refine ⟨hi2.trans hinv.cmp, ?_, ?_, ?_, ?_⟩
        · rw [← hinv.cmp]; exact hi4
        · intro n hn
          rcases List.mem_cons.mp (hi5.mem_iff.mp hn) with rfl | hn
          · exact hcomb.1
          · exact (hsmall2 n hn).1
        · rw [total_frequency_perm _ _ hi5, total_frequency_cons, hfreq]; omega
        · have := hinv.room
          simp only [Heap.size] at this hs ⊢
          rw [hi5.length_eq, hi3]
          simp only [List.length_cons]
          omega
      have hsize3 : (heap_insert { heap with nodes := rest2 } (combine_nodes n1 n2)).2.size
          = rest2.length + 1 := by
        simp only [Heap.size]; rw [hi5.length_eq]; rfl
      obtain ⟨R, h', hb1, hb2, hb3⟩ := ih _ hinv3 (by omega)
        (by simp only [Heap.size] at h2; omega)
      refine ⟨R, h', ?_, hb2, ?_⟩
      · simp only [build_tree_loop, hs, if_true, he1, he2, hi1, if_false]
        exact hb1
      · refine Builds.merge _ n1 n2 rest2 R hperm ?_ ?_ (builds_perm _ _ R hb3 hi5)
        · intro x hx
          have hx' : x ∈ heap.nodes := hperm.mem_iff.mpr (List.mem_cons_of_mem _ hx)
          exact not_lt_frequency_le n1 x hn1 (hsmall x hx')
            (by have := hmin1 x hx'; rwa [hinv.cmp] at this)
        · intro x hx
          have hx' : x ∈ rest1 := hp2.mem_iff.mpr (List.mem_cons_of_mem _ hx)
          exact not_lt_frequency_le n2 x hn2 (hsmall1 x hx')
            (by have := hmin2 x hx'; rwa [hinv.cmp] at this)
    · obtain ⟨R, hR⟩ := List.length_eq_one.mp (show heap.nodes.length = 1 by
        simp only [Heap.size] at h1 hs; omega)
      refine ⟨R, heap, ?_, hR, ?_⟩
      · simp only [build_tree_loop, hs, if_false]
      · rw [hR]; exact Builds.single R

theorem build_tree_spec (heap : Heap Node) (hinv : QueueInv heap) (h1 : 1 ≤ heap.size) :
    ∃ R, (build_tree heap).1 = some R ∧ Builds heap.nodes R := by
  obtain ⟨R, h', hb1, hb2, hb3⟩ := build_tree_loop_spec heap.size heap hinv h1 (by omega)
  refine ⟨R, ?_, hb3⟩
  simp [build_tree, hb1, heap_extract, hb2]

theorem leaf_nodes_cons_pos (t : Nat → Nat) (scale a : Nat) (L : List Nat) (h : t a ≠ 0) :
    leaf_nodes t scale (a :: L) = Node.leaf a (scale_down (t a) scale) :: leaf_nodes t scale L := by
  simp [leaf_nodes, List.filter_cons, h]

theorem leaf_nodes_cons_neg (t : Nat → Nat) (scale a : Nat) (L : List Nat) (h : t a = 0) :
    leaf_nodes t scale (a :: L) = leaf_nodes t scale L := by
  simp [leaf_nodes, List.filter_cons, h]

theorem fill_minheap_fold (t : Nat → Nat) (scale : Nat) :
    ∀ (L : List Nat) (heap : Heap Node), heap.compare = compare_nodes →
      HeapOrdered compare_nodes heap.nodes → (∀ n ∈ heap.nodes, SmallNode n) →
      (∀ i ∈ L, i < 256 ∧ scale_down (t i) scale ≤ 255) →
      heap.size + (L.filter (fun i => t i ≠ 0)).length ≤ heap.max_size →
      (L.foldl (fill_minheap_step t scale) (heap, false)).2 = false ∧
      (L.foldl (fill_minheap_step t scale) (heap, false)).1.compare = compare_nodes ∧
      (L.foldl (fill_minheap_step t scale) (heap, false)).1.max_size = heap.max_size ∧
      HeapOrdered compare_nodes (L.foldl (fill_minheap_step t scale) (heap, false)).1.nodes ∧
      (L.foldl (fill_minheap_step t scale) (heap, false)).1.nodes.Perm
        ((leaf_nodes t scale L).reverse ++ heap.nodes) := by
  intro L
  induction L with
  | nil => intro heap hc ho _ _ _; exact ⟨rfl, hc, rfl, ho, by simp [leaf_nodes]⟩
  | cons a L ih =>
    intro heap hc ho hs hL hroom
    have hL' : ∀ i ∈ L, i < 256 ∧ scale_down (t i) scale ≤ 255 :=
      fun i hi => hL i (List.mem_cons_of_mem _ hi)
    simp only [List.foldl_cons]
    by_cases h0 : t a = 0
    · have hstep : fill_minheap_step t scale (heap, false) a = (heap, false) := by
        simp [fill_minheap_step, h0]
      rw [hstep, leaf_nodes_cons_neg t scale a L h0]
      exact ih heap hc ho hs hL' (by simpa [List.filter_cons, h0] using hroom)
    · have hcount : ((a :: L).filter (fun i => t i ≠ 0)).length
          = (L.filter (fun i => t i ≠ 0)).length + 1 := by simp [List.filter_cons, h0]
      rw [hcount] at hroom
      have hne := scale_down_ne_zero (t a) scale h0
      have ha := hL a (List.mem_cons_self _ _)
      have hleaf : SmallNode (Node.leaf a (scale_down (t a) scale)) :=
        ⟨ha.1, by show scale_down (t a) scale < 2147483648; omega⟩
      have hgood : GoodCompare heap.compare SmallNode := by rw [hc]; exact compare_nodes_good
      obtain ⟨hi1, hi2, hi3, hi4, hi5⟩ :=
        heap_insert_spec SmallNode heap (Node.leaf a (scale_down (t a) scale)) hgood hs hleaf
          (by rw [hc]; exact ho) (by omega)
      have hstep : fill_minheap_step t scale (heap, false) a
          = ((heap_insert heap (Node.leaf a (scale_down (t a) scale))).2, false) := by
        simp [fill_minheap_step, h0, hne, hi1]
      rw [hstep, leaf_nodes_cons_pos t scale a L h0]
      have hsize : (heap_insert heap (Node.leaf a (scale_down (t a) scale))).2.size
          = heap.size + 1 := by
        simp only [Heap.size]; rw [hi5.length_eq]; rfl
      obtain ⟨r1, r2, r3, r4, r5⟩ := ih (heap_insert heap (Node.leaf a (scale_down (t a) scale))).2
        (hi2.trans hc) (by rw [← hc]; exact hi4)
        (by
          intro n hn
          rcases List.mem_cons.mp (hi5.mem_iff.mp hn) with rfl | hn
          · exact hleaf
          · exact hs n hn)
        hL' (by rw [hsize, hi3]; omega)
      refine ⟨r1, r2, r3.trans hi3, r4, r5.trans ?_⟩
      simp only [List.reverse_cons, List.append_assoc, List.singleton_append]
      exact List.Perm.append_left _ hi5

theorem total_leaf_nodes_le (t : Nat → Nat) (scale : Nat) (L : List Nat)
    (hL : ∀ i ∈ L, i < 256 ∧ scale_down (t i) scale ≤ 255) :
    total_frequency (leaf_nodes t scale L) ≤ 255 * (L.filter (fun i => t i ≠ 0)).length := by
  induction L with
  | nil => simp [leaf_nodes, total_frequency]
  | cons a L ih =>
    have hL' : ∀ i ∈ L, i < 256 ∧ scale_down (t i) scale ≤ 255 :=
      fun i hi => hL i (List.mem_cons_of_mem _ hi)
    by_cases h0 : t a = 0
    · rw [leaf_nodes_cons_neg t scale a L h0]
      simpa [List.filter_cons, h0] using ih hL'
    · have hcount : ((a :: L).filter (fun i => t i ≠ 0)).length
          = (L.filter (fun i => t i ≠ 0)).length + 1 := by simp [List.filter_cons, h0]
      rw [leaf_nodes_cons_pos t scale a L h0, total_frequency_cons, hcount]
      have ha := (hL a (List.mem_cons_self _ _)).2
      have := ih hL'
      simp only [Node.frequency]
      omega

theorem compress_leaves_length (t : Nat → Nat) : (compress_leaves t).length = nonzero_count t := by
  simp [compress_leaves, leaf_nodes, nonzero_count]

theorem compress_leaves_symbol (t : Nat → Nat) : ∀ n ∈ compress_leaves t, n.symbol < 256 := by
  intro n hn
  simp only [compress_leaves, leaf_nodes, List.mem_map, List.mem_filter, List.mem_range] at hn
  obtain ⟨i, ⟨hi, _⟩, rfl⟩ := hn
  exact hi

theorem compress_leaves_total (t : Nat → Nat) : total_frequency (compress_leaves t) ≤ 65280 := by
  have h := total_leaf_nodes_le t (get_list_size t 0).2 _ (range_scaled t)
  have h2 := nonzero_count_le t
  unfold nonzero_count at h2
  unfold compress_leaves
  omega

/-- The tree of `compress` exists for every table with a non-zero entry, and results from
the leaves by merging two nodes of least frequency at every step. -/
theorem compress_tree_builds (t : Nat → Nat) (hN : 1 ≤ nonzero_count t) :
    ∃ R, compress_tree t = some R ∧ Builds (compress_leaves t) R := by
  have hfold := fill_minheap_fold t (get_list_size t 0).2 (List.range FREQUENCY_TABLE_SIZE)
    (create_priority_queue (nonzero_count t) compare_nodes) rfl
    (by intro i j a b hi; simp [create_priority_queue] at hi)
    (by intro n hn; simp [create_priority_queue] at hn)
    (range_scaled t)
    (by show 0 + nonzero_count t ≤ nonzero_count t; omega)
  obtain ⟨f1, f2, f3, f4, f5⟩ := hfold
  have hfm : fill_minheap t (create_priority_queue (nonzero_count t) compare_nodes)
      (get_list_size t 0).2 = (((List.range FREQUENCY_TABLE_SIZE).foldl
        (fill_minheap_step t (get_list_size t 0).2)
        (create_priority_queue (nonzero_count t) compare_nodes, false)).1.size,
        ((List.range FREQUENCY_TABLE_SIZE).foldl
        (fill_minheap_step t (get_list_size t 0).2)
        (create_priority_queue (nonzero_count t) compare_nodes, false)).1) := rfl
  generalize ((List.range FREQUENCY_TABLE_SIZE).foldl
      (fill_minheap_step t (get_list_size t 0).2)
      (create_priority_queue (nonzero_count t) compare_nodes, false)).1 = H at f2 f3 f4 f5 hfm
  have f3' : H.max_size = nonzero_count t := f3
  have f5' : H.nodes.Perm (compress_leaves t) :=
    (f5.trans (List.perm_append_comm)).trans (List.reverse_perm _)
  have hlen : H.nodes.length = nonzero_count t := by
    rw [f5'.length_eq, compress_leaves_length]
  have hinv : QueueInv H := by
    refine ⟨f2, f4, ?_, ?_, ?_⟩
    · intro n hn
      exact compress_leaves_symbol t n (f5'.mem_iff.mp hn)
    · rw [total_frequency_perm _ _ f5']
      have := compress_leaves_total t
      omega
    · simp only [Heap.size, hlen, f3']; exact le_refl _
  obtain ⟨R, hR1, hR2⟩ := build_tree_spec H hinv (by simp only [Heap.size, hlen]; exact hN)
  refine ⟨R, ?_, builds_perm _ _ R hR2 f5'⟩
  unfold compress_tree
  dsimp only
  rw [get_list_size_fst, hfm]
  simp only [Heap.size, hlen, lt_irrefl, if_false]
  exact hR1

/-- C8: for every raw table with a non-zero entry, `compress` builds a tree from the raw
table (heap filled with the scale factor of `get_list_size`), and the tree `decompress`
builds from the header written for that table (`read_file_header`, heap filled with scale
0, `build_tree`) is the very same tree: same shape, leaf symbols and node frequencies. -/
theorem decompress_tree_eq_compress_tree (t : Nat → Nat) (hN : 1 ≤ nonzero_count t)
    (body : List Nat) (p pos : Nat) (room : Option Nat) :
    ∃ root frequency_table list_size bit_padding f,
      read_file_header ⟨(write_file_header (file_of []) t).2.data ++ body ++ [p], pos, room⟩
        = some (frequency_table, list_size, bit_padding, f) ∧
      compress_tree t = some root ∧
      decompress_tree frequency_table list_size = some root := by
  have hw : (write_file_header (file_of []) t).2.data = header_bytes t := by
    rw [(write_file_header_spec t (file_of []) rfl hN).1]; rfl
  obtain ⟨R, hR, _⟩ := compress_tree_builds t hN
  rw [hw]
  refine ⟨R, scaled_table t, nonzero_count t, p,
    ⟨header_bytes t ++ body ++ [p], 1 + 2 * nonzero_count t, room⟩, ?_, hR, ?_⟩
  · exact read_file_header_of_header t hN body p pos room
  · rw [decompress_tree_scaled, hR]

/-- Witness for `decompress_tree_eq_compress_tree`: the table of "AAAB". -/
theorem decompress_tree_eq_compress_tree_witness :
    ∃ root frequency_table list_size bit_padding f,
      read_file_header
          ⟨(write_file_header (file_of [])
              (fun i => if i = 0x41 then 3 else if i = 0x42 then 1 else 0)).2.data
            ++ [0xE0] ++ [4], 0, none⟩
        = some (frequency_table, list_size, bit_padding, f) ∧
      compress_tree (fun i => if i = 0x41 then 3 else if i = 0x42 then 1 else 0) = some root ∧
      decompress_tree frequency_table list_size = some root :=
  decompress_tree_eq_compress_tree _ (by decide!) [0xE0] 4 0 none

/-! ## Assignments of depths and the exchange step -/

theorem kraft_sum_cons (H : Nat) (p : Nat × Nat) (A : Multiset (Nat × Nat)) :
    kraft_sum H (p ::ₘ A) = 2 ^ (H - p.2) + kraft_sum H A := by
  simp [kraft_sum]

theorem assignment_cost_cons (p : Nat × Nat) (A : Multiset (Nat × Nat)) :
    assignment_cost (p ::ₘ A) = p.1 * p.2 + assignment_cost A := by
  simp [assignment_cost]

theorem kraft_sum_depths (H : Nat) (A : Multiset (Nat × Nat)) :
    kraft_sum H A = ((A.map Prod.snd).map (fun d => 2 ^ (H - d))).sum := by
  simp [kraft_sum, Multiset.map_map]

/-- The largest depth can be given to an element of least weight without raising the
cost or changing the multiset of depths. -/
theorem lift_min_weight (a : Nat) :
    ∀ (Q : Multiset (Nat × Nat)) (da : Nat), (∀ q ∈ Q, a ≤ q.1) →
      ∃ (Q' : Multiset (Nat × Nat)) (m : Nat), Q'.map Prod.fst = Q.map Prod.fst ∧
        m ::ₘ Q'.map Prod.snd = da ::ₘ Q.map Prod.snd ∧ (∀ q ∈ Q', q.2 ≤ m) ∧ da ≤ m ∧
        a * m + assignment_cost Q' ≤ a * da + assignment_cost Q := by
  intro Q
  induction Q using Multiset.induction_on with
  | empty =>
    intro da _
    exact ⟨0, da, rfl, rfl, by simp, le_refl _, le_refl _⟩
  | cons q Q₀ ih =>
    intro da hQ
    obtain ⟨Q₀', m₀, h1, h2, h3, h4, h5⟩ :=
      ih da (fun x hx => hQ x (Multiset.mem_cons_of_mem hx))
    have hq : a ≤ q.1 := hQ q (Multiset.mem_cons_self _ _)
    by_cases hle : q.2 ≤ m₀
    · refine ⟨q ::ₘ Q₀', m₀, ?_, ?_, ?_, h4, ?_⟩
      · simp [h1]
      · simp only [Multiset.map_cons]
        rw [Multiset.cons_swap, h2, Multiset.cons_swap]
      · intro x hx
        rcases Multiset.mem_cons.mp hx with rfl | hx
        · exact hle
        · exact h3 x hx
      · rw [assignment_cost_cons, assignment_cost_cons]; omega
    · refine ⟨(q.1, m₀) ::ₘ Q₀', q.2, ?_, ?_, ?_, by omega, ?_⟩
      · simp [h1]
      · simp only [Multiset.map_cons]
        rw [h2, Multiset.cons_swap]
      · intro x hx
        rcases Multiset.mem_cons.mp hx with rfl | hx
        · simp only; omega
        · have := h3 x hx; omega
      · rw [assignment_cost_cons, assignment_cost_cons]
        simp only
        have hm : m₀ ≤ q.2 := by omega
        obtain ⟨e, he⟩ := Nat.exists_eq_add_of_le hq
        obtain ⟨g, hg⟩ := Nat.exists_eq_add_of_le hm
        rw [he, hg] at *
        nlinarith

theorem valid_depths_congr (H : Nat) (A B : Multiset (Nat × Nat))
    (h : A.map Prod.snd = B.map Prod.snd) (hA : ValidDepths H A) : ValidDepths H B := by
  constructor
  · intro p hp
    have : p.2 ∈ A.map Prod.snd := by rw [h]; exact Multiset.mem_map_of_mem _ hp
    obtain ⟨q, hq, hqp⟩ := Multiset.mem_map.mp this
    rw [← hqp]; exact hA.1 q hq
  · rw [kraft_sum_depths, ← h, ← kraft_sum_depths]; exact hA.2

/-- Kraft's inequality leaves room to merge the two deepest elements: if the depths
`m1 >= m2` are the two largest, the depth `m2` is at least 1 and replacing both elements
by one of depth `m2 - 1` keeps the inequality. -/
theorem kraft_merge (H m1 m2 : Nat) (Q : Multiset (Nat × Nat)) (hm1 : m1 ≤ H) (hm : m2 ≤ m1)
    (hQ : ∀ q ∈ Q, q.2 ≤ m2) (hk : 2 ^ (H - m1) + (2 ^ (H - m2) + kraft_sum H Q) ≤ 2 ^ H) :
    1 ≤ m2 ∧ 2 ^ (H - (m2 - 1)) + kraft_sum H Q ≤ 2 ^ H := by
  have hm2 : m2 ≤ H := le_trans hm hm1
  have hdvd : 2 ^ (H - m2) ∣ kraft_sum H Q := by
    unfold kraft_sum
    apply Multiset.dvd_sum
    intro x hx
    obtain ⟨q, hq, rfl⟩ := Multiset.mem_map.mp hx
    exact pow_dvd_pow 2 (by have := hQ q hq; omega)
  obtain ⟨N, hN⟩ := hdvd
  have hH : 2 ^ H = 2 ^ (H - m2) * 2 ^ m2 := by
    rw [← pow_add]; congr 1; omega
  have hpos1 : 0 < 2 ^ (H - m1) := Nat.two_pow_pos _
  have hu : 0 < 2 ^ (H - m2) := Nat.two_pow_pos _
  rw [hN, hH] at hk
  have hlt : 2 ^ (H - m2) * (1 + N) < 2 ^ (H - m2) * 2 ^ m2 := by
    rw [Nat.mul_add, Nat.mul_one]; omega
  have hlt' : 1 + N < 2 ^ m2 := Nat.lt_of_mul_lt_mul_left hlt
  have h1 : 1 ≤ m2 := by
    by_contra hc
    have : m2 = 0 := by omega
    rw [this] at hlt'
    simp at hlt'
  refine ⟨h1, ?_⟩
  have h2 : 2 ^ (H - (m2 - 1)) = 2 ^ (H - m2) * 2 := by
    rw [← pow_succ]; congr 1; omega
  rw [h2, hN, hH, ← Nat.mul_add]
  exact Nat.mul_le_mul_left _ (by omega)

/-- The exchange step of Huffman's argument on assignments of depths: when `a` and `b` are
the two least weights, every valid assignment for `a, b, W` yields a valid one for
`a + b, W` that costs `a + b` less. -/
theorem merge_assignment (H a b : Nat) (W : Multiset Nat) (A : Multiset (Nat × Nat))
    (hA : A.map Prod.fst = a ::ₘ b ::ₘ W) (hab : a ≤ b) (hW : ∀ x ∈ W, b ≤ x)
    (hv : ValidDepths H A) :
    ∃ A' : Multiset (Nat × Nat), A'.map Prod.fst = (a + b) ::ₘ W ∧ ValidDepths H A' ∧
      assignment_cost A' + a + b ≤ assignment_cost A := by
  classical
  obtain ⟨pa, hpa, hpa1, hA1⟩ := (Multiset.map_eq_cons _ _ _ _).mpr hA
  have hAeq : A = pa ::ₘ A.erase pa := (Multiset.cons_erase hpa).symm
  have hmin1 : ∀ q ∈ A.erase pa, a ≤ q.1 := by
    intro q hq
    have : q.1 ∈ b ::ₘ W := by rw [← hA1]; exact Multiset.mem_map_of_mem _ hq
    rcases Multiset.mem_cons.mp this with h | h
    · omega
    · have := hW _ h; omega
  obtain ⟨Q1, m1, h11, h12, h13, h14, h15⟩ := lift_min_weight a (A.erase pa) pa.2 hmin1
  rw [hA1] at h11
  obtain ⟨pb, hpb, hpb1, hQ1⟩ := (Multiset.map_eq_cons _ _ _ _).mpr h11
  have hQ1eq : Q1 = pb ::ₘ Q1.erase pb := (Multiset.cons_erase hpb).symm
  have hmin2 : ∀ q ∈ Q1.erase pb, b ≤ q.1 := by
    intro q hq
    have : q.1 ∈ W := by rw [← hQ1]; exact Multiset.mem_map_of_mem _ hq
    exact hW _ this
  obtain ⟨Q2, m2, h21, h22, h23, h24, h25⟩ := lift_min_weight b (Q1.erase pb) pb.2 hmin2
  rw [hQ1] at h21
  -- the depths of `Q1` are `m2` and those of `Q2`
  have hd1 : Q1.map Prod.snd = m2 ::ₘ Q2.map Prod.snd := by
    rw [h22]; conv_lhs => rw [hQ1eq]
    simp
  have hm21 : m2 ≤ m1 := by
    have : m2 ∈ Q1.map Prod.snd := by rw [hd1]; exact Multiset.mem_cons_self _ _
    obtain ⟨q, hq, hq2⟩ := Multiset.mem_map.mp this
    rw [← hq2]; exact h13 q hq
  -- the assignment `(a, m1), (b, m2), Q2` has the depths of `A`
  have hdepths : A.map Prod.snd
      = (((a, m1) : Nat × Nat) ::ₘ ((b, m2) : Nat × Nat) ::ₘ Q2).map Prod.snd := by
    conv_lhs => rw [hAeq]
    simp only [Multiset.map_cons]
    rw [← h12, hd1]
  have hv' := valid_depths_congr H _ _ hdepths hv
  have hm1H : m1 ≤ H := hv'.1 (a, m1) (Multiset.mem_cons_self _ _)
  have hk := hv'.2
  rw [kraft_sum_cons, kraft_sum_cons] at hk
  obtain ⟨hm2pos, hk'⟩ := kraft_merge H m1 m2 Q2 hm1H hm21 h23 hk
  refine ⟨((a + b, m2 - 1) : Nat × Nat) ::ₘ Q2, ?_, ⟨?_, ?_⟩, ?_⟩
  · simp [h21]
  · intro p hp
    rcases Multiset.mem_cons.mp hp with rfl | hp
    · simp only; omega
    · have := h23 p hp; omega
  · rw [kraft_sum_cons]; exact hk'
  · have hcA : assignment_cost A = pa.1 * pa.2 + assignment_cost (A.erase pa) := by
      conv_lhs => rw [hAeq]
      rw [assignment_cost_cons]
    have hcQ1 : assignment_cost Q1 = pb.1 * pb.2 + assignment_cost (Q1.erase pb) := by
      conv_lhs => rw [hQ1eq]
      rw [assignment_cost_cons]
    rw [hpa1] at hcA
    rw [hpb1] at hcQ1
    rw [hcQ1] at h15
    rw [assignment_cost_cons, hcA]
    simp only
    obtain ⟨e, he⟩ := Nat.exists_eq_add_of_le hm2pos
    obtain ⟨g, hg⟩ := Nat.exists_eq_add_of_le hm21
    have hsub : m2 - 1 = e := by omega
    rw [hsub]
    rw [he] at h25 hg
    rw [hg] at h15
    have e1 : a * (1 + e + g) = a + a * e + a * g := by ring
    have e2 : b * (1 + e) = b + b * e := by ring
    have e3 : (a + b) * e = a * e + b * e := by ring
    rw [e1] at h15
    rw [e2] at h25
    rw [e3]
    omega

theorem combine_nodes_cost (a b : Node) :
    (combine_nodes a b).cost = a.cost + b.cost + a.weight + b.weight := rfl

theorem combine_nodes_weight (a b : Node) :
    (combine_nodes a b).weight = a.weight + b.weight := rfl

theorem combine_nodes_frequency (a b : Node) (h : a.frequency + b.frequency < SIZE_T_MOD) :
    (combine_nodes a b).frequency = a.frequency + b.frequency :=
  Nat.mod_eq_of_lt h

/-- The tree built by merging least-frequency nodes costs no more than the trees it
starts from plus any valid assignment of depths to them. -/
theorem builds_cost_le (L : List Node) (R : Node) (hb : Builds L R) :
    total_frequency L < SIZE_T_MOD → (∀ n ∈ L, n.frequency = n.weight) →
    ∀ (H : Nat) (A : Multiset (Nat × Nat)),
      A.map Prod.fst = (↑(L.map Node.frequency) : Multiset Nat) → ValidDepths H A →
      R.cost ≤ (L.map Node.cost).sum + assignment_cost A := by
  induction hb with
  | single n =>
    intro _ _ H A _ _
    simp
  | merge L a b rest R hp h1 h2 _ ih =>
    intro htot hw H A hA hv
    have htotL : total_frequency L = a.frequency + (b.frequency + total_frequency rest) := by
      rw [total_frequency_perm _ _ hp, total_frequency_cons, total_frequency_cons]
    have ha : a ∈ L := hp.mem_iff.mpr (by simp)
    have hb' : b ∈ L := hp.mem_iff.mpr (by simp)
    have hfreq : (combine_nodes a b).frequency = a.frequency + b.frequency :=
      combine_nodes_frequency a b (by omega)
    have hA' : A.map Prod.fst
        = a.frequency ::ₘ b.frequency ::ₘ (↑(rest.map Node.frequency) : Multiset Nat) := by
      rw [hA]
      have : (↑(L.map Node.frequency) : Multiset Nat)
          = ↑((a :: b :: rest).map Node.frequency) := Multiset.coe_eq_coe.mpr (hp.map _)
      rw [this]
      rfl
    obtain ⟨A', hA1, hA2, hA3⟩ := merge_assignment H a.frequency b.frequency _ A hA'
      (h1 b (List.mem_cons_self _ _))
      (by
        intro x hx
        obtain ⟨n, hn, rfl⟩ := List.mem_map.mp (Multiset.mem_coe.mp hx)
        exact h2 n hn)
      hv
    have hih := ih
      (by rw [total_frequency_cons, hfreq]; omega)
      (by
        intro n hn
        rcases List.mem_cons.mp hn with rfl | hn
        · rw [hfreq, combine_nodes_weight, hw a ha, hw b hb']
        · exact hw n (hp.mem_iff.mpr (by simp [hn])))
      H A'
      (by rw [hA1, List.map_cons, hfreq]; rfl)
      hA2
    have hcost : (L.map Node.cost).sum = a.cost + (b.cost + (rest.map Node.cost).sum) := by
      rw [(hp.map Node.cost).sum_eq]; simp
    rw [List.map_cons, List.sum_cons, combine_nodes_cost, ← hw a ha, ← hw b hb'] at hih
    omega

/-! ## Kraft's inequality for prefix-free codes -/

theorem pairwise_nil_mem (ws : List (List Bool)) (hp : ws.Pairwise Incomparable)
    (h : [] ∈ ws) : ws = [[]] := by
  cases ws with
  | nil => simp at h
  | cons w rest =>
    rw [List.pairwise_cons] at hp
    cases w with
    | nil =>
      cases rest with
      | nil => rfl
      | cons v rest' =>
        exact absurd (List.nil_prefix) (hp.1 v (List.mem_cons_self _ _)).1
    | cons x t =>
      have hmem : [] ∈ rest := by simpa using h
      exact absurd (List.nil_prefix) (hp.1 [] hmem).2

theorem tails_of_length (b : Bool) (H : Nat) (ws : List (List Bool))
    (h : ∀ w ∈ ws, w.length ≤ H + 1) : ∀ t ∈ tails_of b ws, t.length ≤ H := by
  intro t ht
  simp only [tails_of, List.mem_filterMap] at ht
  obtain ⟨w, hw, hwt⟩ := ht
  cases w with
  | nil => simp at hwt
  | cons x t' =>
    by_cases hx : x = b
    · simp only [hx, if_true, Option.some.injEq] at hwt
      subst hwt
      have := h _ hw
      simp only [List.length_cons] at this
      omega
    · simp [hx] at hwt

theorem tails_of_pairwise (b : Bool) (ws : List (List Bool)) (hp : ws.Pairwise Incomparable) :
    (tails_of b ws).Pairwise Incomparable := by
  unfold tails_of
  refine List.Pairwise.filterMap _ ?_ hp
  intro w w' hww t ht t' ht'
  cases w with
  | nil => simp at ht
  | cons x u =>
    cases w' with
    | nil => simp at ht'
    | cons x' u' =>
      by_cases hx : x = b
      · by_cases hx' : x' = b
        · simp only [hx, if_true, Option.mem_def, Option.some.injEq] at ht
          simp only [hx', if_true, Option.mem_def, Option.some.injEq] at ht'
          subst ht ht' hx hx'
          constructor
          · intro hpre
            exact hww.1 ((List.prefix_cons_inj _).mpr hpre)
          · intro hpre
            exact hww.2 ((List.prefix_cons_inj _).mpr hpre)
        · simp [hx'] at ht'
      · simp [hx] at ht

theorem kraft_split (H : Nat) (ws : List (List Bool)) (h : [] ∉ ws) :
    (ws.map (fun w => 2 ^ (H + 1 - w.length))).sum
      = ((tails_of false ws).map (fun w => 2 ^ (H - w.length))).sum
        + ((tails_of true ws).map (fun w => 2 ^ (H - w.length))).sum := by
  induction ws with
  | nil => simp [tails_of]
  | cons w rest ih =>
    have hrest : [] ∉ rest := fun hm => h (List.mem_cons_of_mem _ hm)
    have ih' := ih hrest
    cases w with
    | nil => simp at h
    | cons x t =>
      have e : H + 1 - (x :: t).length = H - t.length := by simp
      simp only [List.map_cons, List.sum_cons, e, ih']
      cases x with
      | false => simp [tails_of]; omega
      | true => simp [tails_of]; omega

/-- Kraft's inequality for a list of pairwise prefix-incomparable words of length at
most `H`. -/
theorem kraft_prefix_free :
    ∀ (H : Nat) (ws : List (List Bool)), (∀ w ∈ ws, w.length ≤ H) →
      ws.Pairwise Incomparable → (ws.map (fun w => 2 ^ (H - w.length))).sum ≤ 2 ^ H := by
  intro H
  induction H with
  | zero =>
    intro ws hlen hp
    cases ws with
    | nil => simp
    | cons w rest =>
      have hw : w = [] := List.eq_nil_of_length_eq_zero (by
        have := hlen w (List.mem_cons_self _ _); omega)
      subst hw
      have := pairwise_nil_mem _ hp (List.mem_cons_self _ _)
      rw [this]; simp
  | succ H ih =>
    intro ws hlen hp
    by_cases hnil : [] ∈ ws
    · rw [pairwise_nil_mem ws hp hnil]; simp
    · rw [kraft_split H ws hnil]
      have h0 := ih (tails_of false ws) (tails_of_length false H ws hlen)
        (tails_of_pairwise false ws hp)
      have h1 := ih (tails_of true ws) (tails_of_length true H ws hlen)
        (tails_of_pairwise true ws hp)
      rw [pow_succ]
      omega

/-! ## Code lengths and leaf depths -/

theorem leaves_at_leaves (T : Node) : ∀ d, (T.leaves_at d).map (fun x => (x.1, x.2.1)) = T.leaves := by
  induction T with
  | leaf s f => intro d; rfl
  | inner s f l r ihl ihr =>
    intro d
    simp only [Node.leaves_at, Node.leaves, List.map_append, ihl, ihr]

theorem leaves_at_cost (T : Node) :
    ∀ d, ((T.leaves_at d).map (fun x => x.2.1 * x.2.2)).sum = T.cost + d * T.weight := by
  induction T with
  | leaf s f => intro d; simp [Node.leaves_at, Node.cost, Node.weight, Nat.mul_comm]
  | inner s f l r ihl ihr =>
    intro d
    simp only [Node.leaves_at, List.map_append, List.sum_append, ihl, ihr, Node.cost,
      Node.weight]
    ring

theorem height_lt_leaves (T : Node) : T.height + 1 ≤ T.leaves.length := by
  induction T with
  | leaf s f => simp [Node.height, Node.leaves]
  | inner s f l r ihl ihr =>
    simp only [Node.height, Node.leaves, List.length_append]
    omega

theorem generate_frame (T : Node) :
    ∀ (ct : Nat → Code) (code depth s : Nat), s ∉ T.leaves.map Prod.fst →
      generate_huffman_code ct code depth T s = ct s := by
  induction T with
  | leaf sym f =>
    intro ct code depth s hs
    simp only [Node.leaves, List.map_cons, List.map_nil, List.mem_singleton] at hs
    simp [generate_huffman_code, Function.update_apply, hs]
  | inner sym f l r ihl ihr =>
    intro ct code depth s hs
    simp only [Node.leaves, List.map_append, List.mem_append, not_or] at hs
    simp only [generate_huffman_code]
    rw [ihl _ _ _ s hs.1, ihr _ _ _ s hs.2]

theorem generate_length (T : Node) :
    ∀ (ct : Nat → Code) (code depth : Nat), (T.leaves.map Prod.fst).Nodup →
      depth + T.height < 256 → (1 ≤ depth ∨ 1 ≤ T.height) →
      ∀ x ∈ T.leaves_at depth, (generate_huffman_code ct code depth T x.1).length = x.2.2 := by
  induction T with
  | leaf sym f =>
    intro ct code depth _ _ hd x hx
    simp only [Node.leaves_at, List.mem_singleton] at hx
    subst hx
    have hd' : depth ≠ 0 := by
      simp only [Node.height] at hd; omega
    simp [generate_huffman_code, hd']
  | inner sym f l r ihl ihr =>
    intro ct code depth hnd hh _ x hx
    simp only [Node.height] at hh
    simp only [Node.leaves, List.map_append] at hnd
    have hmod : (depth + 1) % 256 = depth + 1 := Nat.mod_eq_of_lt (by omega)
    simp only [generate_huffman_code, hmod]
    simp only [Node.leaves_at, List.mem_append] at hx
    rcases hx with hx | hx
    · exact ihl _ _ (depth + 1) (List.Nodup.of_append_left hnd) (by omega) (Or.inl (by omega)) x hx
    · have hxr : x.1 ∈ r.leaves.map Prod.fst := by
        rw [← leaves_at_leaves r (depth + 1)]
        simp only [List.map_map, List.mem_map, Function.comp]
        exact ⟨x, hx, rfl⟩
      have hxl : x.1 ∉ l.leaves.map Prod.fst :=
        fun hm => (List.nodup_append.mp hnd).2.2 hm hxr
      rw [generate_frame l _ _ _ x.1 hxl]
      exact ihr _ _ (depth + 1) (List.Nodup.of_append_right hnd) (by omega) (Or.inl (by omega)) x hx

theorem builds_leaves (L : List Node) (R : Node) (hb : Builds L R) :
    R.leaves.Perm (L.flatMap Node.leaves) := by
  induction hb with
  | single n => simp
  | merge L a b rest R hp _ _ _ ih =>
    refine ih.trans ?_
    refine List.Perm.trans ?_ (List.Perm.flatMap_right _ hp.symm)
    simp [combine_nodes, Node.leaves]

/-! ## Optimality of the generated code -/

theorem present_symbols_nodup (t : Nat → Nat) : (present_symbols t).Nodup :=
  List.Nodup.filter _ (List.nodup_range _)

theorem present_symbols_length (t : Nat → Nat) : (present_symbols t).length = nonzero_count t :=
  rfl

theorem compress_leaves_eq (t : Nat → Nat) :
    compress_leaves t
      = (present_symbols t).map (fun s => Node.leaf s (scale_down (t s) (get_list_size t 0).2)) :=
  rfl

theorem flatMap_leaf_leaves (f : Nat → Nat) (syms : List Nat) :
    (syms.map (fun s => Node.leaf s (f s))).flatMap Node.leaves = syms.map (fun s => (s, f s)) := by
  induction syms with
  | nil => rfl
  | cons a L ih => simp [List.flatMap_cons, Node.leaves, ih]

theorem height_pos_of_two_leaves (T : Node) (h : 2 ≤ T.leaves.length) : 1 ≤ T.height := by
  cases T with
  | leaf s f => simp [Node.leaves] at h
  | inner s f l r => simp [Node.height]

theorem pairwise_incomparable (syms : List Nat) (c : Nat → List Bool) (hnd : syms.Nodup)
    (hc : PrefixFreeOn syms c) : (syms.map c).Pairwise Incomparable := by
  rw [List.pairwise_map]
  refine List.Pairwise.imp_of_mem ?_ hnd
  intro a b ha hb hab
  exact ⟨hc a ha b hb hab, hc b hb a ha (fun h => hab h.symm)⟩

/-- The cost of the generated code is the weighted path length of the tree. -/
theorem generated_code_cost (t : Nat → Nat) (ct : Nat → Code) (R : Node)
    (h2 : 2 ≤ nonzero_count t) (hb : Builds (compress_leaves t) R) :
    code_cost t (fun s => (generate_huffman_code ct 0 0 R s).length) = R.cost := by
  have hleaves : R.leaves.Perm
      ((present_symbols t).map (fun s => (s, scale_down (t s) (get_list_size t 0).2))) := by
    have := builds_leaves _ _ hb
    rwa [compress_leaves_eq, flatMap_leaf_leaves] at this
  have hlen : R.leaves.length = nonzero_count t := by
    rw [hleaves.length_eq, List.length_map, present_symbols_length]
  have hnd : (R.leaves.map Prod.fst).Nodup := by
    have hp := hleaves.map Prod.fst
    rw [List.map_map] at hp
    have : (Prod.fst ∘ fun s => (s, scale_down (t s) (get_list_size t 0).2)) = id := rfl
    rw [this, List.map_id] at hp
    exact hp.nodup_iff.mpr (present_symbols_nodup t)
  have hheight := height_lt_leaves R
  have hN := nonzero_count_le t
  have hgen := generate_length R ct 0 0 hnd (by omega)
    (Or.inr (height_pos_of_two_leaves R (by omega)))
  have h1 : code_cost t (fun s => (generate_huffman_code ct 0 0 R s).length)
      = (((present_symbols t).map (fun s => (s, scale_down (t s) (get_list_size t 0).2))).map
          (fun p => p.2 * (generate_huffman_code ct 0 0 R p.1).length)).sum := by
    rw [List.map_map]; rfl
  rw [h1, ← (hleaves.map _).sum_eq, ← leaves_at_leaves R 0, List.map_map]
  have h3 := leaves_at_cost R 0
  simp only [Nat.zero_mul, Nat.add_zero] at h3
  rw [← h3]
  congr 1
  apply List.map_congr_left
  intro x hx
  simp only [Function.comp, hgen x hx]

theorem compress_leaves_cost (t : Nat → Nat) : ((compress_leaves t).map Node.cost).sum = 0 := by
  rw [compress_leaves_eq, List.map_map]
  apply List.sum_eq_zero
  intro x hx
  obtain ⟨s, _, rfl⟩ := List.mem_map.mp hx
  rfl

theorem compress_leaves_weight (t : Nat → Nat) :
    ∀ n ∈ compress_leaves t, n.frequency = n.weight := by
  intro n hn
  rw [compress_leaves_eq] at hn
  obtain ⟨s, _, rfl⟩ := List.mem_map.mp hn
  rfl

/-- The cost of the generated code is at most the cost of every prefix-free binary code on
the symbols present. -/
theorem generated_cost_le (t : Nat → Nat) (code_table : Nat → Code)
    (h2 : 2 ≤ nonzero_count t) (c : Nat → List Bool)
    (hc : PrefixFreeOn (present_symbols t) c) :
    ∃ root, compress_tree t = some root ∧
      code_cost t (fun s => (generate_huffman_code code_table 0 0 root s).length)
        ≤ code_cost t (fun s => (c s).length) := by
  obtain ⟨R, hR, hb⟩ := compress_tree_builds t (by omega)
  refine ⟨R, hR, ?_⟩
  rw [generated_code_cost t code_table R h2 hb]
  have htot : total_frequency (compress_leaves t) < SIZE_T_MOD := by
    have := compress_leaves_total t
    simp only [SIZE_T_MOD]; omega
  have hbound := builds_cost_le _ R hb htot (compress_leaves_weight t)
    ((present_symbols t).map (fun s => (c s).length)).sum
    (↑((present_symbols t).map
      (fun s => (scale_down (t s) (get_list_size t 0).2, (c s).length))) : Multiset (Nat × Nat))
    (by
      rw [compress_leaves_eq, Multiset.map_coe, List.map_map, List.map_map]
      rfl)
    (by
      constructor
      · intro p hp
        obtain ⟨s, hs, rfl⟩ := List.mem_map.mp (Multiset.mem_coe.mp hp)
        exact List.single_le_sum (fun _ _ => Nat.zero_le _) _
          (List.mem_map_of_mem (fun s => (c s).length) hs)
      · have hk := kraft_prefix_free ((present_symbols t).map (fun s => (c s).length)).sum
          ((present_symbols t).map c)
          (by
            intro w hw
            obtain ⟨s, hs, rfl⟩ := List.mem_map.mp hw
            exact List.single_le_sum (fun _ _ => Nat.zero_le _) _
              (List.mem_map_of_mem (fun s => (c s).length) hs))
          (pairwise_incomparable _ c (present_symbols_nodup t) hc)
        rw [List.map_map] at hk
        simp only [kraft_sum, Multiset.map_coe, List.map_map, Multiset.sum_coe]
        exact hk)
  rw [compress_leaves_cost, Nat.zero_add] at hbound
  simp only [assignment_cost, Multiset.map_coe, List.map_map, Multiset.sum_coe] at hbound
  exact hbound

/-! ## Failures of the header codec -/

theorem nonzero_count_zero (t : Nat → Nat) (h : ∀ i, i < FREQUENCY_TABLE_SIZE → t i = 0) :
    nonzero_count t = 0 := by
  unfold nonzero_count
  rw [List.length_eq_zero, List.filter_eq_nil_iff]
  intro i hi
  simp [h i (List.mem_range.mp hi)]

/-- C11: on a frequency table whose 256 entries are all zero, `write_file_header` returns
0 and leaves the sink as it was (no byte written), whatever the sink accepts. -/
theorem write_file_header_all_zero (t : Nat → Nat) (output_file : FILE)
    (h : ∀ i, i < FREQUENCY_TABLE_SIZE → t i = 0) :
    write_file_header output_file t = (0, output_file) := by
  unfold write_file_header
  simp only [get_list_size_fst, nonzero_count_zero t h, if_true]

/-- Witness for `write_file_header_all_zero`: the zero table and a new output file. -/
theorem write_file_header_all_zero_witness :
    write_file_header (file_of []) (fun _ => 0) = (0, file_of []) :=
  write_file_header_all_zero (fun _ => 0) (file_of []) (fun _ _ => rfl)

/-- C12: `read_file_header` returns `NULL` on an empty source, and on a source that holds
fewer than `2 * (c + 1)` bytes after its first byte `c`. -/
theorem read_file_header_short (pos : Nat) (room : Option Nat) :
    read_file_header ⟨[], pos, room⟩ = none ∧
    ∀ (c : Nat) (rest : List Nat), rest.length < 2 * (c + 1) →
      read_file_header ⟨c :: rest, pos, room⟩ = none := by
  constructor
  · simp [read_file_header, fread]
  · intro c rest h
    have h' : min ((c + 1) * 2) rest.length < (c + 1) * 2 := by
      rw [Nat.min_def]; split <;> omega
    simp [read_file_header, fread, h']

/-- Witness for `read_file_header_short`: a count byte 1 (two pairs) followed by three
bytes only. -/
theorem read_file_header_short_witness :
    read_file_header ⟨[], 0, none⟩ = none ∧
      read_file_header ⟨[1, 0x41, 3, 0x42], 0, none⟩ = none :=
  ⟨(read_file_header_short 0 none).1,
    (read_file_header_short 0 none).2 1 [0x41, 3, 0x42] (by decide)⟩

/-! ## The frequency table of `count_run` -/

theorem count_chunk_apply (S : List Nat) :
    ∀ (table : Nat → Nat) (b : Nat), count_chunk table S b = table b + S.count b := by
  induction S with
  | nil => intro table b; simp [count_chunk]
  | cons a S ih =>
    intro table b
    have hstep : count_chunk table (a :: S)
        = count_chunk (Function.update table a (table a + 1)) S := rfl
    rw [hstep, ih]
    by_cases hab : b = a
    · subst hab; simp [List.count_cons]; omega
    · have hba : ¬ a = b := fun h => hab h.symm
      simp [Function.update_apply, hab, List.count_cons, hba]

theorem sum_indicator_range (a : Nat) :
    ∀ n, ((List.range n).map (fun b => if a = b then 1 else 0)).sum = if a < n then 1 else 0 := by
  intro n
  induction n with
  | zero => simp
  | succ n ih =>
    rw [List.range_succ, List.map_append, List.sum_append, ih]
    by_cases h1 : a < n
    · have h2 : ¬ a = n := by omega
      have h3 : a < n + 1 := by omega
      simp [h1, h2, h3]
    · by_cases h2 : a = n
      · subst h2; simp
      · have h3 : ¬ a < n + 1 := by omega
        simp [h1, h2, h3]

theorem sum_count_range (n : Nat) (S : List Nat) (h : ∀ b ∈ S, b < n) :
    ((List.range n).map (fun b => S.count b)).sum = S.length := by
  induction S with
  | nil => simp
  | cons a S ih =>
    have ha : a < n := h a (List.mem_cons_self _ _)
    have hS : ∀ b ∈ S, b < n := fun b hb => h b (List.mem_cons_of_mem _ hb)
    have hsplit : ((List.range n).map (fun b => (a :: S).count b)).sum
        = ((List.range n).map (fun b => S.count b)).sum
          + ((List.range n).map (fun b => if a = b then 1 else 0)).sum := by
      rw [← List.sum_map_add]
      congr 1
      apply List.map_congr_left
      intro b _
      simp [List.count_cons]
    rw [hsplit, ih hS, sum_indicator_range a n, if_pos ha]; rfl

/-- C13: for every byte sequence `S` and every read chunk size (at least 1), the table
`count_run` returns holds at each index `b` the number of occurrences of `b` in `S`, and
its 256 entries add up to the length of `S`. -/
theorem count_run_counts (cfg : Config) (S : List Nat) (hc : 1 ≤ cfg.READ_BUFFER_SIZE)
    (hS : ∀ b ∈ S, b < 256) :
    (∀ b, (count_run cfg (file_of S)).1 b = S.count b) ∧
      ((List.range FREQUENCY_TABLE_SIZE).map (count_run cfg (file_of S)).1).sum = S.length := by
  have h1 : ∀ b, (count_run cfg (file_of S)).1 b = S.count b := by
    intro b
    rw [count_run_file_of cfg hc, count_chunk_apply]
    simp
  refine ⟨h1, ?_⟩
  have : (List.range FREQUENCY_TABLE_SIZE).map (count_run cfg (file_of S)).1
      = (List.range FREQUENCY_TABLE_SIZE).map (fun b => S.count b) :=
    List.map_congr_left (fun b _ => h1 b)
  rw [this]
  exact sum_count_range _ S hS

/-- Witness for `count_run_counts`: the input "AAAB" read in chunks of 3 bytes. -/
theorem count_run_counts_witness :
    (∀ b, (count_run ⟨3, 4096⟩ (file_of [0x41, 0x41, 0x41, 0x42])).1 b
        = [0x41, 0x41, 0x41, 0x42].count b) ∧
      ((List.range FREQUENCY_TABLE_SIZE).map
        (count_run ⟨3, 4096⟩ (file_of [0x41, 0x41, 0x41, 0x42])).1).sum
        = [0x41, 0x41, 0x41, 0x42].length :=
  count_run_counts ⟨3, 4096⟩ [0x41, 0x41, 0x41, 0x42] (by decide) (by decide)

/-! ## The scale factor and `scale_down` -/

theorem get_list_size_fold_max (t : Nat → Nat) (L : List Nat) :
    ∀ n m, (L.foldl (get_list_size_step t) (n, m)).2 = max m ((L.map t).foldr max 0) := by
  induction L with
  | nil => intro n m; simp
  | cons a L ih =>
    intro n m
    simp only [List.foldl_cons, List.map_cons, List.foldr_cons]
    by_cases ha : t a = 0
    · rw [get_list_size_step_neg t n m a ha, ih, ha]
      simp
    · rw [get_list_size_step_pos t n m a ha, ih]
      split <;> omega

theorem get_list_size_eq (t : Nat → Nat) (m : Nat) :
    get_list_size t m = (nonzero_count t, max m (table_max t) / 255 + 1) := by
  have h1 := get_list_size_fst t m
  have h2 : (get_list_size t m).2 = max m (table_max t) / 255 + 1 := by
    simp only [get_list_size, table_max]
    rw [get_list_size_fold_max]
  exact Prod.ext h1 h2

theorem foldr_max_ge (L : List Nat) : ∀ x ∈ L, x ≤ L.foldr max 0 := by
  induction L with
  | nil => intro x hx; simp at hx
  | cons a L ih =>
    intro x hx
    simp only [List.foldr_cons]
    rcases List.mem_cons.mp hx with rfl | hx
    · exact le_max_left _ _
    · exact le_trans (ih x hx) (le_max_right _ _)

theorem foldr_max_mem (L : List Nat) (hL : L ≠ []) : L.foldr max 0 ∈ L := by
  induction L with
  | nil => exact absurd rfl hL
  | cons a L ih =>
    simp only [List.foldr_cons]
    by_cases hL' : L = []
    · subst hL'; simp
    · rcases le_total a (L.foldr max 0) with h | h
      · rw [max_eq_right h]; exact List.mem_cons_of_mem _ (ih hL')
      · rw [max_eq_left h]; exact List.mem_cons_self _ _

theorem table_max_ge (t : Nat → Nat) (i : Nat) (hi : i < FREQUENCY_TABLE_SIZE) :
    t i ≤ table_max t :=
  foldr_max_ge _ _ (List.mem_map_of_mem t (List.mem_range.mpr hi))

theorem table_max_attained (t : Nat → Nat) :
    ∃ i, i < FREQUENCY_TABLE_SIZE ∧ t i = table_max t := by
  have h := foldr_max_mem ((List.range FREQUENCY_TABLE_SIZE).map t) (by
    simp [FREQUENCY_TABLE_SIZE])
  obtain ⟨i, hi, hti⟩ := List.mem_map.mp h
  exact ⟨i, List.mem_range.mp hi, hti⟩

/-- C14: called with `*max_value = 0`, `get_list_size` returns the number of non-zero
entries and leaves `*max_value = m / 255 + 1`, where `m` is the largest of the 256
entries: an entry of the table that no entry exceeds. -/
theorem get_list_size_result (t : Nat → Nat) :
    get_list_size t 0 = (nonzero_count t, table_max t / 255 + 1) ∧
      (∀ i, i < FREQUENCY_TABLE_SIZE → t i ≤ table_max t) ∧
      ∃ i, i < FREQUENCY_TABLE_SIZE ∧ t i = table_max t := by
  refine ⟨?_, table_max_ge t, table_max_attained t⟩
  rw [get_list_size_eq]; simp

/-- C15: for every non-zero entry of a table, the value `scale_down` gives it with the
factor that `get_list_size` computes lies between 1 and 255, so storing it in the
header's frequency byte does not truncate it. -/
theorem scaled_entry_range (t : Nat → Nat) (i : Nat) (hi : i < FREQUENCY_TABLE_SIZE)
    (h0 : t i ≠ 0) :
    1 ≤ scale_down (t i) (get_list_size t 0).2 ∧
      scale_down (t i) (get_list_size t 0).2 ≤ 255 ∧
      scale_down (t i) (get_list_size t 0).2 % 256 = scale_down (t i) (get_list_size t 0).2 := by
  have h1 := scale_down_ne_zero (t i) (get_list_size t 0).2 h0
  have h2 := scaled_le t i hi
  exact ⟨by omega, h2, Nat.mod_eq_of_lt (by omega)⟩

/-- Witness for `scaled_entry_range`: the entry of A in the table of "AAAB". -/
theorem scaled_entry_range_witness :
    1 ≤ scale_down (table_AAAB 0x41) (get_list_size table_AAAB 0).2 ∧
      scale_down (table_AAAB 0x41) (get_list_size table_AAAB 0).2 ≤ 255 ∧
      scale_down (table_AAAB 0x41) (get_list_size table_AAAB 0).2 % 256
        = scale_down (table_AAAB 0x41) (get_list_size table_AAAB 0).2 :=
  scaled_entry_range table_AAAB 0x41 (by decide!) (by decide!)

/-- C16 (counterexample): a table whose largest entry is 255 gets the scale factor 2, and
`scale_down` turns its entry 255 into 127. -/
theorem scale_factor_at_255 :
    ¬ ((∀ i, i < FREQUENCY_TABLE_SIZE → (fun i => if i = 0x41 then 255 else 0) i ≤ 255) →
        ((get_list_size (fun i => if i = 0x41 then 255 else 0) 0).2 = 1 ∧
          ∀ i, i < FREQUENCY_TABLE_SIZE →
            scale_down ((fun i => if i = 0x41 then 255 else 0) i)
              (get_list_size (fun i => if i = 0x41 then 255 else 0) 0).2
            = (fun i => if i = 0x41 then 255 else 0) i)) := by
  intro h
  have h1 := (h (by
    intro i _
    show (if i = 0x41 then 255 else 0) ≤ 255
    split <;> omega)).1
  have h2 : (get_list_size (fun i => if i = 0x41 then 255 else 0) 0).2 = 2 := by decide!
  omega

/-- C16 (amended): for a table whose largest entry is at most 254, the scale factor that
`get_list_size` computes is 1 and `scale_down` with it returns every value unchanged. -/
theorem scale_factor_one (t : Nat → Nat) (h : ∀ i, i < FREQUENCY_TABLE_SIZE → t i ≤ 254) :
    (get_list_size t 0).2 = 1 ∧ ∀ value, scale_down value (get_list_size t 0).2 = value := by
  have hmax : table_max t ≤ 254 := by
    obtain ⟨i, hi, hti⟩ := table_max_attained t
    rw [← hti]; exact h i hi
  have h1 : (get_list_size t 0).2 = 1 := by
    rw [get_list_size_eq]
    simp only [Nat.zero_max]
    omega
  refine ⟨h1, ?_⟩
  intro value
  rw [h1]; simp [scale_down]

/-- Witness for `scale_factor_one`: the table of "AAAB". -/
theorem scale_factor_one_witness :
    (get_list_size (fun i => if i = 0x41 then 3 else if i = 0x42 then 1 else 0) 0).2 = 1 ∧
      ∀ value, scale_down value
        (get_list_size (fun i => if i = 0x41 then 3 else if i = 0x42 then 1 else 0) 0).2 = value :=
  scale_factor_one _ (by
    intro i _
    show (if i = 0x41 then 3 else if i = 0x42 then 1 else 0) ≤ 254
    split_ifs <;> omega)

/-- The two cases of `scale_down`. -/
theorem scale_down_cases (value scale : Nat) :
    scale_down value scale = if scale ≤ 1 then value else max 1 (value / scale) := by
  unfold scale_down
  by_cases hs : scale ≤ 1
  · have : ¬ scale > 1 := by omega
    simp [hs, this]
  · have h1 : scale > 1 := by omega
    simp only [h1, if_true, and_true, hs, if_false]
    generalize value / scale = q
    split <;> omega

/-- C17: `scale_down value scale` is `value` when `scale <= 1`, and the larger of 1 and
`value / scale` when `scale > 1`. -/
theorem scale_down_eq (value scale : Nat) :
    scale_down value scale = if scale ≤ 1 then value else max 1 (value / scale) :=
  scale_down_cases value scale

/-- C18: `scale_down` keeps the order of counts: for every scale, `a <= b` gives
`scale_down a scale <= scale_down b scale`. -/
theorem scale_down_mono (a b scale : Nat) (h : a ≤ b) :
    scale_down a scale ≤ scale_down b scale := by
  rw [scale_down_cases, scale_down_cases]
  by_cases hs : scale ≤ 1
  · simp only [hs, if_true]; exact h
  · simp only [hs, if_false]
    have : a / scale ≤ b / scale := Nat.div_le_div_right h
    omega

/-- Witness for `scale_down_mono`: the counts 1000 and 1000000 scaled by 3922. -/
theorem scale_down_mono_witness : scale_down 1000 3922 ≤ scale_down 1000000 3922 :=
  scale_down_mono 1000 1000000 3922 (by decide)

/-- C19: `get_list_size` does not modify the table, and a second call on it returns the
same list size and the same scale factor as the first, whether it starts from
`*max_value = 0` (the same computation again) or from the value the first call left in
`*max_value`. -/
theorem get_list_size_twice (t : Nat → Nat) :
    get_list_size t 0 = get_list_size t 0 ∧
      get_list_size t (get_list_size t 0).2 = get_list_size t 0 := by
  refine ⟨rfl, ?_⟩
  rw [get_list_size_eq t 0, get_list_size_eq]
  simp only [Nat.zero_max]
  congr 2
  rcases Nat.eq_zero_or_pos (table_max t) with h | h
  · rw [h]; simp
  · rw [max_eq_right (by omega)]

/-! ## The bit writer -/

theorem byte_value_nil : byte_value [] = 0 := by
  simp [byte_value]

/-- Only the first eight bits count. -/
theorem byte_value_append_of_le (l : List Nat) (b : Nat) (h : 8 ≤ l.length) :
    byte_value (l ++ [b]) = byte_value l := by
  unfold byte_value
  simp only [List.getD_eq_getElem?_getD]
  rw [List.getElem?_append_left (by omega), List.getElem?_append_left (by omega),
    List.getElem?_append_left (by omega), List.getElem?_append_left (by omega),
    List.getElem?_append_left (by omega), List.getElem?_append_left (by omega),
    List.getElem?_append_left (by omega), List.getElem?_append_left (by omega)]

/-- A bitwise or of a multiple of `2 ^ i` with a smaller number is their sum. -/
theorem or_eq_add_of_low (x c i : Nat) (hx : x % 2 ^ i = 0) (hc : c < 2 ^ i) :
    x ||| c = x + c := by
  have e : x = 2 ^ i * (x / 2 ^ i) := by
    have := Nat.div_add_mod x (2 ^ i)
    omega
  rw [e]
  exact (Nat.mul_add_lt_is_or hc _).symm

/-- Setting the next bit of a partly filled byte with `|=` appends the bit. -/
theorem byte_value_or (l : List Nat) (b : Nat) (h : l.length < 8) (hb : b ≤ 1) :
    byte_value l ||| (b <<< (7 - l.length)) = byte_value (l ++ [b]) := by
  rcases l with _ | ⟨a0, _ | ⟨a1, _ | ⟨a2, _ | ⟨a3, _ | ⟨a4, _ | ⟨a5, _ | ⟨a6, _ | ⟨a7, l⟩⟩⟩⟩⟩⟩⟩⟩
  · simp [byte_value, Nat.shiftLeft_eq]
  · simp [byte_value, Nat.shiftLeft_eq]
    exact or_eq_add_of_low _ _ 7 (by norm_num) (by norm_num; omega)
  · simp [byte_value, Nat.shiftLeft_eq]
    exact or_eq_add_of_low _ _ 6 (by norm_num; omega) (by norm_num; omega)
  · simp [byte_value, Nat.shiftLeft_eq]
    exact or_eq_add_of_low _ _ 5 (by norm_num; omega) (by norm_num; omega)
  · simp [byte_value, Nat.shiftLeft_eq]
    exact or_eq_add_of_low _ _ 4 (by norm_num; omega) (by norm_num; omega)
  · simp [byte_value, Nat.shiftLeft_eq]
    exact or_eq_add_of_low _ _ 3 (by norm_num; omega) (by norm_num; omega)
  · simp [byte_value, Nat.shiftLeft_eq]
    exact or_eq_add_of_low _ _ 2 (by norm_num; omega) (by norm_num; omega)
  · simp [byte_value, Nat.shiftLeft_eq]
    exact or_eq_add_of_low _ _ 1 (by norm_num; omega) (by norm_num; omega)
  · simp at h
    omega

/-- One more bit set by `put_bit` at the writer's position keeps the writer's state. -/
theorem writerInv_put_bit (cap : Nat) (bw : BitWriter) (bits : List Nat) (b : Nat)
    (h : WriterInv cap bw bits) (hlt : bw.bit_count < 8 * cap) (hb : b ≤ 1) :
    WriterInv cap (put_bit bw (bw.bit_count / 8) (bw.bit_count % 8) b) (bits ++ [b]) := by
  obtain ⟨k, hlen, _, hroom, htot, hdata, hbuf⟩ := h
  refine ⟨k, ?_, ?_, hroom, ?_, ?_, ?_⟩
  · simp only [put_bit, List.length_append, List.length_singleton]; omega
  · simp only [put_bit]; omega
  · simp only [put_bit, List.length_append, List.length_singleton]; omega
  · show bw.file.data = _
    rw [hdata]
    apply List.map_congr_left
    intro j hj
    rw [List.mem_range] at hj
    rw [List.drop_append_of_le_length (by omega),
      byte_value_append_of_le _ _ (by rw [List.length_drop]; omega)]
  · intro j
    show Function.update bw.buffer (bw.bit_count / 8) _ j = _
    by_cases hj : j = bw.bit_count / 8
    · subst hj
      rw [Function.update_same, hbuf, List.drop_append_of_le_length (by omega)]
      have hl : (bits.drop (8 * (k + bw.bit_count / 8))).length = bw.bit_count % 8 := by
        rw [List.length_drop]; omega
      rw [← hl]
      exact byte_value_or _ _ (by omega) hb
    · rw [Function.update_noteq hj, hbuf]
      by_cases hlt2 : j < bw.bit_count / 8
      · rw [List.drop_append_of_le_length (by omega),
          byte_value_append_of_le _ _ (by rw [List.length_drop]; omega)]
      · rw [List.drop_of_length_le (by omega),
          List.drop_of_length_le (by simp only [List.length_append, List.length_singleton]; omega)]

/-- A sink without limit takes every byte. -/
theorem fwrite_none (f : FILE) (bytes : List Nat) (h : f.room = none) :
    fwrite f bytes =
      (bytes.length, { f with data := f.data ++ bytes, pos := f.pos + bytes.length }) := by
  unfold fwrite
  rw [h]

/-- A full buffer handed to a sink without limit is accepted whole, and the cleared
writer keeps its state. -/
theorem writerInv_flush (cap : Nat) (bw : BitWriter) (bits : List Nat)
    (h : WriterInv cap bw bits) (hfull : bw.bit_count = 8 * cap) :
    (fwrite bw.file ((List.range cap).map bw.buffer)).1 = cap ∧
      WriterInv cap { bw with buffer := fun _ => 0,
                              file := (fwrite bw.file ((List.range cap).map bw.buffer)).2,
                              bit_count := 0 } bits := by
  obtain ⟨k, hlen, _, hroom, htot, hdata, hbuf⟩ := h
  have hw : fwrite bw.file ((List.range cap).map bw.buffer) =
      (cap, { bw.file with data := bw.file.data ++ (List.range cap).map bw.buffer,
                           pos := bw.file.pos + cap }) := by
    rw [fwrite_none _ _ hroom, List.length_map, List.length_range]
  rw [hw]
  refine ⟨rfl, k + cap, ?_, ?_, hroom, htot, ?_, ?_⟩
  · show bits.length = 8 * (k + cap) + 0
    omega
  · show 0 ≤ 8 * cap
    omega
  · show bw.file.data ++ (List.range cap).map bw.buffer = _
    rw [hdata, List.range_add, List.map_append, List.map_map]
    congr 1
    apply List.map_congr_left
    intro j _
    exact hbuf j
  · intro j
    show 0 = _
    rw [List.drop_of_length_le (by omega), byte_value_nil]

/-- One iteration of `write_bits` on a sink without limit appends its bit. -/
theorem write_bits_step_inv (cfg : Config) (hc : 1 ≤ cfg.OUTPUT_BUFFER_SIZE)
    (code length : Nat) (bw : BitWriter) (bits : List Nat) (i : Nat)
    (h : WriterInv cfg.OUTPUT_BUFFER_SIZE bw bits) :
    (write_bits_step cfg code length (bw, false) i).2 = false ∧
      WriterInv cfg.OUTPUT_BUFFER_SIZE (write_bits_step cfg code length (bw, false) i).1
        (bits ++ [code / 2 ^ (length - 1 - i) % 2]) := by
  have hbit : (code >>> (length - 1 - i)) &&& 1 = code / 2 ^ (length - 1 - i) % 2 := by
    rw [Nat.shiftRight_eq_div_pow, Nat.and_one_is_mod]
  have hb : code / 2 ^ (length - 1 - i) % 2 ≤ 1 := by omega
  have hle := h.choose_spec.2.1
  unfold write_bits_step
  simp only [Bool.false_eq_true, if_false, hbit]
  by_cases hfull : bw.bit_count / 8 ≥ cfg.OUTPUT_BUFFER_SIZE
  · have hf := writerInv_flush _ bw bits h (by omega)
    simp only [hfull, if_true, hf.1, lt_irrefl, if_false]
    have h2 := writerInv_put_bit _ _ bits _ hf.2 (by show 0 < _; omega) hb
    simp only [Nat.zero_div, Nat.zero_mod] at h2
    exact ⟨trivial, h2⟩
  · simp only [hfull, if_false]
    exact ⟨trivial, writerInv_put_bit _ bw bits _ h (by omega) hb⟩

/-- The loop of `write_bits` on a sink without limit appends its bits and does not fail. -/
theorem write_bits_fold_inv (cfg : Config) (hc : 1 ≤ cfg.OUTPUT_BUFFER_SIZE)
    (code length : Nat) (is : List Nat) :
    ∀ (bw : BitWriter) (bits : List Nat), WriterInv cfg.OUTPUT_BUFFER_SIZE bw bits →
      (is.foldl (write_bits_step cfg code length) (bw, false)).2 = false ∧
        WriterInv cfg.OUTPUT_BUFFER_SIZE
          (is.foldl (write_bits_step cfg code length) (bw, false)).1
          (bits ++ is.map (fun i => code / 2 ^ (length - 1 - i) % 2)) := by
  induction is with
  | nil => intro bw bits h; simpa using h
  | cons i is ih =>
    intro bw bits h
    have hs := write_bits_step_inv cfg hc code length bw bits i h
    have e : write_bits_step cfg code length (bw, false) i =
        ((write_bits_step cfg code length (bw, false) i).1, false) :=
      Prod.ext rfl hs.1
    rw [List.foldl_cons, e, List.map_cons]
    have := ih _ _ hs.2
    rwa [List.append_assoc, List.singleton_append] at this

/-- On a sink without limit, `write_bits` returns `length` and appends the low `length`
bits of `code`, most significant first. -/
theorem write_bits_inv (cfg : Config) (hc : 1 ≤ cfg.OUTPUT_BUFFER_SIZE)
    (code length : Nat) (bw : BitWriter) (bits : List Nat)
    (h : WriterInv cfg.OUTPUT_BUFFER_SIZE bw bits) :
    (write_bits cfg bw code length).1 = (length : Int) ∧
      WriterInv cfg.OUTPUT_BUFFER_SIZE (write_bits cfg bw code length).2
        (bits ++ code_bits code length) := by
  unfold write_bits
  by_cases h0 : length = 0
  · subst h0
    simpa [code_bits] using h
  · have := write_bits_fold_inv cfg hc code length (List.range length) bw bits h
    simp only [h0, if_false, this.1, Bool.false_eq_true]
    exact ⟨trivial, this.2⟩

/-- A sequence of `write_bits` calls appends the bits of the calls in order. -/
theorem write_calls_fold_inv (cfg : Config) (hc : 1 ≤ cfg.OUTPUT_BUFFER_SIZE)
    (calls : List (Nat × Nat)) :
    ∀ (bw : BitWriter) (bits : List Nat), WriterInv cfg.OUTPUT_BUFFER_SIZE bw bits →
      WriterInv cfg.OUTPUT_BUFFER_SIZE
        (calls.foldl (fun bw c => (write_bits cfg bw c.1 c.2).2) bw)
        (bits ++ calls_bits calls) := by
  induction calls with
  | nil => intro bw bits h; simpa [calls_bits] using h
  | cons c calls ih =>
    intro bw bits h
    have := ih _ _ (write_bits_inv cfg hc c.1 c.2 bw bits h).2
    rw [List.append_assoc] at this
    simpa [calls_bits] using this

/-- The writer made by `init_writer` over a zeroed block has taken no bits. -/
theorem init_writer_inv (cap : Nat) (file : FILE) (hroom : file.room = none)
    (hdata : file.data = []) :
    WriterInv cap (init_writer (fun _ => 0) file) [] := by
  refine ⟨0, rfl, Nat.zero_le _, hroom, rfl, ?_, ?_⟩
  · show file.data = _
    rw [hdata]; rfl
  · intro j
    show 0 % 256 = _
    simp [byte_value_nil]

/-- On a sink without limit `flush_writer` delivers the buffered bytes: the sink then
holds the packed bit sequence. -/
theorem flush_writer_inv (cap : Nat) (bw : BitWriter) (bits : List Nat)
    (h : WriterInv cap bw bits) :
    (flush_writer bw).2.file.data = pack_bytes bits ∧
      (flush_writer bw).1 = (((bw.bit_count + 7) / 8 : Nat) : Int) := by
  obtain ⟨k, hlen, _, hroom, htot, hdata, hbuf⟩ := h
  unfold flush_writer pack_bytes
  by_cases hb : (bw.bit_count + 7) / 8 > 0
  · have hw : fwrite bw.file ((List.range ((bw.bit_count + 7) / 8)).map bw.buffer) =
        ((bw.bit_count + 7) / 8,
          { bw.file with
            data := bw.file.data ++ (List.range ((bw.bit_count + 7) / 8)).map bw.buffer,
            pos := bw.file.pos + (bw.bit_count + 7) / 8 }) := by
      rw [fwrite_none _ _ hroom, List.length_map, List.length_range]
    have hne : ¬ (bw.bit_count + 7) / 8 = 0 := by omega
    simp only [hb, if_true, hw, hne, if_false]
    refine ⟨?_, trivial⟩
    show bw.file.data ++ _ = _
    have e : (bits.length + 7) / 8 = k + (bw.bit_count + 7) / 8 := by omega
    rw [e, hdata, List.range_add, List.map_append, List.map_map]
    congr 1
    apply List.map_congr_left
    intro j _
    exact hbuf j
  · simp only [hb, if_false]
    have e : (bits.length + 7) / 8 = k := by omega
    have e0 : (bw.bit_count + 7) / 8 = 0 := by omega
    rw [e, e0]
    exact ⟨hdata, rfl⟩

/-- With a zeroed buffer block and a capacity of at least 1, any sequence of
`write_bits` calls followed by `flush_writer` delivers the bits of the calls, most
significant first, in call order, packed 8 per byte with zero padding. -/
theorem write_calls_zero (cfg : Config) (hc : 1 ≤ cfg.OUTPUT_BUFFER_SIZE)
    (calls : List (Nat × Nat)) :
    write_calls cfg (fun _ => 0) calls = pack_bytes (calls_bits calls) := by
  have h := write_calls_fold_inv cfg hc calls _ []
    (init_writer_inv cfg.OUTPUT_BUFFER_SIZE (file_of []) rfl rfl)
  rw [List.nil_append] at h
  exact (flush_writer_inv _ _ _ h).1

/-- C20 (failing input): with capacity 4096 and a buffer block that holds 0xFF bytes at
allocation, the single call `write_bits(0, 1)` on the writer made by `init_writer`,
followed by `flush_writer`, delivers the byte 0xFF, while the one bit 0 packed with zero
padding is the byte 0x00 (`write_calls_zero` gives the packed bits for a zeroed block). -/
theorem write_calls_garbage :
    write_calls ⟨4096, 4096⟩ (fun _ => 0xFF) [(0, 1)] = [0xFF] ∧
      pack_bytes (calls_bits [(0, 1)]) = [0x00] := by
  decide!

/-! ## Sizes and failures of the heap operations -/

theorem heapify_up_loop_length {α : Type} (compare : α → α → Int) :
    ∀ (fuel : Nat) (l : List α) (k : Nat),
      (heapify_up_loop compare fuel l k).1.length = l.length := by
  intro fuel
  induction fuel with
  | zero => intro l k; rfl
  | succ fuel ih =>
    intro l k
    simp only [heapify_up_loop]
    split
    · split
      · rw [ih, swap_length]
      · rfl
    · rfl

/-- The index `heapify_up` returns is where the element it started from ends up. -/
theorem heapify_up_loop_index {α : Type} (compare : α → α → Int) :
    ∀ (fuel : Nat) (l : List α) (k : Nat), k < l.length →
      (heapify_up_loop compare fuel l k).1[(heapify_up_loop compare fuel l k).2]? = l[k]? := by
  intro fuel
  induction fuel with
  | zero => intro l k _; rfl
  | succ fuel ih =>
    intro l k hk
    simp only [heapify_up_loop]
    split
    · split
      · have hp : (k - 1) / 2 < l.length := by omega
        rw [ih _ _ (by rw [swap_length]; exact hp), swap_get_right l k _ hk hp]
      · rfl
    · rfl

theorem heapify_down_length {α : Type} (compare : α → α → Int) :
    ∀ (fuel : Nat) (l : List α) (k : Nat),
      (heapify_down compare fuel l k).1.length = l.length := by
  intro fuel
  induction fuel with
  | zero => intro l k; rfl
  | succ fuel ih =>
    intro l k
    simp only [heapify_down]
    split
    · rw [ih, swap_length]
    · rfl

/-- A `heap_insert` below capacity returns the index of the new node and adds one node. -/
theorem heap_insert_ok {α : Type} (heap : Heap α) (node : α) (hsize : heap.size < heap.max_size) :
    ∃ (index : Nat) (h' : Heap α), heap_insert heap node = ((index : Int), h') ∧
      h'.size = heap.size + 1 ∧ h'.max_size = heap.max_size ∧ h'.compare = heap.compare ∧
      h'.nodes[index]? = some node := by
  unfold Heap.size at hsize
  have hns : ¬ heap.nodes.length ≥ heap.max_size := by omega
  have hlen : ¬ heap.nodes.length ≥ (heap.nodes ++ [node]).length := by simp
  refine ⟨(heapify_up_loop heap.compare heap.nodes.length (heap.nodes ++ [node])
      heap.nodes.length).2,
    { heap with nodes := (heapify_up_loop heap.compare heap.nodes.length (heap.nodes ++ [node])
      heap.nodes.length).1 }, ?_, ?_, rfl, rfl, ?_⟩
  · simp only [heap_insert, heapify_up, Heap.size, hns, hlen, if_false]
  · simp only [Heap.size, heapify_up_loop_length, List.length_append, List.length_singleton]
  · show (heapify_up_loop heap.compare heap.nodes.length (heap.nodes ++ [node])
      heap.nodes.length).1[_]? = some node
    rw [heapify_up_loop_index _ _ _ _ (by simp)]
    simp

/-- A `heap_extract` on a non-empty heap returns a node and removes one node. -/
theorem heap_extract_some {α : Type} (heap : Heap α) (hsize : 0 < heap.size) :
    ∃ (node : α) (h' : Heap α), heap_extract heap = (some node, h') ∧
      h'.size + 1 = heap.size ∧ h'.max_size = heap.max_size ∧ h'.compare = heap.compare := by
  obtain ⟨cmp, nodes, max_size⟩ := heap
  cases nodes with
  | nil => simp [Heap.size] at hsize
  | cons node rest =>
    cases hlast : rest.getLast? with
    | none =>
      have : rest = [] := by simpa using hlast
      subst this
      exact ⟨node, ⟨cmp, [], max_size⟩, by simp [heap_extract], rfl, rfl, rfl⟩
    | some last =>
      refine ⟨node, ⟨cmp, (heapify_down cmp rest.length (last :: rest.dropLast) 0).1, max_size⟩,
        by simp [heap_extract, hlast], ?_, rfl, rfl⟩
      have hne : rest ≠ [] := by
        intro h; subst h; simp at hlast
      have := List.length_pos.mpr hne
      simp only [Heap.size, heapify_down_length, List.length_cons, List.length_dropLast]
      omega

/-- C23: `heap_insert` returns -1 exactly when `size >= max_size`, and then leaves the
heap (its size and its array) unchanged. -/
theorem heap_insert_fails_iff {α : Type} (heap : Heap α) (node : α) :
    ((heap_insert heap node).1 = -1 ↔ heap.size ≥ heap.max_size) ∧
      (heap.size ≥ heap.max_size → (heap_insert heap node).2 = heap) := by
  by_cases h : heap.size ≥ heap.max_size
  · have e : heap_insert heap node = (-1, heap) := by simp [heap_insert, h]
    rw [e]
    exact ⟨⟨fun _ => h, fun _ => rfl⟩, fun _ => rfl⟩
  · obtain ⟨index, h', e, -⟩ := heap_insert_ok heap node (by omega)
    rw [e]
    refine ⟨⟨fun hneg => ?_, fun hge => absurd hge h⟩, fun hge => absurd hge h⟩
    simp only at hneg
    omega

/-- Witness for `heap_insert_fails_iff`: a full heap of two integers. -/
theorem heap_insert_fails_iff_witness :
    (heap_insert heap_full 0).1 = -1 ∧ (heap_insert heap_full 0).2 = heap_full :=
  ⟨(heap_insert_fails_iff heap_full 0).1.mpr (by decide),
    (heap_insert_fails_iff heap_full 0).2 (by decide)⟩

/-- C24: `heap_extract` returns `NULL` exactly when the heap is empty, and then leaves the
heap unchanged; on a non-empty heap it decreases `size` by exactly one. -/
theorem heap_extract_null_iff {α : Type} (heap : Heap α) :
    ((heap_extract heap).1 = none ↔ heap.size = 0) ∧
      (heap.size = 0 → (heap_extract heap).2 = heap) ∧
      (0 < heap.size → (heap_extract heap).2.size + 1 = heap.size) := by
  by_cases h : heap.size = 0
  · have hn : heap.nodes = [] := List.length_eq_zero.mp h
    have e : heap_extract heap = (none, heap) := by simp [heap_extract, hn]
    rw [e]
    exact ⟨⟨fun _ => h, fun _ => rfl⟩, fun _ => rfl, fun hpos => by omega⟩
  · obtain ⟨node, h', e, hs, -⟩ := heap_extract_some heap (by omega)
    rw [e]
    exact ⟨⟨fun hnone => by simp at hnone, fun h0 => absurd h0 h⟩, fun h0 => absurd h0 h,
      fun _ => hs⟩

/-- Witness for `heap_extract_null_iff`: an empty heap and a heap of three integers. -/
theorem heap_extract_null_iff_witness :
    (heap_extract (create_priority_queue 4 int_compare)).1 = none ∧
      (heap_extract (create_priority_queue 4 int_compare)).2
        = create_priority_queue 4 int_compare ∧
      (heap_extract heap_example).2.size + 1 = heap_example.size :=
  ⟨(heap_extract_null_iff (create_priority_queue 4 int_compare)).1.mpr (by decide),
    (heap_extract_null_iff (create_priority_queue 4 int_compare)).2.1 (by decide),
    (heap_extract_null_iff heap_example).2.2 (by decide)⟩

/-! ## The heap operations under a total preorder -/

theorem totalPreorder_good {α : Type} (compare : α → α → Int) (h : TotalPreorder compare) :
    GoodCompare compare (fun _ => True) := by
  refine ⟨fun a b _ _ hab hba => ?_, fun a b c _ _ _ => h.2 a b c⟩
  rcases h.1 a b with h1 | h1
  · exact h1 hab
  · exact h1 hba

theorem int_compare_totalPreorder : TotalPreorder int_compare := by
  refine ⟨fun a b => ?_, fun a b c => ?_⟩
  · unfold int_compare; omega
  · unfold int_compare; omega

theorem heap_example_ordered : HeapOrdered heap_example.compare heap_example.nodes := by
  intro i j a b hi hj hc
  have hj' : j < 3 := (List.getElem?_eq_some.mp hj).1
  have hi0 : i = 0 := by omega
  subst hi0
  rcases hc with rfl | rfl
  · simp [heap_example] at hi hj
    subst hi; subst hj
    decide
  · simp [heap_example] at hi hj
    subst hi; subst hj
    decide

/-- C25: under a comparator that is a total preorder, `heap_extract` on a non-empty heap in
min-heap order returns an element that no stored element compares less than; the
remaining array is again in min-heap order and holds the original elements without the
returned one. -/
theorem heap_extract_min {α : Type} (heap : Heap α) (hpre : TotalPreorder heap.compare)
    (hord : HeapOrdered heap.compare heap.nodes) (hsize : 0 < heap.size) :
    ∃ node rest, heap_extract heap = (some node, { heap with nodes := rest }) ∧
      (∀ x ∈ heap.nodes, ¬ heap.compare x node < 0) ∧
      HeapOrdered heap.compare rest ∧ heap.nodes.Perm (node :: rest) := by
  obtain ⟨node, rest, h1, h2, h3, h4⟩ := heap_extract_spec (fun _ => True) heap
    (totalPreorder_good _ hpre) (fun _ _ => trivial) hord hsize
  exact ⟨node, rest, h1, h4, h3, h2⟩

/-- Witness for `heap_extract_min`: the heap of the integers 1, 3, 2. -/
theorem heap_extract_min_witness :
    ∃ node rest, heap_extract heap_example = (some node, { heap_example with nodes := rest }) ∧
      (∀ x ∈ heap_example.nodes, ¬ heap_example.compare x node < 0) ∧
      HeapOrdered heap_example.compare rest ∧ heap_example.nodes.Perm (node :: rest) :=
  heap_extract_min heap_example int_compare_totalPreorder heap_example_ordered (by decide)

/-- C26: under a comparator that is a total preorder, `heap_insert` into a heap in min-heap
order with `size < max_size` gives a heap in min-heap order that holds the original
elements and the node, has one element more, and the returned index is a position at
which the node is stored. -/
theorem heap_insert_ordered {α : Type} (heap : Heap α) (node : α)
    (hpre : TotalPreorder heap.compare) (hord : HeapOrdered heap.compare heap.nodes)
    (hsize : heap.size < heap.max_size) :
    HeapOrdered heap.compare (heap_insert heap node).2.nodes ∧
      (heap_insert heap node).2.nodes.Perm (node :: heap.nodes) ∧
      (heap_insert heap node).2.size = heap.size + 1 ∧
      ∃ index : Nat, (heap_insert heap node).1 = (index : Int) ∧
        (heap_insert heap node).2.nodes[index]? = some node := by
  obtain ⟨_, _, _, h4, h5⟩ := heap_insert_spec (fun _ => True) heap node
    (totalPreorder_good _ hpre) (fun _ _ => trivial) trivial hord hsize
  obtain ⟨index, h', e, hs, _, _, hidx⟩ := heap_insert_ok heap node hsize
  refine ⟨h4, h5, ?_, index, ?_, ?_⟩
  · rw [e]; exact hs
  · rw [e]
  · rw [e]; exact hidx

/-- Witness for `heap_insert_ordered`: the integer 0 inserted into the heap 1, 3, 2. -/
theorem heap_insert_ordered_witness :
    HeapOrdered heap_example.compare (heap_insert heap_example 0).2.nodes ∧
      (heap_insert heap_example 0).2.nodes.Perm (0 :: heap_example.nodes) ∧
      (heap_insert heap_example 0).2.size = heap_example.size + 1 ∧
      ∃ index : Nat, (heap_insert heap_example 0).1 = (index : Int) ∧
        (heap_insert heap_example 0).2.nodes[index]? = some 0 :=
  heap_insert_ordered heap_example 0 int_compare_totalPreorder heap_example_ordered
    (by decide)

/-! ## Termination of `build_tree` -/

/-- The loop of `build_tree` cut after `k` iterations, on a heap of `k + 1 + m` nodes
within its capacity: no exit through a failure, and `m + 1` nodes are left. -/
theorem build_tree_loop_size :
    ∀ (k : Nat) (heap : Heap Node) (m : Nat), heap.size = k + 1 + m →
      heap.size ≤ heap.max_size →
      (build_tree_loop k heap).1 = true ∧ (build_tree_loop k heap).2.size = m + 1 ∧
        (build_tree_loop k heap).2.max_size = heap.max_size := by
  intro k
  induction k with
  | zero =>
    intro heap m hs _
    exact ⟨rfl, by show heap.size = m + 1; omega, rfl⟩
  | succ k ih =>
    intro heap m hs hmax
    obtain ⟨n1, h1, e1, s1, m1, _⟩ := heap_extract_some heap (by omega)
    obtain ⟨n2, h2, e2, s2, m2, _⟩ := heap_extract_some h1 (by omega)
    obtain ⟨index, h3, e3, s3, m3, _, _⟩ := heap_insert_ok h2 (combine_nodes n1 n2) (by omega)
    have hge : heap.size ≥ 2 := by omega
    have hne : ¬ ((index : Int) = -1) := by omega
    simp only [build_tree_loop, hge, if_true, e1, e2, e3, hne, if_false]
    obtain ⟨r1, r2, r3⟩ := ih h3 m (by omega) (by omega)
    exact ⟨r1, r2, by rw [r3]; omega⟩

/-- Once one node is left, further iterations change nothing. -/
theorem build_tree_loop_done (fuel : Nat) (heap : Heap Node) (h : heap.size < 2) :
    build_tree_loop fuel heap = (true, heap) := by
  cases fuel with
  | zero => rfl
  | succ fuel =>
    have : ¬ heap.size ≥ 2 := by omega
    simp only [build_tree_loop, this, if_false]

/-- More iterations than `size - 1` are not used. -/
theorem build_tree_loop_fuel :
    ∀ (k : Nat) (heap : Heap Node) (extra : Nat), heap.size = k + 1 →
      heap.size ≤ heap.max_size →
      build_tree_loop (k + extra) heap = build_tree_loop k heap := by
  intro k
  induction k with
  | zero =>
    intro heap extra hs _
    rw [build_tree_loop_done _ heap (by omega), build_tree_loop_done _ heap (by omega)]
  | succ k ih =>
    intro heap extra hs hmax
    obtain ⟨n1, h1, e1, s1, m1, _⟩ := heap_extract_some heap (by omega)
    obtain ⟨n2, h2, e2, s2, m2, _⟩ := heap_extract_some h1 (by omega)
    obtain ⟨index, h3, e3, s3, m3, _, _⟩ := heap_insert_ok h2 (combine_nodes n1 n2) (by omega)
    have hge : heap.size ≥ 2 := by omega
    have hne : ¬ ((index : Int) = -1) := by omega
    have e : k + 1 + extra = (k + extra) + 1 := by omega
    rw [e]
    simp only [build_tree_loop, hge, if_true, e1, e2, e3, hne, if_false]
    exact ih h3 extra (by omega) (by omega)

/-- C27: on a heap of `n >= 1` nodes with `n <= max_size`, the loop of `build_tree` cut
after any `k <= n - 1` iterations has left through no failure (every `heap_insert`
succeeded) and holds `n - k` nodes, within `max_size`; so it ends after exactly `n - 1`
iterations, one `combine_nodes` each, with one node, and `build_tree` returns that node,
not `NULL`, and leaves the heap empty. -/
theorem build_tree_terminates (heap : Heap Node) (h1 : 1 ≤ heap.size)
    (hmax : heap.size ≤ heap.max_size) :
    (∀ k, k ≤ heap.size - 1 →
      (build_tree_loop k heap).1 = true ∧
      (build_tree_loop k heap).2.size = heap.size - k ∧
      (build_tree_loop k heap).2.size ≤ (build_tree_loop k heap).2.max_size) ∧
    (∀ fuel, heap.size - 1 ≤ fuel →
      build_tree_loop fuel heap = build_tree_loop (heap.size - 1) heap) ∧
    ∃ root, (build_tree heap).1 = some root ∧ (build_tree heap).2.nodes = [] := by
  have hfuel : ∀ fuel, heap.size - 1 ≤ fuel →
      build_tree_loop fuel heap = build_tree_loop (heap.size - 1) heap := by
    intro fuel hf
    have := build_tree_loop_fuel (heap.size - 1) heap (fuel - (heap.size - 1)) (by omega) hmax
    rwa [show heap.size - 1 + (fuel - (heap.size - 1)) = fuel by omega] at this
  refine ⟨?_, hfuel, ?_⟩
  · intro k hk
    obtain ⟨r1, r2, r3⟩ := build_tree_loop_size k heap (heap.size - 1 - k) (by omega) hmax
    exact ⟨r1, by rw [r2]; omega, by rw [r2, r3]; omega⟩
  · obtain ⟨r1, r2, r3⟩ := build_tree_loop_size (heap.size - 1) heap 0 (by omega) hmax
    obtain ⟨root, h', e, s, _⟩ := heap_extract_some (build_tree_loop (heap.size - 1) heap).2
      (by omega)
    refine ⟨root, ?_, ?_⟩
    · unfold build_tree
      rw [hfuel heap.size (by omega)]
      simp only [r1, if_true, e]
    · unfold build_tree
      rw [hfuel heap.size (by omega)]
      simp only [r1, if_true, e]
      have hs0 : h'.size = 0 := by omega
      exact List.length_eq_zero.mp hs0

/-- Witness for `build_tree_terminates`: a heap of the three leaves B, A, C. -/
theorem build_tree_terminates_witness :
    (∀ k, k ≤ heap_BAC.size - 1 →
      (build_tree_loop k heap_BAC).1 = true ∧
      (build_tree_loop k heap_BAC).2.size = heap_BAC.size - k ∧
      (build_tree_loop k heap_BAC).2.size ≤ (build_tree_loop k heap_BAC).2.max_size) ∧
    (∀ fuel, heap_BAC.size - 1 ≤ fuel →
      build_tree_loop fuel heap_BAC = build_tree_loop (heap_BAC.size - 1) heap_BAC) ∧
    ∃ root, (build_tree heap_BAC).1 = some root ∧ (build_tree heap_BAC).2.nodes = [] :=
  build_tree_terminates heap_BAC (by decide) (by decide)

/-! ## The comparator on large frequencies -/

/-- C30 (failing input): for the path "./a.huf", which yields the file name "a" and the
extension "huf", `extract_filename_format` returns 2, not the 3 that the comment above
the function states for a file name with an extension. -/
theorem extract_filename_format_not_3 :
    extract_filename_format path_a_huf = (2, some [0x61], some [0x68, 0x75, 0x66]) ∧
      ¬ (extract_filename_format path_a_huf).1 = 3 := by
  decide

/-- The values of `extract_filename_format`: it returns -1 when it yields neither a file name
nor an extension, 0 when it yields only a file name, 1 when it yields only an extension
and 2 when it yields both; for "./a.huf" it returns 2 with the name "a" and the extension
"huf". -/
theorem extract_filename_format_result :
    (∀ filepath,
      ((extract_filename_format filepath).1 = -1 ∧
        (extract_filename_format filepath).2.2 = none) ∨
      ((extract_filename_format filepath).1 = 0 ∧
        (extract_filename_format filepath).2.1.isSome ∧
        (extract_filename_format filepath).2.2 = none) ∨
      ((extract_filename_format filepath).1 = 1 ∧
        (extract_filename_format filepath).2.1 = none ∧
        (extract_filename_format filepath).2.2.isSome) ∨
      ((extract_filename_format filepath).1 = 2 ∧
        (extract_filename_format filepath).2.1.isSome ∧
        (extract_filename_format filepath).2.2.isSome)) ∧
    extract_filename_format path_a_huf = (2, some [0x61], some [0x68, 0x75, 0x66]) := by
  refine ⟨?_, by decide⟩
  intro filepath
  unfold extract_filename_format
  dsimp only
  generalize filepath.foldl extract_step (-1, -1, 0) = st
  by_cases h1 : st.1 = -1
  · simp [h1]
  · simp only [h1, if_false]
    generalize (if st.2.1 < 1 then (st.2.2 : Int) else st.2.1) = d
    generalize ((d - st.1 - 1) % (SIZE_T_MOD : Int)).toNat = fs
    generalize ((((st.2.2 : Int) - d - 1) % (SIZE_T_MOD : Int)).toNat + 1) % SIZE_T_MOD = es
    by_cases h2 : fs ≥ 1 ∧ (fs + 1) % SIZE_T_MOD > PTRDIFF_MAX
    · simp [h2]
    · simp only [h2, if_false]
      by_cases h3 : d > -1 ∧ ((st.2.2 : Int) - d) % (SIZE_T_MOD : Int) > 1
      · simp only [h3, if_true]
        by_cases h4 : es > PTRDIFF_MAX
        · simp [h4]
        · by_cases h5 : fs ≥ 1
          · simp [h4, h5]
          · simp [h4, h5]
      · simp only [h3, if_false]
        by_cases h5 : fs ≥ 1
        · simp [h5]
        · simp [h5]

/-! ## Short writes of the bit writer -/

/-- After `write_bits` has returned -1 the remaining iterations do not run. -/
theorem write_bits_fold_failed (cfg : Config) (code length : Nat) (is : List Nat)
    (bw : BitWriter) :
    is.foldl (write_bits_step cfg code length) (bw, true) = (bw, true) := by
  induction is with
  | nil => rfl
  | cons i is ih =>
    rw [List.foldl_cons]
    have : write_bits_step cfg code length (bw, true) i = (bw, true) := by
      simp [write_bits_step]
    rw [this, ih]

/-- When the buffer is full at some iteration of `write_bits` and the sink takes fewer
than `OUTPUT_BUFFER_SIZE` bytes of it, `write_bits` returns -1. -/
theorem write_bits_short_flush (cfg : Config) (bw : BitWriter) (code length : Nat)
    (pre post : List Nat) (i : Nat) (hsplit : List.range length = pre ++ i :: post)
    (hpre : (pre.foldl (write_bits_step cfg code length) (bw, false)).2 = false)
    (hfull : (pre.foldl (write_bits_step cfg code length) (bw, false)).1.bit_count / 8
      ≥ cfg.OUTPUT_BUFFER_SIZE)
    (hshort : (fwrite (pre.foldl (write_bits_step cfg code length) (bw, false)).1.file
      ((List.range cfg.OUTPUT_BUFFER_SIZE).map
        (pre.foldl (write_bits_step cfg code length) (bw, false)).1.buffer)).1
      < cfg.OUTPUT_BUFFER_SIZE) :
    (write_bits cfg bw code length).1 = -1 := by
  have hl : length ≠ 0 := by
    intro h
    rw [h] at hsplit
    simp at hsplit
  unfold write_bits
  simp only [hl, if_false]
  rw [hsplit, List.foldl_append, List.foldl_cons]
  generalize pre.foldl (write_bits_step cfg code length) (bw, false) = st at hpre hfull hshort
  obtain ⟨b, fl⟩ := st
  simp only at hpre hfull hshort
  subst hpre
  have : write_bits_step cfg code length (b, false) i =
      ({ b with file := (fwrite b.file ((List.range cfg.OUTPUT_BUFFER_SIZE).map b.buffer)).2 },
        true) := by
    simp [write_bits_step, hfull, hshort]
  rw [this, write_bits_fold_failed]
  simp

/-- C21 (failing input): a writer holding 9 bits hands 2 bytes to a sink that accepts only
1; `flush_writer` returns 1, not -1, and clears the writer, so the second byte is lost. -/
theorem flush_writer_short_write :
    (write_bits ⟨4096, 4096⟩ (init_writer (fun _ => 0) ⟨[], 0, some 1⟩) 0x1FF 9).2.bit_count
      = 9 ∧
    (flush_writer
      (write_bits ⟨4096, 4096⟩ (init_writer (fun _ => 0) ⟨[], 0, some 1⟩) 0x1FF 9).2).1 = 1 ∧
    (flush_writer
      (write_bits ⟨4096, 4096⟩ (init_writer (fun _ => 0) ⟨[], 0, some 1⟩) 0x1FF 9).2).2.file.data
      = [0xFF] ∧
    (flush_writer
      (write_bits ⟨4096, 4096⟩ (init_writer (fun _ => 0) ⟨[], 0, some 1⟩) 0x1FF 9).2).2.bit_count
      = 0 := by
  decide!

/-! ## The bit reader -/

theorem init_reader_live (B : List Nat) : ReaderLive B (init_reader (file_of B)) := by
  refine ⟨rfl, Nat.le_refl 8, 0, rfl, Nat.zero_le _, Nat.le_refl 0, ?_, rfl, ?_⟩
  · intro h
    exact absurd h (Nat.lt_irrefl 8)
  · intro i hi
    exact absurd hi (Nat.not_lt_zero i)

theorem readerLive_done (B : List Nat) (br : BitReader) (h : ReaderLive B br)
    (hk : br.bits_read = 8 * B.length) : ReaderDone B br := by
  obtain ⟨hd, h8, base, hpos, hle, hbp, _, hcount, _⟩ := h
  exact ⟨hd, by omega, by omega, by omega, hk⟩

theorem shift_and_one (x s : Nat) : (x >>> s) &&& 1 = x / 2 ^ s % 2 := by
  rw [Nat.shiftRight_eq_div_pow, Nat.and_one_is_mod]

/-- A call of `read_bits` before the end of the file returns the next bit of `B`. -/
theorem read_bits_live (cfg : Config) (hc : 1 ≤ cfg.READ_BUFFER_SIZE) (B : List Nat)
    (br : BitReader) (h : ReaderLive B br) (hlt : br.bits_read < 8 * B.length) :
    (read_bits cfg br).1
        = ((B.getD (br.bits_read / 8) 0 / 2 ^ (7 - br.bits_read % 8) % 2 : Nat) : Int) ∧
      ReaderLive B (read_bits cfg br).2 ∧
      (read_bits cfg br).2.bits_read = br.bits_read + 1 := by
  obtain ⟨hd, h8, base, hpos, hle, hbp, h1, hcount, hbuf⟩ := h
  by_cases hb8 : br.bit_pos = 8
  · by_cases hfill : br.buffer_pos ≥ br.buffer_size
    · -- the buffer is used up: a new chunk is read
      have hplt : br.file.pos < B.length := by omega
      have hlen : (fread br.file cfg.READ_BUFFER_SIZE).1.length
          = min cfg.READ_BUFFER_SIZE (B.length - br.file.pos) := by
        simp [fread, hd]
      have hne : ¬ (fread br.file cfg.READ_BUFFER_SIZE).1.length = 0 := by
        rw [hlen]; omega
      have e : read_bits cfg br = take_bit { br with
          buffer := (fread br.file cfg.READ_BUFFER_SIZE).1 ++
            br.buffer.drop (fread br.file cfg.READ_BUFFER_SIZE).1.length
          buffer_size := (fread br.file cfg.READ_BUFFER_SIZE).1.length
          file := (fread br.file cfg.READ_BUFFER_SIZE).2
          buffer_pos := 1
          bit_pos := 0 } := by
        unfold read_bits
        simp only [hb8, if_true, hfill, hne, if_false]
      have hget : ∀ i, i < (fread br.file cfg.READ_BUFFER_SIZE).1.length →
          ((fread br.file cfg.READ_BUFFER_SIZE).1 ++
            br.buffer.drop (fread br.file cfg.READ_BUFFER_SIZE).1.length).getD i 0
            = B.getD (br.file.pos + i) 0 := by
        intro i hi
        rw [List.getD_eq_getElem?_getD, List.getElem?_append_left hi]
        simp only [fread, hd, List.getElem?_take, List.getElem?_drop]
        have : i < cfg.READ_BUFFER_SIZE := by rw [hlen] at hi; omega
        simp [this]
      rw [e]
      refine ⟨?_, ⟨hd, ?_, br.file.pos, rfl, ?_, ?_, fun _ => Nat.le_refl 1, ?_, hget⟩, rfl⟩
      · show ((((((fread br.file cfg.READ_BUFFER_SIZE).1 ++
            br.buffer.drop (fread br.file cfg.READ_BUFFER_SIZE).1.length).getD (1 - 1) 0
            >>> (7 - 0)) &&& 1 : Nat)) : Int) = _
        rw [shift_and_one, hget 0 (by omega)]
        have e1 : br.bits_read / 8 = br.file.pos := by omega
        have e2 : br.bits_read % 8 = 0 := by omega
        rw [e1, e2]
        rfl
      · show 0 + 1 ≤ 8
        omega
      · show br.file.pos + (fread br.file cfg.READ_BUFFER_SIZE).1.length ≤ B.length
        rw [hlen]; omega
      · show 1 ≤ (fread br.file cfg.READ_BUFFER_SIZE).1.length
        omega
      · show br.bits_read + 1 + 8 = 8 * (br.file.pos + 1) + (0 + 1)
        omega
    · -- the next byte of the buffer
      have e : read_bits cfg br
          = take_bit { br with bit_pos := 0, buffer_pos := br.buffer_pos + 1 } := by
        unfold read_bits
        simp only [hb8, if_true, hfill, if_false]
      rw [e]
      refine ⟨?_, ⟨hd, ?_, base, hpos, hle, ?_, fun _ => ?_, ?_, hbuf⟩, rfl⟩
      · show ((((br.buffer.getD (br.buffer_pos + 1 - 1) 0 >>> (7 - 0)) &&& 1 : Nat)) : Int) = _
        rw [shift_and_one, Nat.add_sub_cancel, hbuf _ (by omega)]
        have e1 : br.bits_read / 8 = base + br.buffer_pos := by omega
        have e2 : br.bits_read % 8 = 0 := by omega
        rw [e1, e2]
      · show 0 + 1 ≤ 8
        omega
      · show br.buffer_pos + 1 ≤ br.buffer_size
        omega
      · show 1 ≤ br.buffer_pos + 1
        omega
      · show br.bits_read + 1 + 8 = 8 * (base + (br.buffer_pos + 1)) + (0 + 1)
        omega
  · -- inside a byte
    have e : read_bits cfg br = take_bit br := by
      unfold read_bits
      simp only [hb8, if_false]
    rw [e]
    have hlt8 : br.bit_pos < 8 := by omega
    have hbp1 := h1 hlt8
    refine ⟨?_, ⟨hd, ?_, base, hpos, hle, hbp, fun _ => hbp1, ?_, hbuf⟩, rfl⟩
    · show ((((br.buffer.getD (br.buffer_pos - 1) 0 >>> (7 - br.bit_pos)) &&& 1 : Nat)) : Int) = _
      rw [shift_and_one, hbuf _ (by omega)]
      have e1 : br.bits_read / 8 = base + (br.buffer_pos - 1) := by omega
      have e2 : br.bits_read % 8 = br.bit_pos := by omega
      rw [e1, e2]
    · show br.bit_pos + 1 ≤ 8
      omega
    · show br.bits_read + 1 + 8 = 8 * (base + br.buffer_pos) + (br.bit_pos + 1)
      omega

/-- A call of `read_bits` after the last bit returns -1 and reads nothing. -/
theorem read_bits_done (cfg : Config) (B : List Nat) (br : BitReader) (h : ReaderDone B br) :
    (read_bits cfg br).1 = -1 ∧ ReaderDone B (read_bits cfg br).2 ∧
      (read_bits cfg br).2.bits_read = br.bits_read := by
  obtain ⟨hd, h8, hbp, hpos, hk⟩ := h
  have hnil : (fread br.file cfg.READ_BUFFER_SIZE).1 = [] := by
    simp only [fread, hd]
    rw [List.drop_of_length_le hpos, List.take_nil]
  have e : read_bits cfg br
      = (-1, { br with buffer_size := 0, file := (fread br.file cfg.READ_BUFFER_SIZE).2 }) := by
    unfold read_bits
    simp only [h8, if_true, hbp, hnil, List.length_nil]
  rw [e]
  refine ⟨rfl, ⟨hd, h8, Nat.zero_le _, ?_, hk⟩, rfl⟩
  show (fread br.file cfg.READ_BUFFER_SIZE).2.pos ≥ B.length
  simp only [fread]
  omega

theorem read_bits_iter_live (cfg : Config) (hc : 1 ≤ cfg.READ_BUFFER_SIZE) (B : List Nat) :
    ∀ (n : Nat) (br : BitReader), ReaderLive B br → br.bits_read + n ≤ 8 * B.length →
      ReaderLive B (read_bits_iter cfg n br) ∧
        (read_bits_iter cfg n br).bits_read = br.bits_read + n := by
  intro n
  induction n with
  | zero => intro br h _; exact ⟨h, rfl⟩
  | succ n ih =>
    intro br h hle
    obtain ⟨_, h2, h3⟩ := read_bits_live cfg hc B br h (by omega)
    obtain ⟨r1, r2⟩ := ih (read_bits cfg br).2 h2 (by omega)
    refine ⟨r1, ?_⟩
    show (read_bits_iter cfg n (read_bits cfg br).2).bits_read = _
    rw [r2, h3]; omega

theorem read_bits_iter_done (cfg : Config) (B : List Nat) :
    ∀ (n : Nat) (br : BitReader), ReaderDone B br → ReaderDone B (read_bits_iter cfg n br) := by
  intro n
  induction n with
  | zero => intro br h; exact h
  | succ n ih => intro br h; exact ih _ (read_bits_done cfg B br h).2.1

theorem read_bits_iter_add (cfg : Config) :
    ∀ (a b : Nat) (br : BitReader),
      read_bits_iter cfg (a + b) br = read_bits_iter cfg b (read_bits_iter cfg a br) := by
  intro a
  induction a with
  | zero => intro b br; rw [Nat.zero_add]; rfl
  | succ a ih =>
    intro b br
    rw [show a + 1 + b = (a + b) + 1 by omega]
    exact ih b _

/-- C22: on a fresh reader over the bytes `B`, with a read buffer of at least one byte,
the `k`-th call of `read_bits` (from 0) returns bit `7 - k mod 8` of byte `k / 8` of `B`
and leaves `bits_read = k + 1` when `k < 8 * length(B)`; every later call returns -1 and
leaves `bits_read` as it was. -/
theorem read_bits_sequence (cfg : Config) (hc : 1 ≤ cfg.READ_BUFFER_SIZE) (B : List Nat)
    (k : Nat) :
    (k < 8 * B.length →
      (read_bits cfg (read_bits_iter cfg k (init_reader (file_of B)))).1
          = ((B.getD (k / 8) 0 / 2 ^ (7 - k % 8) % 2 : Nat) : Int) ∧
        (read_bits cfg (read_bits_iter cfg k (init_reader (file_of B)))).2.bits_read = k + 1) ∧
    (8 * B.length ≤ k →
      (read_bits cfg (read_bits_iter cfg k (init_reader (file_of B)))).1 = -1 ∧
        (read_bits cfg (read_bits_iter cfg k (init_reader (file_of B)))).2.bits_read
          = (read_bits_iter cfg k (init_reader (file_of B))).bits_read) := by
  constructor
  · intro hk
    obtain ⟨h1, h2⟩ := read_bits_iter_live cfg hc B k _ (init_reader_live B)
      (by show 0 + k ≤ _; omega)
    have h2' : (read_bits_iter cfg k (init_reader (file_of B))).bits_read = k := by
      rw [h2]; show 0 + k = k; omega
    obtain ⟨r1, _, r3⟩ := read_bits_live cfg hc B _ h1 (by omega)
    rw [h2'] at r1 r3
    exact ⟨r1, r3⟩
  · intro hk
    obtain ⟨h1, h2⟩ := read_bits_iter_live cfg hc B (8 * B.length) _ (init_reader_live B)
      (by show 0 + _ ≤ _; omega)
    have hdone := readerLive_done B _ h1 (by rw [h2]; show 0 + _ = _; omega)
    have hdone2 := read_bits_iter_done cfg B (k - 8 * B.length) _ hdone
    rw [← read_bits_iter_add, show 8 * B.length + (k - 8 * B.length) = k by omega] at hdone2
    obtain ⟨r1, _, r3⟩ := read_bits_done cfg B _ hdone2
    exact ⟨r1, r3⟩

/-- Witness for `read_bits_sequence`: the bytes A5 0F read 3 at a time; call 10 returns
bit 5 of the second byte, call 16 returns -1. -/
theorem read_bits_sequence_witness :
    ((read_bits ⟨3, 4096⟩ (read_bits_iter ⟨3, 4096⟩ 10 (init_reader (file_of [0xA5, 0x0F])))).1
        = (([0xA5, 0x0F].getD (10 / 8) 0 / 2 ^ (7 - 10 % 8) % 2 : Nat) : Int) ∧
      (read_bits ⟨3, 4096⟩
        (read_bits_iter ⟨3, 4096⟩ 10 (init_reader (file_of [0xA5, 0x0F])))).2.bits_read
        = 10 + 1) ∧
    ((read_bits ⟨3, 4096⟩ (read_bits_iter ⟨3, 4096⟩ 16 (init_reader (file_of [0xA5, 0x0F])))).1
        = -1 ∧
      (read_bits ⟨3, 4096⟩
        (read_bits_iter ⟨3, 4096⟩ 16 (init_reader (file_of [0xA5, 0x0F])))).2.bits_read
        = (read_bits_iter ⟨3, 4096⟩ 16 (init_reader (file_of [0xA5, 0x0F]))).bits_read) :=
  ⟨(read_bits_sequence ⟨3, 4096⟩ (by decide) [0xA5, 0x0F] 10).1 (by decide),
    (read_bits_sequence ⟨3, 4096⟩ (by decide) [0xA5, 0x0F] 16).2 (by decide)⟩

/-! ## Bit counts of the writer, whatever its buffer holds -/

theorem writerCount_put_bit (cap : Nat) (bw : BitWriter) (pre : List Nat) (T : Nat)
    (i j b : Nat) (h : WriterCount cap bw pre T) (hlt : bw.bit_count < 8 * cap) :
    WriterCount cap (put_bit bw i j b) pre (T + 1) := by
  obtain ⟨hroom, _, htot, body, hdata, hT⟩ := h
  refine ⟨hroom, ?_, ?_, body, hdata, ?_⟩
  · show bw.bit_count + 1 ≤ 8 * cap
    omega
  · show bw.total_bits + 1 = T + 1
    omega
  · show T + 1 = 8 * body.length + (bw.bit_count + 1)
    omega

theorem writerCount_flush (cap : Nat) (bw : BitWriter) (pre : List Nat) (T : Nat)
    (h : WriterCount cap bw pre T) (hfull : bw.bit_count = 8 * cap) :
    (fwrite bw.file ((List.range cap).map bw.buffer)).1 = cap ∧
      WriterCount cap { bw with buffer := fun _ => 0,
                                file := (fwrite bw.file ((List.range cap).map bw.buffer)).2,
                                bit_count := 0 } pre T := by
  obtain ⟨hroom, _, htot, body, hdata, hT⟩ := h
  rw [fwrite_none _ _ hroom, List.length_map, List.length_range]
  refine ⟨rfl, hroom, Nat.zero_le _, htot, body ++ (List.range cap).map bw.buffer, ?_, ?_⟩
  · show bw.file.data ++ _ = _
    rw [hdata, List.append_assoc]
  · show T = 8 * (body ++ (List.range cap).map bw.buffer).length + 0
    rw [List.length_append, List.length_map, List.length_range]
    omega

theorem write_bits_step_count (cfg : Config) (hc : 1 ≤ cfg.OUTPUT_BUFFER_SIZE)
    (code length : Nat) (bw : BitWriter) (pre : List Nat) (T i : Nat)
    (h : WriterCount cfg.OUTPUT_BUFFER_SIZE bw pre T) :
    (write_bits_step cfg code length (bw, false) i).2 = false ∧
      WriterCount cfg.OUTPUT_BUFFER_SIZE (write_bits_step cfg code length (bw, false) i).1 pre
        (T + 1) := by
  have hle := h.2.1
  unfold write_bits_step
  simp only [Bool.false_eq_true, if_false]
  by_cases hfull : bw.bit_count / 8 ≥ cfg.OUTPUT_BUFFER_SIZE
  · have hf := writerCount_flush _ bw pre T h (by omega)
    simp only [hfull, if_true, hf.1, lt_irrefl, if_false]
    exact ⟨trivial, writerCount_put_bit _ _ pre T _ _ _ hf.2 (by show 0 < _; omega)⟩
  · simp only [hfull, if_false]
    exact ⟨trivial, writerCount_put_bit _ bw pre T _ _ _ h (by omega)⟩

theorem write_bits_fold_count (cfg : Config) (hc : 1 ≤ cfg.OUTPUT_BUFFER_SIZE)
    (code length : Nat) (pre : List Nat) (is : List Nat) :
    ∀ (bw : BitWriter) (T : Nat), WriterCount cfg.OUTPUT_BUFFER_SIZE bw pre T →
      (is.foldl (write_bits_step cfg code length) (bw, false)).2 = false ∧
        WriterCount cfg.OUTPUT_BUFFER_SIZE
          (is.foldl (write_bits_step cfg code length) (bw, false)).1 pre (T + is.length) := by
  induction is with
  | nil => intro bw T h; exact ⟨rfl, h⟩
  | cons i is ih =>
    intro bw T h
    have hs := write_bits_step_count cfg hc code length bw pre T i h
    have e : write_bits_step cfg code length (bw, false) i =
        ((write_bits_step cfg code length (bw, false) i).1, false) :=
      Prod.ext rfl hs.1
    rw [List.foldl_cons, e, List.length_cons]
    have := ih _ _ hs.2
    rwa [show T + 1 + is.length = T + (is.length + 1) by omega] at this

/-- On a sink without limit `write_bits` returns `length` and counts `length` bits. -/
theorem write_bits_count (cfg : Config) (hc : 1 ≤ cfg.OUTPUT_BUFFER_SIZE)
    (code length : Nat) (bw : BitWriter) (pre : List Nat) (T : Nat)
    (h : WriterCount cfg.OUTPUT_BUFFER_SIZE bw pre T) :
    (write_bits cfg bw code length).1 = (length : Int) ∧
      WriterCount cfg.OUTPUT_BUFFER_SIZE (write_bits cfg bw code length).2 pre (T + length) := by
  unfold write_bits
  by_cases h0 : length = 0
  · subst h0
    exact ⟨rfl, h⟩
  · have := write_bits_fold_count cfg hc code length pre (List.range length) bw T h
    rw [List.length_range] at this
    simp only [h0, if_false, this.1, Bool.false_eq_true]
    exact ⟨trivial, this.2⟩

/-- On a sink without limit `flush_writer` does not fail and leaves `ceil(T / 8)` bytes
after `pre`. -/
theorem flush_writer_count (cap : Nat) (bw : BitWriter) (pre : List Nat) (T : Nat)
    (h : WriterCount cap bw pre T) :
    (flush_writer bw).1 ≠ -1 ∧ (flush_writer bw).2.total_bits = T ∧
      (flush_writer bw).2.file.room = none ∧
      ∃ body, (flush_writer bw).2.file.data = pre ++ body ∧ body.length = (T + 7) / 8 := by
  obtain ⟨hroom, _, htot, body, hdata, hT⟩ := h
  unfold flush_writer
  by_cases hb : (bw.bit_count + 7) / 8 > 0
  · have hne : ¬ (bw.bit_count + 7) / 8 = 0 := by omega
    simp only [hb, if_true, fwrite_none _ _ hroom, List.length_map, List.length_range, hne,
      if_false]
    refine ⟨by omega, htot, hroom, body ++ (List.range ((bw.bit_count + 7) / 8)).map bw.buffer,
      ?_, ?_⟩
    · show bw.file.data ++ _ = _
      rw [hdata, List.append_assoc]
    · rw [List.length_append, List.length_map, List.length_range]
      omega
  · simp only [hb, if_false]
    exact ⟨by omega, htot, hroom, body, hdata, by omega⟩

/-- The loop of `encode` over the symbols `xs` counts the code lengths of the symbols. -/
theorem encode_fold_count (cfg : Config) (hc : 1 ≤ cfg.OUTPUT_BUFFER_SIZE)
    (ct : Nat → Code) (pre : List Nat) (xs : List Nat) :
    ∀ (bw : BitWriter) (T : Nat), WriterCount cfg.OUTPUT_BUFFER_SIZE bw pre T →
      (xs.foldl (encode_step cfg ct) (bw, false)).2 = false ∧
        WriterCount cfg.OUTPUT_BUFFER_SIZE (xs.foldl (encode_step cfg ct) (bw, false)).1 pre
          (T + (xs.map (fun x => (ct x).length)).sum) := by
  induction xs with
  | nil => intro bw T h; exact ⟨rfl, h⟩
  | cons x xs ih =>
    intro bw T h
    have hs : encode_step cfg ct (bw, false) x
        = ((encode_step cfg ct (bw, false) x).1, false) ∧
        WriterCount cfg.OUTPUT_BUFFER_SIZE (encode_step cfg ct (bw, false) x).1 pre
          (T + (ct x).length) := by
      unfold encode_step
      simp only [Bool.false_eq_true, if_false]
      by_cases hl : (ct x).length > 0
      · obtain ⟨w1, w2⟩ := write_bits_count cfg hc (ct x).code (ct x).length bw pre T h
        have hne : ¬ (write_bits cfg bw (ct x).code (ct x).length).1 = -1 := by
          rw [w1]; omega
        simp only [hl, if_true, hne, decide_False]
        exact ⟨trivial, w2⟩
      · simp only [hl, if_false]
        have : (ct x).length = 0 := by omega
        rw [this]
        exact ⟨trivial, h⟩
    rw [List.foldl_cons, hs.1, List.map_cons, List.sum_cons]
    have := ih _ _ hs.2
    rwa [Nat.add_assoc] at this

/-- On a sink without limit `encode` returns 1; the writer has counted the code lengths
of the input's symbols and the sink holds the bytes of these bits after `pre`. -/
theorem encode_count (cfg : Config) (hr : 1 ≤ cfg.READ_BUFFER_SIZE)
    (hc : 1 ≤ cfg.OUTPUT_BUFFER_SIZE) (ct : Nat → Code) (input_file : FILE) (bw : BitWriter)
    (pre : List Nat) (h : WriterCount cfg.OUTPUT_BUFFER_SIZE bw pre 0) :
    (encode cfg input_file bw ct).1 = 1 ∧
      (encode cfg input_file bw ct).2.total_bits
        = (input_file.data.map (fun x => (ct x).length)).sum ∧
      (encode cfg input_file bw ct).2.file.room = none ∧
      ∃ body, (encode cfg input_file bw ct).2.file.data = pre ++ body ∧
        body.length = ((input_file.data.map (fun x => (ct x).length)).sum + 7) / 8 := by
  have hloop := encode_loop_eq cfg hr ct (input_file.data.length + 1)
    { input_file with pos := 0 } bw (by show input_file.data.length - 0 < _; omega)
  have hfold := encode_fold_count cfg hc ct pre input_file.data bw 0 h
  rw [Nat.zero_add] at hfold
  have hdrop : ({ input_file with pos := 0 } : FILE).data.drop
      ({ input_file with pos := 0 } : FILE).pos = input_file.data := rfl
  rw [hdrop] at hloop
  obtain ⟨f1, f2, f3, f4⟩ := flush_writer_count _ _ pre _ hfold.2
  unfold encode
  simp only [hloop, hfold.1, Bool.not_false, if_true, f1, if_false]
  exact ⟨trivial, f2, f3, f4⟩

/-- Shape of the output of `compress` on a sink without limit, whatever the allocated
blocks hold: the header, the bytes of the `T` encoded bits, and the byte `T mod 8`, where
`T` is the sum of the code lengths of the input's symbols. -/
theorem compress_shape (cfg : Config) (hr : 1 ≤ cfg.READ_BUFFER_SIZE)
    (hc : 1 ≤ cfg.OUTPUT_BUFFER_SIZE) (memory : Uninit) (S : List Nat)
    (hN : 1 ≤ nonzero_count (count_chunk (fun _ => 0) S)) :
    ∃ root body,
      compress_tree (count_chunk (fun _ => 0) S) = some root ∧
      (compress_writer cfg memory (file_of S) (file_of [])).map (fun bw => bw.total_bits)
        = some (S.map (fun x => (generate_huffman_code memory.code_table 0 0 root x).length)).sum ∧
      (compress cfg memory (file_of S) (file_of [])).1 = 1 ∧
      (compress cfg memory (file_of S) (file_of [])).2.data
        = header_bytes (count_chunk (fun _ => 0) S) ++ body ++
          [(S.map (fun x => (generate_huffman_code memory.code_table 0 0 root x).length)).sum % 8] ∧
      body.length
        = ((S.map (fun x => (generate_huffman_code memory.code_table 0 0 root x).length)).sum
            + 7) / 8 := by
  have hc1 : (count_run cfg (file_of S)).1 = count_chunk (fun _ => 0) S :=
    count_run_file_of cfg hr S
  have hd : (count_run cfg (file_of S)).2.data = S := count_run_data cfg (file_of S)
  obtain ⟨R, htree, _⟩ := compress_tree_builds _ hN
  obtain ⟨hh, _, _⟩ := write_file_header_spec (count_chunk (fun _ => 0) S) (file_of []) rfl hN
  have hw : WriterCount cfg.OUTPUT_BUFFER_SIZE
      { init_writer memory.writer_buffer (file_of []) with
        file := { file_of [] with
          data := (file_of []).data ++ header_bytes (count_chunk (fun _ => 0) S)
          pos := (file_of []).pos + (1 + 2 * nonzero_count (count_chunk (fun _ => 0) S)) } }
      (header_bytes (count_chunk (fun _ => 0) S)) 0 :=
    ⟨rfl, Nat.zero_le _, rfl, [], by simp [file_of], rfl⟩
  obtain ⟨e1, e2, e3, body, e4, e5⟩ := encode_count cfg hr hc
    (generate_huffman_code memory.code_table 0 0 R) (count_run cfg (file_of S)).2 _ _ hw
  rw [hd] at e2 e5
  refine ⟨R, body, htree, ?_, ?_, ?_, e5⟩
  · unfold compress_writer
    simp only [hc1, htree, hh, e1, one_ne_zero, if_false, Option.map_some', e2]
  · unfold compress
    simp only [hc1, htree, hh, e1, one_ne_zero, if_false]
    rw [fwrite_none _ _ e3]
    rfl
  · unfold compress
    simp only [hc1, htree, hh, e1, one_ne_zero, if_false]
    rw [fwrite_none _ _ e3]
    show (encode cfg _ _ _).2.file.data ++ _ = _
    rw [e4, e2]

/-! ## Input of one repeated byte -/

theorem count_chunk_replicate (b n : Nat) :
    count_chunk (fun _ => 0) (List.replicate n b) = single_table b n := by
  funext i
  rw [count_chunk_apply]
  unfold single_table
  by_cases h : i = b
  · subst h; simp
  · have h2 : ¬ b = i := fun e => h e.symm
    simp [List.count_replicate, h, h2]

theorem present_symbols_single (b n : Nat) (hb : b < 256) (hn : 1 ≤ n) :
    present_symbols (single_table b n) = [b] := by
  unfold present_symbols
  have e : (fun i => decide (single_table b n i ≠ 0)) = (fun i => decide (i = b)) := by
    funext i
    unfold single_table
    by_cases h : i = b
    · subst h
      have : n ≠ 0 := by omega
      simp [this]
    · simp [h]
  rw [e, List.filter_eq]
  have : List.count b (List.range FREQUENCY_TABLE_SIZE) = 1 :=
    List.count_eq_one_of_mem (List.nodup_range _) (List.mem_range.mpr hb)
  rw [this]
  rfl

theorem nonzero_count_single (b n : Nat) (hb : b < 256) (hn : 1 ≤ n) :
    nonzero_count (single_table b n) = 1 := by
  rw [← present_symbols_length, present_symbols_single b n hb hn]
  rfl

theorem builds_single (x R : Node) (h : Builds [x] R) : R = x := by
  cases h with
  | single => rfl
  | merge _ a b rest _ hperm =>
    have := hperm.length_eq
    simp at this

theorem header_pairs_filter (t : Nat → Nat) (scale : Nat) (L : List Nat) :
    header_pairs t scale L
      = (L.filter (fun i => t i ≠ 0)).flatMap (fun i => [i, scale_down (t i) scale]) := by
  induction L with
  | nil => rfl
  | cons i L ih =>
    by_cases h : t i ≠ 0
    · simp [header_pairs, h, ih]
    · simp [header_pairs, h, ih]

/-- The tree `compress` builds for `n` copies of the byte `b` is the leaf of `b`. -/
theorem compress_tree_single (b n : Nat) (hb : b < 256) (hn : 1 ≤ n) :
    compress_tree (single_table b n)
      = some (.leaf b (scale_down n (get_list_size (single_table b n) 0).2)) := by
  obtain ⟨R, h1, h2⟩ := compress_tree_builds (single_table b n)
    (by rw [nonzero_count_single b n hb hn])
  rw [compress_leaves_eq, present_symbols_single b n hb hn] at h2
  have hR := builds_single _ _ h2
  rw [h1, hR]
  simp [single_table]

theorem header_bytes_single (b n : Nat) (hb : b < 256) (hn : 1 ≤ n) :
    header_bytes (single_table b n)
      = [0, b, scale_down n (get_list_size (single_table b n) 0).2] := by
  unfold header_bytes
  rw [nonzero_count_single b n hb hn, header_pairs_filter]
  have := present_symbols_single b n hb hn
  unfold present_symbols at this
  rw [this]
  simp [single_table]

/-- C29: for a tree that is a single leaf, `generate_huffman_code` started with code 0 and
depth 0 records code 0 with length 1 for the leaf's symbol; so on `n >= 1` copies of one
byte `compress` builds that tree, its writer counts exactly `n` encoded bits, and it
returns 1 having written the 3 header bytes, `ceil(n / 8)` bytes of bits and the byte
`n mod 8`. -/
theorem compress_single_symbol (cfg : Config) (memory : Uninit) (b n : Nat)
    (hr : 1 ≤ cfg.READ_BUFFER_SIZE) (hc : 1 ≤ cfg.OUTPUT_BUFFER_SIZE) (hb : b < 256)
    (hn : 1 ≤ n) :
    (∀ (code_table : Nat → Code) (frequency : Nat),
      generate_huffman_code code_table 0 0 (.leaf b frequency) b = { length := 1, code := 0 }) ∧
    (∃ frequency, compress_tree (count_run cfg (file_of (List.replicate n b))).1
      = some (.leaf b frequency)) ∧
    (compress_writer cfg memory (file_of (List.replicate n b)) (file_of [])).map
      (fun bw => bw.total_bits) = some n ∧
    (compress cfg memory (file_of (List.replicate n b)) (file_of [])).1 = 1 ∧
    ∃ frequency body, body.length = (n + 7) / 8 ∧
      (compress cfg memory (file_of (List.replicate n b)) (file_of [])).2.data
        = [0, b, frequency] ++ body ++ [n % 8] := by
  have hgen : ∀ (code_table : Nat → Code) (frequency : Nat),
      generate_huffman_code code_table 0 0 (.leaf b frequency) b = { length := 1, code := 0 } := by
    intro code_table frequency
    simp [generate_huffman_code]
  have hN : 1 ≤ nonzero_count (count_chunk (fun _ => 0) (List.replicate n b)) := by
    rw [count_chunk_replicate, nonzero_count_single b n hb hn]
  obtain ⟨root, body, h1, h2, h3, h4, h5⟩ := compress_shape cfg hr hc memory _ hN
  rw [count_chunk_replicate] at h1 h4
  rw [compress_tree_single b n hb hn] at h1
  cases h1
  have hsum : ((List.replicate n b).map (fun x => (generate_huffman_code memory.code_table 0 0
      (.leaf b (scale_down n (get_list_size (single_table b n) 0).2)) x).length)).sum = n := by
    rw [List.map_replicate, hgen]
    simp
  rw [hsum] at h2 h4 h5
  refine ⟨hgen, ⟨scale_down n (get_list_size (single_table b n) 0).2, ?_⟩, h2, h3,
    scale_down n (get_list_size (single_table b n) 0).2, body, h5, ?_⟩
  · rw [count_run_file_of cfg hr, count_chunk_replicate]
    exact compress_tree_single b n hb hn
  · rw [h4, header_bytes_single b n hb hn]

/-- Witness for `compress_single_symbol`: three copies of the byte A, buffers of 4096
bytes, zero-filled memory. -/
theorem compress_single_symbol_witness :
    (∀ (code_table : Nat → Code) (frequency : Nat),
      generate_huffman_code code_table 0 0 (.leaf 0x41 frequency) 0x41
        = { length := 1, code := 0 }) ∧
    (∃ frequency, compress_tree (count_run ⟨4096, 4096⟩ (file_of (List.replicate 3 0x41))).1
      = some (.leaf 0x41 frequency)) ∧
    (compress_writer ⟨4096, 4096⟩ zero_memory (file_of (List.replicate 3 0x41)) (file_of [])).map
      (fun bw => bw.total_bits) = some 3 ∧
    (compress ⟨4096, 4096⟩ zero_memory (file_of (List.replicate 3 0x41)) (file_of [])).1 = 1 ∧
    ∃ frequency body, body.length = (3 + 7) / 8 ∧
      (compress ⟨4096, 4096⟩ zero_memory (file_of (List.replicate 3 0x41)) (file_of [])).2.data
        = [0, 0x41, frequency] ++ body ++ [3 % 8] :=
  compress_single_symbol ⟨4096, 4096⟩ zero_memory 0x41 3 (by decide) (by decide) (by decide)
    (by decide)

/-! ## Ties between a leaf and an internal node -/

/-- C32 (counterexample): the leaf of the byte 0xFF and an internal node of the same
frequency compare equal: `compare_nodes` returns 0, which is not negative. -/
theorem compare_nodes_leaf_FF :
    ¬ compare_nodes (.leaf 0xFF 5) (.inner 0xFF 5 (.leaf 0x41 2) (.leaf 0x42 3)) < 0 := by
  decide

/-- C32 (amended): a leaf whose symbol is below 0xFF compares less than every internal
node (symbol 0xFF, two children) of equal frequency; for the leaf of the byte 0xFF the
result is 0. -/
theorem compare_nodes_leaf_inner (symbol frequency : Nat) (l_node r_node : Node) :
    (symbol < 0xFF →
      compare_nodes (.leaf symbol frequency) (.inner 0xFF frequency l_node r_node) < 0) ∧
    compare_nodes (.leaf 0xFF frequency) (.inner 0xFF frequency l_node r_node) = 0 := by
  constructor
  · intro h
    simp only [compare_nodes, Node.frequency, Node.symbol, if_true]
    omega
  · simp [compare_nodes, Node.frequency, Node.symbol]

/-- Witness for `compare_nodes_leaf_inner`: the leaf of A against a node of frequency 5. -/
theorem compare_nodes_leaf_inner_witness :
    compare_nodes (.leaf 0x41 5) (.inner 0xFF 5 (.leaf 0x42 2) (.leaf 0x43 3)) < 0 :=
  (compare_nodes_leaf_inner 0x41 5 (.leaf 0x42 2) (.leaf 0x43 3)).1 (by decide)

/-! ## The entries `generate_huffman_code` writes -/

theorem generate_length_pos (T : Node) :
    ∀ (ct : Nat → Code) (code depth s : Nat),
      s ∈ T.leaves.map Prod.fst → 0 < (generate_huffman_code ct code depth T s).length := by
  induction T with
  | leaf sym f =>
    intro ct code depth s hs
    simp only [Node.leaves, List.map_cons, List.map_nil, List.mem_singleton] at hs
    subst hs
    simp only [generate_huffman_code, Function.update_same]
    split <;> omega
  | inner sym f l r ihl ihr =>
    intro ct code depth s hs
    simp only [generate_huffman_code]
    by_cases hl : s ∈ l.leaves.map Prod.fst
    · exact ihl _ _ _ s hl
    · rw [generate_frame l _ _ _ s hl]
      simp only [Node.leaves, List.map_append, List.mem_append] at hs
      rcases hs with hs | hs
      · exact absurd hs hl
      · exact ihr _ _ _ s hs

/-- C35: `generate_huffman_code` leaves every entry of the code table unchanged whose
index is not the symbol of a leaf of the tree; and on a table whose lengths are all 0 the
entries with length > 0 afterwards are exactly those of the symbols of the leaves (for
every tree, code and starting depth). -/
theorem generate_huffman_code_frame (T : Node) (code_table : Nat → Code) (code : Nat) :
    (∀ depth s, s ∉ T.leaves.map Prod.fst →
      generate_huffman_code code_table code depth T s = code_table s) ∧
    ((∀ s, (code_table s).length = 0) →
      ∀ depth s, 0 < (generate_huffman_code code_table code depth T s).length ↔
        s ∈ T.leaves.map Prod.fst) := by
  refine ⟨fun depth s hs => generate_frame T code_table code depth s hs, ?_⟩
  intro h0 depth s
  constructor
  · intro hpos
    by_contra hs
    rw [generate_frame T code_table code depth s hs, h0 s] at hpos
    omega
  · intro hs
    exact generate_length_pos T code_table code depth s hs

/-- Witness for `generate_huffman_code_frame`: the tree of "AAAB", the zero table and the
entry of A. -/
theorem generate_huffman_code_frame_witness :
    0 < (generate_huffman_code zero_memory.code_table 0 0
        (.inner 0xFF 4 (.leaf 0x42 1) (.leaf 0x41 3)) 0x41).length ↔
      0x41 ∈ (Node.inner 0xFF 4 (.leaf 0x42 1) (.leaf 0x41 3)).leaves.map Prod.fst :=
  (generate_huffman_code_frame (.inner 0xFF 4 (.leaf 0x42 1) (.leaf 0x41 3))
    zero_memory.code_table 0).2 (fun _ => rfl) 0 0x41

/-! ## The shape of the tree of `build_tree` -/

theorem heapify_up_loop_perm {α : Type} (compare : α → α → Int) :
    ∀ (fuel : Nat) (l : List α) (k : Nat), (heapify_up_loop compare fuel l k).1.Perm l := by
  intro fuel
  induction fuel with
  | zero => intro l k; exact List.Perm.refl _
  | succ fuel ih =>
    intro l k
    simp only [heapify_up_loop]
    split
    · split
      · exact (ih _ _).trans (swap_perm _ _ _)
      · exact List.Perm.refl _
    · exact List.Perm.refl _

theorem heapify_down_perm {α : Type} (compare : α → α → Int) :
    ∀ (fuel : Nat) (l : List α) (k : Nat), (heapify_down compare fuel l k).1.Perm l := by
  intro fuel
  induction fuel with
  | zero => intro l k; exact List.Perm.refl _
  | succ fuel ih =>
    intro l k
    simp only [heapify_down]
    split
    · exact (ih _ _).trans (swap_perm _ _ _)
    · exact List.Perm.refl _

/-- A `heap_insert` below capacity adds the node to the array, for any comparator. -/
theorem heap_insert_perm {α : Type} (heap : Heap α) (node : α)
    (hsize : heap.size < heap.max_size) :
    ∃ (index : Nat) (l : List α), heap_insert heap node = ((index : Int), { heap with nodes := l }) ∧
      l.Perm (node :: heap.nodes) := by
  unfold Heap.size at hsize
  have hns : ¬ heap.nodes.length ≥ heap.max_size := by omega
  have hlen : ¬ heap.nodes.length ≥ (heap.nodes ++ [node]).length := by simp
  refine ⟨(heapify_up_loop heap.compare heap.nodes.length (heap.nodes ++ [node])
      heap.nodes.length).2,
    (heapify_up_loop heap.compare heap.nodes.length (heap.nodes ++ [node])
      heap.nodes.length).1, ?_, ?_⟩
  · simp only [heap_insert, heapify_up, Heap.size, hns, hlen, if_false]
  · exact (heapify_up_loop_perm _ _ _ _).trans (List.perm_append_singleton _ _)

/-- A `heap_extract` on a non-empty heap removes the returned node from the array, for
any comparator. -/
theorem heap_extract_perm {α : Type} (heap : Heap α) (hsize : 0 < heap.size) :
    ∃ (node : α) (rest : List α), heap_extract heap = (some node, { heap with nodes := rest }) ∧
      heap.nodes.Perm (node :: rest) := by
  obtain ⟨cmp, nodes, max_size⟩ := heap
  cases nodes with
  | nil => simp [Heap.size] at hsize
  | cons node rest =>
    cases hlast : rest.getLast? with
    | none =>
      have : rest = [] := by simpa using hlast
      subst this
      exact ⟨node, [], by simp [heap_extract], List.Perm.refl _⟩
    | some last =>
      refine ⟨node, (heapify_down cmp rest.length (last :: rest.dropLast) 0).1,
        by simp [heap_extract, hlast], ?_⟩
      have hsplit : rest.dropLast ++ [last] = rest :=
        List.dropLast_append_getLast? last hlast
      refine List.Perm.cons node ?_
      refine List.Perm.symm ((heapify_down_perm _ _ _ _).trans ?_)
      conv_rhs => rw [← hsplit]
      exact (List.perm_append_comm : ([last] ++ rest.dropLast).Perm (rest.dropLast ++ [last]))

theorem combine_nodes_combined (a b : Node) (ha : a.Combined) (hb : b.Combined)
    (h : a.frequency + b.frequency < SIZE_T_MOD) : (combine_nodes a b).Combined :=
  ⟨rfl, Nat.mod_eq_of_lt h, ha, hb⟩

/-- The loop of `build_tree`, for any comparator: the node left is made of the nodes of
the heap, joined by one new internal node per iteration. -/
theorem build_tree_loop_forest :
    ∀ (fuel : Nat) (heap : Heap Node), 1 ≤ heap.size → heap.size ≤ fuel + 1 →
      heap.size ≤ heap.max_size → total_frequency heap.nodes < SIZE_T_MOD →
      (∀ n ∈ heap.nodes, n.Combined) →
      ∃ R h', build_tree_loop fuel heap = (true, h') ∧ h'.nodes = [R] ∧ R.Combined ∧
        R.leaf_list.Perm (heap.nodes.flatMap Node.leaf_list) ∧
        R.inner_count + 1 = (heap.nodes.map Node.inner_count).sum + heap.size ∧
        R.frequency = total_frequency heap.nodes := by
  intro fuel
  induction fuel with
  | zero =>
    intro heap h1 h2 _ _ hc
    have hlen : heap.nodes.length = 1 := by unfold Heap.size at h1 h2; omega
    obtain ⟨R, hR⟩ := List.length_eq_one.mp hlen
    refine ⟨R, heap, rfl, hR, hc R (by rw [hR]; simp), ?_, ?_, ?_⟩
    · rw [hR]; simp
    · rw [hR]; simp [Heap.size, hR]
    · rw [hR]; simp [total_frequency]
  | succ fuel ih =>
    intro heap h1 h2 hmax htot hc
    by_cases hge : heap.size ≥ 2
    · obtain ⟨n1, rest1, e1, p1⟩ := heap_extract_perm heap (by omega)
      have hs1 : rest1.length + 1 = heap.nodes.length := by
        have := p1.length_eq; simp only [List.length_cons] at this; omega
      obtain ⟨n2, rest2, e2, p2'⟩ := heap_extract_perm { heap with nodes := rest1 }
        (by show 0 < rest1.length; unfold Heap.size at hge; omega)
      have p2 : rest1.Perm (n2 :: rest2) := p2'
      have hs2 : rest2.length + 1 = rest1.length := by
        have := p2.length_eq; simp only [List.length_cons] at this; omega
      obtain ⟨index, l3, e3, p3'⟩ := heap_insert_perm { heap with nodes := rest2 }
        (combine_nodes n1 n2) (by show rest2.length < heap.max_size; unfold Heap.size at hmax; omega)
      have p3 : l3.Perm (combine_nodes n1 n2 :: rest2) := p3'
      have hs3 : l3.length = rest2.length + 1 := by
        have := p3.length_eq; simp only [List.length_cons] at this; omega
      have hperm : heap.nodes.Perm (n1 :: n2 :: rest2) := p1.trans (List.Perm.cons n1 p2)
      have htot0 : total_frequency heap.nodes
          = n1.frequency + (n2.frequency + total_frequency rest2) := by
        rw [total_frequency_perm _ _ hperm, total_frequency_cons, total_frequency_cons]
      have hsum : n1.frequency + n2.frequency < SIZE_T_MOD := by omega
      have hfreq : (combine_nodes n1 n2).frequency = n1.frequency + n2.frequency :=
        combine_nodes_frequency n1 n2 hsum
      have htot3 : total_frequency l3 = total_frequency heap.nodes := by
        rw [total_frequency_perm _ _ p3, total_frequency_cons, hfreq, htot0]
        omega
      have hc1 : n1.Combined := hc n1 (hperm.mem_iff.mpr (by simp))
      have hc2 : n2.Combined := hc n2 (hperm.mem_iff.mpr (by simp))
      have hc3 : ∀ n ∈ l3, n.Combined := by
        intro n hn
        rcases List.mem_cons.mp (p3.mem_iff.mp hn) with h | h
        · rw [h]; exact combine_nodes_combined n1 n2 hc1 hc2 hsum
        · exact hc n (hperm.mem_iff.mpr (by simp [h]))
      obtain ⟨R, h', r1, r2, r3, r4, r5, r6⟩ := ih { heap with nodes := l3 }
        (by show 1 ≤ l3.length; omega)
        (by show l3.length ≤ fuel + 1; unfold Heap.size at h2; omega)
        (by show l3.length ≤ heap.max_size; unfold Heap.size at hmax; omega)
        (by show total_frequency l3 < SIZE_T_MOD; omega) hc3
      have hne : ¬ ((index : Int) = -1) := by omega
      refine ⟨R, h', ?_, r2, r3, ?_, ?_, ?_⟩
      · simp only [build_tree_loop, hge, if_true, e1, e2, e3, hne, if_false]
        exact r1
      · refine r4.trans ?_
        refine (List.Perm.flatMap_right _ p3).trans ?_
        refine List.Perm.trans ?_ (List.Perm.flatMap_right _ hperm.symm)
        simp [combine_nodes, Node.leaf_list]
      · have e4 : (l3.map Node.inner_count).sum
            = n1.inner_count + n2.inner_count + 1 + (rest2.map Node.inner_count).sum := by
          rw [(p3.map Node.inner_count).sum_eq]
          simp [combine_nodes, Node.inner_count]
        have e5 : (heap.nodes.map Node.inner_count).sum
            = n1.inner_count + (n2.inner_count + (rest2.map Node.inner_count).sum) := by
          rw [(hperm.map Node.inner_count).sum_eq]
          simp
        have e6 : (Heap.size { heap with nodes := l3 }) = l3.length := rfl
        rw [e6, e4] at r5
        rw [e5]
        unfold Heap.size
        omega
      · rw [r6]; exact htot3
    · have hlen : heap.nodes.length = 1 := by unfold Heap.size at h1 hge; omega
      obtain ⟨R, hR⟩ := List.length_eq_one.mp hlen
      refine ⟨R, heap, ?_, hR, hc R (by rw [hR]; simp), ?_, ?_, ?_⟩
      · simp only [build_tree_loop, hge, if_false]
      · rw [hR]; simp
      · rw [hR]; simp [Heap.size, hR]
      · rw [hR]; simp [total_frequency]

/-- C31: on a heap of `n >= 1` leaf nodes (within its capacity, the sum of the frequencies
below 2^64), whatever the comparator, `build_tree` returns a tree whose leaves are the `n`
initial nodes, with `n - 1` internal nodes (a node of this embedding has no child or two
children), each carrying the symbol 0xFF and the sum of the frequencies of its two
children; the frequency of the root is the sum of the frequencies of the leaves. -/
theorem build_tree_shape (heap : Heap Node) (h1 : 1 ≤ heap.size)
    (hmax : heap.size ≤ heap.max_size)
    (hleaf : ∀ n ∈ heap.nodes, ∃ symbol frequency, n = .leaf symbol frequency)
    (htot : total_frequency heap.nodes < SIZE_T_MOD) :
    ∃ root, (build_tree heap).1 = some root ∧
      root.leaf_list.Perm heap.nodes ∧
      root.leaf_list.length = heap.size ∧
      root.inner_count = heap.size - 1 ∧
      root.Combined ∧
      root.frequency = total_frequency heap.nodes := by
  have hc : ∀ n ∈ heap.nodes, n.Combined := by
    intro n hn
    obtain ⟨s, f, rfl⟩ := hleaf n hn
    trivial
  obtain ⟨R, h', r1, r2, r3, r4, r5, r6⟩ :=
    build_tree_loop_forest heap.size heap h1 (by omega) hmax htot hc
  have hflat : ∀ L : List Node, (∀ n ∈ L, ∃ symbol frequency, n = .leaf symbol frequency) →
      L.flatMap Node.leaf_list = L ∧ (L.map Node.inner_count).sum = 0 := by
    intro L
    induction L with
    | nil => intro _; exact ⟨rfl, rfl⟩
    | cons a L ih =>
      intro hL
      obtain ⟨s, f, rfl⟩ := hL _ (List.mem_cons_self _ _)
      obtain ⟨i1, i2⟩ := ih (fun n hn => hL n (List.mem_cons_of_mem _ hn))
      constructor
      · simp only [List.flatMap_cons, Node.leaf_list, i1, List.singleton_append]
      · simp only [List.map_cons, List.sum_cons, Node.inner_count, i2]
  obtain ⟨f1, f2⟩ := hflat heap.nodes hleaf
  rw [f1] at r4
  rw [f2] at r5
  refine ⟨R, ?_, r4, r4.length_eq, by omega, r3, r6⟩
  unfold build_tree
  obtain ⟨c, n, m⟩ := h'
  simp only at r2
  subst r2
  simp only [r1, if_true]
  simp [heap_extract]

/-- Witness for `build_tree_shape`: the heap of the leaves B (1) and A (3). -/
theorem build_tree_shape_witness :
    ∃ root, (build_tree heap_AB).1 = some root ∧
      root.leaf_list.Perm heap_AB.nodes ∧
      root.leaf_list.length = heap_AB.size ∧
      root.inner_count = heap_AB.size - 1 ∧
      root.Combined ∧
      root.frequency = total_frequency heap_AB.nodes :=
  build_tree_shape heap_AB (by decide) (by decide)
    (by
      intro n hn
      simp only [heap_AB, List.mem_cons, List.mem_singleton, List.not_mem_nil, or_false] at hn
      rcases hn with rfl | rfl
      · exact ⟨_, _, rfl⟩
      · exact ⟨_, _, rfl⟩)
    (by decide)

/-! ## Codes and paths -/

theorem path_bits_le (path : List Bool) : ∀ b ∈ path_bits path, b ≤ 1 := by
  intro b hb
  obtain ⟨x, _, rfl⟩ := List.mem_map.mp hb
  split <;> omega

theorem path_bits_length (path : List Bool) : (path_bits path).length = path.length :=
  List.length_map _ _

theorem bits_value_lt (bits : List Nat) (h : ∀ b ∈ bits, b ≤ 1) :
    bits_value bits < 2 ^ bits.length := by
  induction bits with
  | nil => simp [bits_value]
  | cons b bits ih =>
    have hb := h b (List.mem_cons_self _ _)
    have := ih (fun x hx => h x (List.mem_cons_of_mem _ hx))
    simp only [bits_value, List.length_cons, pow_succ]
    have h2 : b * 2 ^ bits.length ≤ 1 * 2 ^ bits.length := Nat.mul_le_mul_right _ hb
    omega

/-- The low `n + 1` bits of `b * 2 ^ n + v`, for a bit `b` and `v < 2 ^ n`. -/
theorem code_bits_cons (b v n : Nat) (hb : b ≤ 1) (hv : v < 2 ^ n) :
    code_bits (b * 2 ^ n + v) (n + 1) = b :: code_bits v n := by
  unfold code_bits
  rw [List.range_succ_eq_map, List.map_cons, List.map_map]
  congr 1
  · show (b * 2 ^ n + v) / 2 ^ (n + 1 - 1 - 0) % 2 = b
    rw [show n + 1 - 1 - 0 = n by omega, Nat.add_comm, Nat.add_mul_div_right _ _ (Nat.two_pow_pos n),
      Nat.div_eq_of_lt hv]
    omega
  · apply List.map_congr_left
    intro j hj
    rw [List.mem_range] at hj
    show (b * 2 ^ n + v) / 2 ^ (n + 1 - 1 - (j + 1)) % 2 = v / 2 ^ (n - 1 - j) % 2
    have e : n + 1 - 1 - (j + 1) = n - 1 - j := by omega
    rw [e]
    have hsplit : 2 ^ n = 2 ^ (n - 1 - j) * (2 * 2 ^ j) := by
      rw [← pow_succ', ← pow_add]
      congr 1
      omega
    rw [hsplit, ← Nat.mul_assoc, Nat.mul_comm b, Nat.mul_assoc, Nat.mul_add_div
      (Nat.two_pow_pos _)]
    have : b * (2 * 2 ^ j) = 2 * (b * 2 ^ j) := by ring
    rw [this]
    omega

/-- The digits of the number made of the digits `bits` are `bits`. -/
theorem code_bits_value (bits : List Nat) (h : ∀ b ∈ bits, b ≤ 1) :
    code_bits (bits_value bits) bits.length = bits := by
  induction bits with
  | nil => rfl
  | cons b bits ih =>
    have hb := h b (List.mem_cons_self _ _)
    have h' : ∀ x ∈ bits, x ≤ 1 := fun x hx => h x (List.mem_cons_of_mem _ hx)
    simp only [bits_value, List.length_cons]
    rw [code_bits_cons b _ _ hb (bits_value_lt bits h'), ih h']

theorem paths_symbols (T : Node) : T.paths.map Prod.fst = T.leaves.map Prod.fst := by
  induction T with
  | leaf s f => rfl
  | inner s f l r ihl ihr =>
    simp only [Node.paths, Node.leaves, List.map_append, List.map_map]
    rw [← ihl, ← ihr]
    rfl

theorem paths_length_le (T : Node) : ∀ p ∈ T.paths, p.2.length ≤ T.height := by
  induction T with
  | leaf s f =>
    intro p hp
    simp only [Node.paths, List.mem_singleton] at hp
    subst hp
    simp
  | inner s f l r ihl ihr =>
    intro p hp
    simp only [Node.paths, List.mem_append, List.mem_map] at hp
    simp only [Node.height]
    rcases hp with ⟨q, hq, rfl⟩ | ⟨q, hq, rfl⟩
    · have := ihl q hq
      simp only [List.length_cons]
      omega
    · have := ihr q hq
      simp only [List.length_cons]
      omega

/-- The entry that `generate_huffman_code` writes for a leaf: the depth of the leaf and
the code extended by the bits of the path, as long as 32 bits hold it. -/
theorem generate_code (T : Node) :
    ∀ (ct : Nat → Code) (code depth : Nat), (T.leaves.map Prod.fst).Nodup →
      depth + T.height ≤ 32 → (1 ≤ depth ∨ 1 ≤ T.height) → code < 2 ^ depth →
      ∀ p ∈ T.paths, generate_huffman_code ct code depth T p.1
        = { length := depth + p.2.length,
            code := code * 2 ^ p.2.length + bits_value (path_bits p.2) } := by
  induction T with
  | leaf sym f =>
    intro ct code depth _ _ hd _ p hp
    simp only [Node.paths, List.mem_singleton] at hp
    subst hp
    have hd' : depth ≠ 0 := by
      simp only [Node.height] at hd; omega
    simp [generate_huffman_code, hd', path_bits, bits_value]
  | inner sym f l r ihl ihr =>
    intro ct code depth hnd hh _ hc p hp
    simp only [Node.height] at hh
    simp only [Node.leaves, List.map_append] at hnd
    have hmod : (depth + 1) % 256 = depth + 1 := Nat.mod_eq_of_lt (by omega)
    have hpow : 2 ^ (depth + 1) ≤ 2 ^ 32 := Nat.pow_le_pow_right (by decide) (by omega)
    have hshift : (code <<< 1) % 4294967296 = 2 * code := by
      rw [Nat.shiftLeft_eq, pow_one, Nat.mul_comm]
      apply Nat.mod_eq_of_lt
      rw [pow_succ] at hpow
      omega
    have hor : (2 * code) ||| 1 = 2 * code + 1 := by
      have := or_eq_add_of_low (2 * code) 1 1 (by omega) (by decide)
      exact this
    simp only [generate_huffman_code, hmod, hshift, hor]
    simp only [Node.paths, List.mem_append, List.mem_map] at hp
    rcases hp with ⟨q, hq, rfl⟩ | ⟨q, hq, rfl⟩
    · rw [ihl _ (2 * code) (depth + 1) (List.Nodup.of_append_left hnd) (by omega)
        (Or.inl (by omega)) (by rw [pow_succ]; omega) q hq]
      simp only [List.length_cons, path_bits, List.map_cons, bits_value, Bool.false_eq_true,
        if_false, Nat.zero_mul, Nat.zero_add, pow_succ, Code.mk.injEq]
      constructor
      · omega
      · ring
    · have hqr : q.1 ∈ r.leaves.map Prod.fst := by
        rw [← paths_symbols]
        exact List.mem_map_of_mem _ hq
      have hql : q.1 ∉ l.leaves.map Prod.fst :=
        fun hm => (List.nodup_append.mp hnd).2.2 hm hqr
      rw [generate_frame l _ _ _ q.1 hql,
        ihr _ (2 * code + 1) (depth + 1) (List.Nodup.of_append_right hnd) (by omega)
          (Or.inl (by omega)) (by rw [pow_succ]; omega) q hq]
      simp only [List.length_cons, path_bits, List.map_cons, bits_value, if_true,
        Nat.one_mul, pow_succ, Code.mk.injEq, List.length_map]
      constructor
      · omega
      · ring

/-- C33 (amended): for a tree with at least two leaves, pairwise distinct leaf symbols and
height at most 32, `generate_huffman_code` started with code 0 and depth 0 records for each leaf at
depth `d` (path `p` from the root, `d` steps) the length `d` and a code below `2 ^ d`
whose `d` bits, most significant first, are those of the path: 1 for a step to the right
child and 0 for a step to the left child. -/
theorem generate_huffman_code_paths (T : Node) (code_table : Nat → Code)
    (hnd : (T.leaves.map Prod.fst).Nodup) (h2 : 2 ≤ T.leaves.length) (hh : T.height ≤ 32) :
    ∀ p ∈ T.paths,
      (generate_huffman_code code_table 0 0 T p.1).length = p.2.length ∧
      (generate_huffman_code code_table 0 0 T p.1).code < 2 ^ p.2.length ∧
      code_bits (generate_huffman_code code_table 0 0 T p.1).code
        (generate_huffman_code code_table 0 0 T p.1).length = path_bits p.2 := by
  intro p hp
  rw [generate_code T code_table 0 0 hnd (by omega)
    (Or.inr (height_pos_of_two_leaves T h2)) (by decide) p hp]
  simp only [Nat.zero_add, Nat.zero_mul]
  have hv := bits_value_lt (path_bits p.2) (path_bits_le p.2)
  rw [path_bits_length] at hv
  refine ⟨trivial, hv, ?_⟩
  have := code_bits_value (path_bits p.2) (path_bits_le p.2)
  rwa [path_bits_length] at this

/-- Witness for `generate_huffman_code_paths`: the leaf C of the tree with A at depth 1
and B, C at depth 2, reached by a step to the left and a step to the right. -/
theorem generate_huffman_code_paths_witness :
    (generate_huffman_code zero_memory.code_table 0 0 tree_ABC 0x43).length = 2 ∧
      (generate_huffman_code zero_memory.code_table 0 0 tree_ABC 0x43).code < 2 ^ 2 ∧
      code_bits (generate_huffman_code zero_memory.code_table 0 0 tree_ABC 0x43).code
        (generate_huffman_code zero_memory.code_table 0 0 tree_ABC 0x43).length
          = path_bits [false, true] :=
  generate_huffman_code_paths tree_ABC zero_memory.code_table (by decide) (by decide)
    (by decide) (0x43, [false, true]) (by decide)

/-- C33 (counterexample): in the tree whose two leaves both carry the symbol A the table
has one entry for both: the left leaf, visited last, leaves the code 0 there, which does
not spell the path (one step to the right) of the right leaf. -/
theorem generate_huffman_code_paths_same_symbol :
    2 ≤ tree_AA.leaves.length ∧ tree_AA.height ≤ 32 ∧
      ¬ ∀ p ∈ tree_AA.paths,
        (generate_huffman_code zero_memory.code_table 0 0 tree_AA p.1).length = p.2.length ∧
        (generate_huffman_code zero_memory.code_table 0 0 tree_AA p.1).code < 2 ^ p.2.length ∧
        code_bits (generate_huffman_code zero_memory.code_table 0 0 tree_AA p.1).code
          (generate_huffman_code zero_memory.code_table 0 0 tree_AA p.1).length
            = path_bits p.2 := by
  refine ⟨by decide, by decide, ?_⟩
  intro h
  have := (h (0x41, [true]) (by decide)).2.2
  revert this
  decide

/-! ## The height of the tree of `build_tree` -/

theorem childrenLe_mono (T : Node) (w w' : Nat) (h : w ≤ w') (hT : T.ChildrenLe w) :
    T.ChildrenLe w' := by
  cases T with
  | leaf s f => trivial
  | inner s f l r => exact ⟨le_trans hT.1 h, le_trans hT.2 h⟩

/-- A tree with the sibling property weighs at least the Fibonacci number of its height
plus 2; the same holds for the children of its root. -/
theorem fib_le_frequency (T : Node) (hs : T.Sibling) (hw : T.Weighted) :
    Nat.fib (T.height + 2) ≤ T.frequency ∧
      ∀ s f l r, T = .inner s f l r →
        Nat.fib (l.height + 2) ≤ l.frequency ∧ Nat.fib (r.height + 2) ≤ r.frequency := by
  induction T with
  | leaf s f =>
    refine ⟨?_, fun s f l r h => by cases h⟩
    simp only [Node.height, Node.frequency]
    exact hw
  | inner s f l r ihl ihr =>
    obtain ⟨hsl, hsr, hs1, hs2⟩ := hs
    obtain ⟨hf, hw1, hw2⟩ := hw
    obtain ⟨il, il2⟩ := ihl hs1 hw1
    obtain ⟨ir, ir2⟩ := ihr hs2 hw2
    refine ⟨?_, fun s' f' l' r' h => by cases h; exact ⟨il, ir⟩⟩
    simp only [Node.height, Node.frequency]
    rw [hf]
    -- the sibling of the taller child weighs at least the Fibonacci number below
    have hl1 : Nat.fib (l.height + 1) ≤ r.frequency := by
      cases l with
      | leaf s1 f1 =>
        simp only [Node.height]
        have : 0 < Nat.fib (r.height + 2) := Nat.fib_pos.mpr (by omega)
        have h1 : Nat.fib (0 + 1) = 1 := by decide
        omega
      | inner s1 f1 l1 l2 =>
        obtain ⟨j1, j2⟩ := il2 s1 f1 l1 l2 rfl
        obtain ⟨k1, k2⟩ := hsl
        simp only [Node.height]
        rcases Nat.le_total l1.height l2.height with h | h
        · rw [max_eq_right h]; exact le_trans j2 k2
        · rw [max_eq_left h]; exact le_trans j1 k1
    have hr1 : Nat.fib (r.height + 1) ≤ l.frequency := by
      cases r with
      | leaf s1 f1 =>
        simp only [Node.height]
        have : 0 < Nat.fib (l.height + 2) := Nat.fib_pos.mpr (by omega)
        have h1 : Nat.fib (0 + 1) = 1 := by decide
        omega
      | inner s1 f1 r1 r2 =>
        obtain ⟨j1, j2⟩ := ir2 s1 f1 r1 r2 rfl
        obtain ⟨k1, k2⟩ := hsr
        simp only [Node.height]
        rcases Nat.le_total r1.height r2.height with h | h
        · rw [max_eq_right h]; exact le_trans j2 k2
        · rw [max_eq_left h]; exact le_trans j1 k1
    rcases Nat.le_total l.height r.height with h | h
    · rw [max_eq_right h, show r.height + 1 + 2 = (r.height + 1) + 2 by rfl, Nat.fib_add_two]
      have e : Nat.fib (r.height + 1 + 1) = Nat.fib (r.height + 2) := rfl
      omega
    · rw [max_eq_left h, show l.height + 1 + 2 = (l.height + 1) + 2 by rfl, Nat.fib_add_two]
      have e : Nat.fib (l.height + 1 + 1) = Nat.fib (l.height + 2) := rfl
      omega

/-- Merging two least nodes at every step gives a tree with the sibling property. -/
theorem builds_sibling (L : List Node) (R : Node) (hb : Builds L R) :
    total_frequency L < SIZE_T_MOD →
    (∀ n ∈ L, n.Sibling ∧ n.Weighted) →
    L.Pairwise (fun x y => y.ChildrenLe x.frequency ∧ x.ChildrenLe y.frequency) →
    R.Sibling ∧ R.Weighted ∧ R.frequency = total_frequency L := by
  induction hb with
  | single n =>
    intro _ h _
    exact ⟨(h n (List.mem_singleton_self n)).1, (h n (List.mem_singleton_self n)).2,
      by simp [total_frequency]⟩
  | merge L a b rest R hp hmin1 hmin2 _ ih =>
    intro htot hnodes hpair
    have hsymm : Symmetric (fun x y : Node =>
        y.ChildrenLe x.frequency ∧ x.ChildrenLe y.frequency) := fun x y h => ⟨h.2, h.1⟩
    have hpair' := (hp.pairwise_iff (fun {x y} h => hsymm h)).mp hpair
    rw [List.pairwise_cons, List.pairwise_cons] at hpair'
    obtain ⟨ha, hb', hrest⟩ := hpair'
    have htot0 : total_frequency L = a.frequency + (b.frequency + total_frequency rest) := by
      rw [total_frequency_perm _ _ hp, total_frequency_cons, total_frequency_cons]
    have hsum : a.frequency + b.frequency < SIZE_T_MOD := by omega
    have hfreq := combine_nodes_frequency a b hsum
    have hA := hnodes a (hp.mem_iff.mpr (by simp))
    have hB := hnodes b (hp.mem_iff.mpr (by simp))
    have hab := ha b (List.mem_cons_self _ _)
    have htot' : total_frequency (combine_nodes a b :: rest) = total_frequency L := by
      rw [total_frequency_cons, hfreq, htot0]; omega
    obtain ⟨r1, r2, r3⟩ := ih (by rw [htot']; exact htot)
      (by
        intro n hn
        rcases List.mem_cons.mp hn with h | h
        · subst h
          exact ⟨⟨hab.2, hab.1, hA.1, hB.1⟩, ⟨Nat.mod_eq_of_lt hsum, hA.2, hB.2⟩⟩
        · exact hnodes n (hp.mem_iff.mpr (by simp [h])))
      (by
        rw [List.pairwise_cons]
        refine ⟨?_, hrest⟩
        intro x hx
        constructor
        · exact childrenLe_mono x _ _ (by rw [hfreq]; omega)
            (ha x (List.mem_cons_of_mem _ hx)).1
        · exact ⟨hmin1 x (List.mem_cons_of_mem _ hx), hmin2 x hx⟩)
    exact ⟨r1, r2, by rw [r3, htot']⟩

/-- A tree built by merging least nodes from leaves of positive frequencies that add up
to at most 65280 has a height of at most 22. -/
theorem builds_height (L : List Node) (R : Node) (hb : Builds L R)
    (hleaf : ∀ n ∈ L, ∃ s f, n = .leaf s f ∧ 1 ≤ f) (htot : total_frequency L ≤ 65280) :
    R.height ≤ 22 := by
  have hpair : L.Pairwise (fun x y => y.ChildrenLe x.frequency ∧ x.ChildrenLe y.frequency) := by
    rw [List.pairwise_iff_forall_sublist]
    intro x y hxy
    have hx := hxy.subset (List.mem_cons_self _ _)
    have hy := hxy.subset (List.mem_cons_of_mem _ (List.mem_singleton_self _))
    obtain ⟨s1, f1, rfl, _⟩ := hleaf x hx
    obtain ⟨s2, f2, rfl, _⟩ := hleaf y hy
    exact ⟨trivial, trivial⟩
  obtain ⟨r1, r2, r3⟩ := builds_sibling L R hb (by simp only [SIZE_T_MOD]; omega)
    (by
      intro n hn
      obtain ⟨s, f, rfl, hf⟩ := hleaf n hn
      exact ⟨trivial, hf⟩)
    hpair
  have hfib := (fib_le_frequency R r1 r2).1
  by_contra hcon
  have h25 : Nat.fib 25 ≤ Nat.fib (R.height + 2) := Nat.fib_mono (by omega)
  have e25 : Nat.fib 25 = 75025 := by norm_num
  omega

theorem leaf_nodes_length (t : Nat → Nat) (scale : Nat) :
    (leaf_nodes t scale (List.range FREQUENCY_TABLE_SIZE)).length = nonzero_count t := by
  simp [leaf_nodes, nonzero_count]

theorem leaf_nodes_leaf (t : Nat → Nat) (scale : Nat) (L : List Nat) :
    ∀ n ∈ leaf_nodes t scale L, ∃ s f, n = .leaf s f ∧ 1 ≤ f ∧ s ∈ L := by
  intro n hn
  simp only [leaf_nodes, List.mem_map, List.mem_filter] at hn
  obtain ⟨i, ⟨hi, h0⟩, rfl⟩ := hn
  have h0' : t i ≠ 0 := by simpa using h0
  have := scale_down_ne_zero (t i) scale h0'
  exact ⟨i, _, rfl, by omega, hi⟩

/-- A heap filled from a table whose (scaled) entries are at most 255, with the capacity
of the number of non-zero entries, takes every leaf, and `build_tree` on it merges two
least nodes at every step. -/
theorem fill_build_builds (t : Nat → Nat) (scale : Nat)
    (hs : ∀ i ∈ List.range FREQUENCY_TABLE_SIZE, i < 256 ∧ scale_down (t i) scale ≤ 255)
    (hN : 1 ≤ nonzero_count t) :
    ∃ H R, fill_minheap t (create_priority_queue (nonzero_count t) compare_nodes) scale
        = (nonzero_count t, H) ∧
      (build_tree H).1 = some R ∧
      Builds (leaf_nodes t scale (List.range FREQUENCY_TABLE_SIZE)) R := by
  have hfold := fill_minheap_fold t scale (List.range FREQUENCY_TABLE_SIZE)
    (create_priority_queue (nonzero_count t) compare_nodes) rfl
    (by intro i j a b hi; simp [create_priority_queue] at hi)
    (by intro n hn; simp [create_priority_queue] at hn)
    hs
    (by show 0 + nonzero_count t ≤ nonzero_count t; omega)
  obtain ⟨f1, f2, f3, f4, f5⟩ := hfold
  have hfm : fill_minheap t (create_priority_queue (nonzero_count t) compare_nodes)
      scale = (((List.range FREQUENCY_TABLE_SIZE).foldl
        (fill_minheap_step t scale)
        (create_priority_queue (nonzero_count t) compare_nodes, false)).1.size,
        ((List.range FREQUENCY_TABLE_SIZE).foldl
        (fill_minheap_step t scale)
        (create_priority_queue (nonzero_count t) compare_nodes, false)).1) := rfl
  generalize ((List.range FREQUENCY_TABLE_SIZE).foldl
      (fill_minheap_step t scale)
      (create_priority_queue (nonzero_count t) compare_nodes, false)).1 = H at f2 f3 f4 f5 hfm
  have f3' : H.max_size = nonzero_count t := f3
  have f5' : H.nodes.Perm (leaf_nodes t scale (List.range FREQUENCY_TABLE_SIZE)) :=
    (f5.trans (List.perm_append_comm)).trans (List.reverse_perm _)
  have hlen : H.nodes.length = nonzero_count t := by
    rw [f5'.length_eq, leaf_nodes_length]
  have hinv : QueueInv H := by
    refine ⟨f2, f4, ?_, ?_, ?_⟩
    · intro n hn
      obtain ⟨s, f, rfl, _, hsL⟩ := leaf_nodes_leaf t scale _ n (f5'.mem_iff.mp hn)
      exact (hs s hsL).1
    · rw [total_frequency_perm _ _ f5']
      have h := total_leaf_nodes_le t scale _ hs
      have h2 := nonzero_count_le t
      unfold nonzero_count at h2
      omega
    · simp only [Heap.size, hlen, f3']; exact le_refl _
  obtain ⟨R, hR1, hR2⟩ := build_tree_spec H hinv (by simp only [Heap.size, hlen]; exact hN)
  refine ⟨H, R, ?_, hR1, builds_perm _ _ R hR2 f5'⟩
  rw [hfm]
  simp only [Heap.size, hlen]

/-- Height and leaves of a tree built from the leaves of a table whose (scaled) entries
are at most 255. -/
theorem leaf_nodes_builds_height (t : Nat → Nat) (scale : Nat) (R : Node)
    (hs : ∀ i ∈ List.range FREQUENCY_TABLE_SIZE, i < 256 ∧ scale_down (t i) scale ≤ 255)
    (hb : Builds (leaf_nodes t scale (List.range FREQUENCY_TABLE_SIZE)) R) :
    R.height ≤ 22 ∧ (R.leaves.map Prod.fst).Perm (present_symbols t) := by
  constructor
  · refine builds_height _ R hb ?_ ?_
    · intro n hn
      obtain ⟨s, f, h1, h2, _⟩ := leaf_nodes_leaf t scale _ n hn
      exact ⟨s, f, h1, h2⟩
    · have h := total_leaf_nodes_le t scale _ hs
      have h2 := nonzero_count_le t
      unfold nonzero_count at h2
      omega
  · have h := (builds_leaves _ _ hb).map Prod.fst
    refine h.trans ?_
    have e : ((leaf_nodes t scale (List.range FREQUENCY_TABLE_SIZE)).flatMap Node.leaves).map
        Prod.fst = present_symbols t := by
      unfold leaf_nodes present_symbols
      rw [flatMap_leaf_leaves, List.map_map]
      exact List.map_id _
    rw [e]

/-- The entries `generate_huffman_code` writes from a tree of height at most 32 with
distinct leaf symbols, the one-leaf tree included. -/
theorem generate_entry (T : Node) (ct : Nat → Code)
    (hnd : (T.leaves.map Prod.fst).Nodup) (hh : T.height ≤ 32) :
    ∀ p ∈ T.paths,
      1 ≤ (generate_huffman_code ct 0 0 T p.1).length ∧
      (generate_huffman_code ct 0 0 T p.1).length ≤ 32 ∧
      (generate_huffman_code ct 0 0 T p.1).code
        < 2 ^ (generate_huffman_code ct 0 0 T p.1).length ∧
      (1 ≤ T.height →
        (generate_huffman_code ct 0 0 T p.1).length = p.2.length ∧
        (generate_huffman_code ct 0 0 T p.1).code = bits_value (path_bits p.2)) := by
  intro p hp
  cases T with
  | leaf s f =>
    simp only [Node.paths, List.mem_singleton] at hp
    subst hp
    simp [generate_huffman_code, Node.height]
  | inner s f l r =>
    have h1 : 1 ≤ (Node.inner s f l r).height := by simp [Node.height]
    have hlen := paths_length_le _ p hp
    rw [generate_code _ ct 0 0 hnd (by omega) (Or.inr h1) (by decide) p hp]
    simp only [Nat.zero_add, Nat.zero_mul]
    have hv := bits_value_lt (path_bits p.2) (path_bits_le p.2)
    rw [path_bits_length] at hv
    have hpos : 1 ≤ p.2.length := by
      simp only [Node.paths, List.mem_append, List.mem_map] at hp
      rcases hp with ⟨q, _, rfl⟩ | ⟨q, _, rfl⟩ <;> simp
    exact ⟨hpos, by omega, hv, fun _ => ⟨trivial, trivial⟩⟩

/-- C39: for a frequency table whose entries are at most 255 (one non-zero entry at
least), the tree `build_tree` returns from the heap filled with these counts has height at
most 32: every leaf has a depth (the length of its path) of at most 32, the code length
recorded for it lies in 1..32, and the recorded code is below 2 to that length, so that
the 32-bit code field holds all its bits. -/
theorem code_fits_fields (t : Nat → Nat) (code_table : Nat → Code)
    (hle : ∀ i, i < FREQUENCY_TABLE_SIZE → t i ≤ 255) (hN : 1 ≤ nonzero_count t) :
    ∃ root, decompress_tree t (nonzero_count t) = some root ∧
      root.height ≤ 32 ∧
      ∀ p ∈ root.paths,
        p.2.length ≤ 32 ∧
        1 ≤ (generate_huffman_code code_table 0 0 root p.1).length ∧
        (generate_huffman_code code_table 0 0 root p.1).length ≤ 32 ∧
        (generate_huffman_code code_table 0 0 root p.1).code
          < 2 ^ (generate_huffman_code code_table 0 0 root p.1).length ∧
        (1 ≤ root.height →
          (generate_huffman_code code_table 0 0 root p.1).length = p.2.length ∧
          (generate_huffman_code code_table 0 0 root p.1).code
            = bits_value (path_bits p.2)) := by
  have hs : ∀ i ∈ List.range FREQUENCY_TABLE_SIZE, i < 256 ∧ scale_down (t i) 0 ≤ 255 := by
    intro i hi
    rw [List.mem_range] at hi
    rw [scale_down_zero_scale]
    exact ⟨hi, hle i hi⟩
  obtain ⟨H, R, h1, h2, h3⟩ := fill_build_builds t 0 hs hN
  obtain ⟨hh, hperm⟩ := leaf_nodes_builds_height t 0 R hs h3
  have hnd : (R.leaves.map Prod.fst).Nodup := hperm.nodup_iff.mpr (present_symbols_nodup t)
  refine ⟨R, ?_, by omega, ?_⟩
  · unfold decompress_tree
    simp only [h1, lt_irrefl, if_false]
    exact h2
  · intro p hp
    have hlen := paths_length_le _ p hp
    obtain ⟨g1, g2, g3, g4⟩ := generate_entry R code_table hnd (by omega) p hp
    exact ⟨by omega, g1, g2, g3, g4⟩

/-- Witness for `code_fits_fields`: the table with the counts 4, 1, 1 for A, B, C. -/
theorem code_fits_fields_witness :
    ∃ root, decompress_tree table_ABC (nonzero_count table_ABC) = some root ∧
      root.height ≤ 32 ∧
      ∀ p ∈ root.paths,
        p.2.length ≤ 32 ∧
        1 ≤ (generate_huffman_code zero_memory.code_table 0 0 root p.1).length ∧
        (generate_huffman_code zero_memory.code_table 0 0 root p.1).length ≤ 32 ∧
        (generate_huffman_code zero_memory.code_table 0 0 root p.1).code
          < 2 ^ (generate_huffman_code zero_memory.code_table 0 0 root p.1).length ∧
        (1 ≤ root.height →
          (generate_huffman_code zero_memory.code_table 0 0 root p.1).length = p.2.length ∧
          (generate_huffman_code zero_memory.code_table 0 0 root p.1).code
            = bits_value (path_bits p.2)) :=
  code_fits_fields table_ABC zero_memory.code_table
    (by
      intro i _
      show (if i = 0x41 then 4 else if i = 0x42 then 1 else if i = 0x43 then 1 else 0) ≤ 255
      split_ifs <;> omega)
    (by decide!)

/-! ## The generated code is prefix-free -/

theorem path_bits_initial : ∀ (p q : List Bool), path_bits p <+: path_bits q → p <+: q := by
  intro p
  induction p with
  | nil => intro q _; exact List.nil_prefix
  | cons x p ih =>
    intro q h
    cases q with
    | nil =>
      have := h.length_le
      simp [path_bits] at this
    | cons y q =>
      simp only [path_bits, List.map_cons] at h
      rw [List.cons_prefix_cons] at h
      have hxy : x = y := by
        cases x <;> cases y <;> simp at h ⊢
      subst hxy
      rw [List.cons_prefix_cons]
      exact ⟨rfl, ih q h.2⟩

/-- The paths to two leaves of a tree are never prefixes of one another. -/
theorem paths_incomparable (T : Node) :
    T.paths.Pairwise (fun p q => ¬ p.2 <+: q.2 ∧ ¬ q.2 <+: p.2) := by
  induction T with
  | leaf s f => simp [Node.paths]
  | inner s f l r ihl ihr =>
    simp only [Node.paths]
    rw [List.pairwise_append]
    refine ⟨?_, ?_, ?_⟩
    · rw [List.pairwise_map]
      refine ihl.imp ?_
      intro p q h
      simp only [List.cons_prefix_cons, true_and]
      exact h
    · rw [List.pairwise_map]
      refine ihr.imp ?_
      intro p q h
      simp only [List.cons_prefix_cons, true_and]
      exact h
    · intro p hp q hq
      obtain ⟨p', _, rfl⟩ := List.mem_map.mp hp
      obtain ⟨q', _, rfl⟩ := List.mem_map.mp hq
      simp [List.cons_prefix_cons]

/-- In a tree of height at most 32 with distinct leaf symbols and two leaves at least,
the bit strings of the entries of two different leaf symbols are not prefixes of one
another. -/
theorem generated_prefix_free (T : Node) (ct : Nat → Code)
    (hnd : (T.leaves.map Prod.fst).Nodup) (h1 : 1 ≤ T.height) (hh : T.height ≤ 32)
    (a b : Nat) (ha : a ∈ T.leaves.map Prod.fst) (hb : b ∈ T.leaves.map Prod.fst)
    (hab : a ≠ b) :
    ¬ code_bits (generate_huffman_code ct 0 0 T a).code (generate_huffman_code ct 0 0 T a).length
      <+: code_bits (generate_huffman_code ct 0 0 T b).code
        (generate_huffman_code ct 0 0 T b).length := by
  rw [← paths_symbols] at ha hb
  obtain ⟨p, hp, rfl⟩ := List.mem_map.mp ha
  obtain ⟨q, hq, rfl⟩ := List.mem_map.mp hb
  have hpq : p ≠ q := fun h => hab (by rw [h])
  have hsymm : Symmetric (fun p q : Nat × List Bool => ¬ p.2 <+: q.2 ∧ ¬ q.2 <+: p.2) :=
    fun x y h => ⟨h.2, h.1⟩
  have hinc := (paths_incomparable T).forall hsymm hp hq hpq
  rw [generate_code T ct 0 0 hnd (by omega) (Or.inr h1) (by decide) p hp,
    generate_code T ct 0 0 hnd (by omega) (Or.inr h1) (by decide) q hq]
  simp only [Nat.zero_add, Nat.zero_mul]
  have e1 := code_bits_value (path_bits p.2) (path_bits_le p.2)
  have e2 := code_bits_value (path_bits q.2) (path_bits_le q.2)
  rw [path_bits_length] at e1 e2
  rw [e1, e2]
  exact fun h => hinc.1 (path_bits_initial _ _ h)

/-- The tree of `compress` for a table with a non-zero entry: its height is at most 22
and its leaves carry the symbols present in the table. -/
theorem compress_tree_height (t : Nat → Nat) (hN : 1 ≤ nonzero_count t) :
    ∃ R, compress_tree t = some R ∧ R.height ≤ 22 ∧
      (R.leaves.map Prod.fst).Perm (present_symbols t) := by
  obtain ⟨R, h1, h2⟩ := compress_tree_builds t hN
  obtain ⟨h3, h4⟩ := leaf_nodes_builds_height t (get_list_size t 0).2 R (range_scaled t) h2
  exact ⟨R, h1, h3, h4⟩

/-- C34: for a frequency table with at least two non-zero entries, the code table
generated from the tree that `compress` builds is prefix-free: for two distinct symbols
present in the table, the bit string of the one (the low `length` bits of its code, most
significant first) is not a prefix of the bit string of the other. -/
theorem code_table_prefix_free (t : Nat → Nat) (code_table : Nat → Code)
    (h2 : 2 ≤ nonzero_count t) :
    ∃ root, compress_tree t = some root ∧
      ∀ a ∈ present_symbols t, ∀ b ∈ present_symbols t, a ≠ b →
        ¬ code_bits (generate_huffman_code code_table 0 0 root a).code
            (generate_huffman_code code_table 0 0 root a).length
          <+: code_bits (generate_huffman_code code_table 0 0 root b).code
            (generate_huffman_code code_table 0 0 root b).length := by
  obtain ⟨R, h1, hh, hperm⟩ := compress_tree_height t (by omega)
  have hnd : (R.leaves.map Prod.fst).Nodup := hperm.nodup_iff.mpr (present_symbols_nodup t)
  have hlen : R.leaves.length = nonzero_count t := by
    have := hperm.length_eq
    rwa [List.length_map, present_symbols_length] at this
  refine ⟨R, h1, ?_⟩
  intro a ha b hb hab
  exact generated_prefix_free R code_table hnd
    (height_pos_of_two_leaves R (by omega)) (by omega) a b
    (hperm.mem_iff.mpr ha) (hperm.mem_iff.mpr hb) hab

/-- Witness for `code_table_prefix_free`: the table with the counts 4, 1, 1 for A, B, C. -/
theorem code_table_prefix_free_witness :
    ∃ root, compress_tree table_ABC = some root ∧
      ∀ a ∈ present_symbols table_ABC, ∀ b ∈ present_symbols table_ABC, a ≠ b →
        ¬ code_bits (generate_huffman_code zero_memory.code_table 0 0 root a).code
            (generate_huffman_code zero_memory.code_table 0 0 root a).length
          <+: code_bits (generate_huffman_code zero_memory.code_table 0 0 root b).code
            (generate_huffman_code zero_memory.code_table 0 0 root b).length :=
  code_table_prefix_free table_ABC zero_memory.code_table (by decide!)

/-! ## The bit budget of `decode` -/

/-- C37 (failing input): on the file written for "AAAB" (header of 5 bytes, the byte E0
holding the 4 encoded bits 1110, trailing byte 4) `decode` computes the budget 4, with 16
bits available after the header; it returns 1 with `bits_read = 5` and writes the five
symbols "AAABB": the fifth bit, a padding bit, is walked as well. -/
theorem decode_reads_one_more :
    decode_total_bits (get_file_size ⟨file_AAAB, 5, none⟩) 5 4 = 4 ∧
    (decode ⟨4096, 4096⟩ (file_of [])
        { init_reader (file_of file_AAAB) with file := ⟨file_AAAB, 5, none⟩ } tree_AAAB 4).map
      (fun r => (r.1, r.2.1.data, r.2.2.bits_read))
      = some (1, [0x41, 0x41, 0x41, 0x42, 0x42], 5) := by
  decide!

theorem nonzero_count_count_chunk (S : List Nat) (hS : ∀ b ∈ S, b < 256) (hne : S ≠ []) :
    1 ≤ nonzero_count (count_chunk (fun _ => 0) S) := by
  cases S with
  | nil => exact absurd rfl hne
  | cons b S =>
    have hb := hS b (List.mem_cons_self _ _)
    have hcount : count_chunk (fun _ => 0) (b :: S) b ≠ 0 := by
      rw [count_chunk_apply]
      simp
    unfold nonzero_count
    apply List.length_pos_of_mem (a := b)
    rw [List.mem_filter]
    exact ⟨List.mem_range.mpr hb, by simpa using hcount⟩

/-- The budget of `decode` on a file made of a header of `h` bytes, `ceil(T / 8)` bytes
of bits and the trailing byte `T mod 8`. -/
theorem decode_total_bits_written (h T : Nat) (h1 : 1 ≤ T) (hlt : T < SIZE_T_MOD) :
    decode_total_bits (h + (T + 7) / 8 + 1) h (T % 8) = if T % 8 ≠ 0 then T else T - 8 := by
  unfold decode_total_bits
  simp only [SIZE_T_MOD] at hlt ⊢
  split <;> omega

/-- C36: for a non-empty input of bytes, `compress` (buffers of at least one byte, any
contents of the uninitialised blocks) returns 1; with `T` the number of encoded bits its
writer has counted (`1 <= T < 2^64`), the budget that `decode` computes on the written
file from its size, the end of the header and the trailing byte is `T` when
`T mod 8 != 0` and `T - 8` when `T mod 8 = 0`. -/
theorem decode_budget (cfg : Config) (memory : Uninit) (S : List Nat)
    (hr : 1 ≤ cfg.READ_BUFFER_SIZE) (hc : 1 ≤ cfg.OUTPUT_BUFFER_SIZE)
    (hS : ∀ b ∈ S, b < 256) (hne : S ≠ []) :
    ∃ T frequency_table list_size bit_padding f,
      (compress_writer cfg memory (file_of S) (file_of [])).map (fun bw => bw.total_bits)
        = some T ∧
      (compress cfg memory (file_of S) (file_of [])).1 = 1 ∧
      read_file_header (file_of (compress cfg memory (file_of S) (file_of [])).2.data)
        = some (frequency_table, list_size, bit_padding, f) ∧
      (1 ≤ T → T < SIZE_T_MOD →
        decode_total_bits (get_file_size f) f.pos bit_padding
          = if T % 8 ≠ 0 then T else T - 8) := by
  have hN := nonzero_count_count_chunk S hS hne
  obtain ⟨root, body, _, h2, h3, h4, h5⟩ := compress_shape cfg hr hc memory S hN
  have hread := read_file_header_of_header (count_chunk (fun _ => 0) S) hN body
    ((S.map (fun x => (generate_huffman_code memory.code_table 0 0 root x).length)).sum % 8)
    0 none
  rw [h4]
  refine ⟨(S.map (fun x => (generate_huffman_code memory.code_table 0 0 root x).length)).sum,
    scaled_table (count_chunk (fun _ => 0) S), nonzero_count (count_chunk (fun _ => 0) S),
    (S.map (fun x => (generate_huffman_code memory.code_table 0 0 root x).length)).sum % 8,
    ⟨header_bytes (count_chunk (fun _ => 0) S) ++ body ++
      [(S.map (fun x => (generate_huffman_code memory.code_table 0 0 root x).length)).sum % 8],
      1 + 2 * nonzero_count (count_chunk (fun _ => 0) S), none⟩, h2, h3, hread, ?_⟩
  · intro h1 hlt
    have := decode_total_bits_written (1 + 2 * nonzero_count (count_chunk (fun _ => 0) S))
      _ h1 hlt
    rw [← this]
    congr 1
    show (header_bytes (count_chunk (fun _ => 0) S) ++ body ++ [_]).length = _
    rw [List.length_append, List.length_append, header_bytes_length, h5]
    rfl

/-- Witness for `decode_budget`: the input "AAAB" with buffers of 4096 bytes. -/
theorem decode_budget_witness :
    ∃ T frequency_table list_size bit_padding f,
      (compress_writer ⟨4096, 4096⟩ zero_memory (file_of [0x41, 0x41, 0x41, 0x42])
        (file_of [])).map (fun bw => bw.total_bits) = some T ∧
      (compress ⟨4096, 4096⟩ zero_memory (file_of [0x41, 0x41, 0x41, 0x42]) (file_of [])).1 = 1 ∧
      read_file_header (file_of
          (compress ⟨4096, 4096⟩ zero_memory (file_of [0x41, 0x41, 0x41, 0x42])
            (file_of [])).2.data)
        = some (frequency_table, list_size, bit_padding, f) ∧
      (1 ≤ T → T < SIZE_T_MOD →
        decode_total_bits (get_file_size f) f.pos bit_padding
          = if T % 8 ≠ 0 then T else T - 8) :=
  decode_budget ⟨4096, 4096⟩ zero_memory [0x41, 0x41, 0x41, 0x42] (by decide) (by decide)
    (by decide) (by decide)

/-! ## Headers that `decompress` rejects -/

theorem read_pairs_pair_list : ∀ (n : Nat) (flat : List Nat) (t : Nat → Nat), flat.length ≤ n →
    read_pairs t flat = (pair_list flat).foldl (fun t p => Function.update t p.1 p.2) t := by
  intro n
  induction n with
  | zero =>
    intro flat t h
    have : flat = [] := List.length_eq_zero.mp (by omega)
    subst this
    rfl
  | succ n ih =>
    intro flat t h
    match flat with
    | [] => rfl
    | [_] => rfl
    | s :: c :: rest =>
      simp only [read_pairs, pair_list, List.foldl_cons]
      exact ih rest _ (by simp only [List.length_cons] at h; omega)

theorem pair_list_length : ∀ (n : Nat) (flat : List Nat), flat.length = 2 * n →
    (pair_list flat).length = n := by
  intro n
  induction n with
  | zero =>
    intro flat h
    have : flat = [] := List.length_eq_zero.mp (by omega)
    subst this
    rfl
  | succ n ih =>
    intro flat h
    match flat with
    | [] => simp at h
    | [_] => simp only [List.length_cons, List.length_nil] at h; omega
    | s :: c :: rest =>
      simp only [pair_list, List.length_cons]
      rw [ih rest (by simp only [List.length_cons] at h; omega)]

/-- An entry that is not zero after the pairs were stored was set by a pair, or was not
zero before. -/
theorem foldl_update_support (P : List (Nat × Nat)) :
    ∀ (t : Nat → Nat) (s : Nat), P.foldl (fun t p => Function.update t p.1 p.2) t s ≠ 0 →
      s ∈ P.map Prod.fst ∨ t s ≠ 0 := by
  induction P with
  | nil => intro t s h; exact Or.inr h
  | cons p P ih =>
    intro t s h
    rw [List.foldl_cons] at h
    rcases ih _ s h with h1 | h1
    · exact Or.inl (List.mem_cons_of_mem _ h1)
    · by_cases hs : s = p.1
      · subst hs; exact Or.inl (List.mem_cons_self _ _)
      · rw [Function.update_noteq hs] at h1
        exact Or.inr h1

/-- With pairwise distinct symbols every pair sets its entry for good. -/
theorem foldl_update_value (P : List (Nat × Nat)) :
    ∀ (t : Nat → Nat), (P.map Prod.fst).Nodup → ∀ p ∈ P,
      P.foldl (fun t p => Function.update t p.1 p.2) t p.1 = p.2 := by
  induction P with
  | nil => intro t _ p hp; simp at hp
  | cons q P ih =>
    intro t hnd p hp
    rw [List.map_cons, List.nodup_cons] at hnd
    rw [List.foldl_cons]
    rcases List.mem_cons.mp hp with h | h
    · subst h
      by_contra hne
      have hsup : ∀ (P : List (Nat × Nat)) (t : Nat → Nat) (s : Nat), s ∉ P.map Prod.fst →
          P.foldl (fun t p => Function.update t p.1 p.2) t s = t s := by
        intro P
        induction P with
        | nil => intro t s _; rfl
        | cons r P ih2 =>
          intro t s hs
          rw [List.map_cons, List.mem_cons, not_or] at hs
          rw [List.foldl_cons, ih2 _ s hs.2, Function.update_noteq hs.1]
      rw [hsup P _ p.1 hnd.1, Function.update_same] at hne
      exact hne rfl
    · exact ih _ hnd.2 p h

/-- A header that lists a symbol twice, or a pair with the frequency byte 0, gives a
table with fewer non-zero entries than it has pairs. -/
theorem nonzero_count_pairs (P : List (Nat × Nat))
    (hbad : ¬ (P.map Prod.fst).Nodup ∨ ∃ p ∈ P, p.2 = 0) :
    nonzero_count (P.foldl (fun t p => Function.update t p.1 p.2) (fun _ => 0)) < P.length := by
  rw [← present_symbols_length]
  have hsub : ∀ s ∈ present_symbols (P.foldl (fun t p => Function.update t p.1 p.2) (fun _ => 0)),
      s ∈ P.map Prod.fst ∧ P.foldl (fun t p => Function.update t p.1 p.2) (fun _ => 0) s ≠ 0 := by
    intro s hs
    unfold present_symbols at hs
    rw [List.mem_filter] at hs
    have h0 : P.foldl (fun t p => Function.update t p.1 p.2) (fun _ => 0) s ≠ 0 := by
      simpa using hs.2
    rcases foldl_update_support P _ s h0 with h | h
    · exact ⟨h, h0⟩
    · exact absurd rfl h
  have hnd := present_symbols_nodup (P.foldl (fun t p => Function.update t p.1 p.2) (fun _ => 0))
  by_cases hP : (P.map Prod.fst).Nodup
  · rcases hbad with h | ⟨p, hp, hp0⟩
    · exact absurd hP h
    · have hval := foldl_update_value P (fun _ => 0) hP p hp
      have hsub2 : present_symbols (P.foldl (fun t p => Function.update t p.1 p.2) (fun _ => 0))
          ⊆ (P.map Prod.fst).erase p.1 := by
        intro s hs
        obtain ⟨h1, h2⟩ := hsub s hs
        have hne : s ≠ p.1 := by
          intro e
          rw [e, hval, hp0] at h2
          exact h2 rfl
        exact (List.mem_erase_of_ne hne).mpr h1
      have hle := (List.subperm_of_subset hnd hsub2).length_le
      have hmem : p.1 ∈ P.map Prod.fst := List.mem_map_of_mem _ hp
      rw [List.length_erase_of_mem hmem, List.length_map] at hle
      have : 0 < P.length := List.length_pos_of_mem hp
      omega
  · have hsub2 : present_symbols (P.foldl (fun t p => Function.update t p.1 p.2) (fun _ => 0))
        ⊆ (P.map Prod.fst).dedup := by
      intro s hs
      exact List.mem_dedup.mpr (hsub s hs).1
    have hle := (List.subperm_of_subset hnd hsub2).length_le
    have hlt : (P.map Prod.fst).dedup.length < (P.map Prod.fst).length := by
      have hs := List.dedup_sublist (P.map Prod.fst)
      rcases Nat.lt_or_ge (P.map Prod.fst).dedup.length (P.map Prod.fst).length with h | h
      · exact h
      · exact absurd (List.dedup_eq_self.mp (hs.eq_of_length_le h)) hP
    rw [List.length_map] at hlt
    omega

/-- The heap never holds more nodes than `fill_minheap` has met non-zero entries. -/
theorem fill_minheap_size_le (t : Nat → Nat) (scale : Nat) :
    ∀ (L : List Nat) (st : Heap Node × Bool),
      (L.foldl (fill_minheap_step t scale) st).1.size
        ≤ st.1.size + (L.filter (fun i => t i ≠ 0)).length := by
  intro L
  induction L with
  | nil => intro st; simp
  | cons i L ih =>
    intro st
    rw [List.foldl_cons]
    refine le_trans (ih _) ?_
    have hstep : (fill_minheap_step t scale st i).1.size
        ≤ st.1.size + (if t i ≠ 0 then 1 else 0) := by
      unfold fill_minheap_step
      by_cases hflag : st.2 = true
      · simp [hflag]
      · by_cases h0 : t i ≠ 0
        · simp only [hflag, Bool.false_eq_true, if_false, h0, ne_eq, not_false_eq_true, if_true]
          by_cases hfull : st.1.size ≥ st.1.max_size
          · have e : ∀ x, heap_insert st.1 x = (-1, st.1) := by
              intro x; simp [heap_insert, hfull]
            simp [e]
          · obtain ⟨index, h', e, hs, _⟩ := heap_insert_ok st.1
              (Node.leaf i (if scale_down (t i) scale = 0 then scale_down (t i) scale + 1
                else scale_down (t i) scale)) (by omega)
            rw [e]
            have hne : ¬ ((index : Int) = -1) := by omega
            simp only [hne, if_false, hs]
            omega
        · simp [hflag, h0]
    by_cases h0 : t i ≠ 0
    · rw [if_pos h0] at hstep
      simp only [List.filter_cons, h0, ne_eq, not_false_eq_true, decide_True, if_true,
        List.length_cons]
      omega
    · rw [if_neg h0] at hstep
      simp only [List.filter_cons, h0, ne_eq, decide_False, Bool.false_eq_true, if_false]
      omega

/-- The tree of `decompress` is not built when the table has fewer non-zero entries than
the list size of the header. -/
theorem decompress_tree_short (t : Nat → Nat) (list_size : Nat)
    (h : nonzero_count t < list_size) : decompress_tree t list_size = none := by
  have hle := fill_minheap_size_le t 0 (List.range FREQUENCY_TABLE_SIZE)
    (create_priority_queue list_size compare_nodes, false)
  have hsize : (fill_minheap t (create_priority_queue list_size compare_nodes) 0).1
      ≤ nonzero_count t := by
    have e : (fill_minheap t (create_priority_queue list_size compare_nodes) 0).1
        = ((List.range FREQUENCY_TABLE_SIZE).foldl (fill_minheap_step t 0)
            (create_priority_queue list_size compare_nodes, false)).1.size := by
      unfold fill_minheap
      dsimp only
    have h0 : (create_priority_queue list_size compare_nodes, false).1.size = 0 := rfl
    rw [h0] at hle
    rw [e]
    unfold nonzero_count
    omega
  unfold decompress_tree
  have hlt : (fill_minheap t (create_priority_queue list_size compare_nodes) 0).1 < list_size := by
    omega
  simp only [hlt, if_true]

/-- What `read_file_header` returns on a file that starts with the count byte `c` and
`c + 1` pairs. -/
theorem read_file_header_pairs (c : Nat) (pairs rest : List Nat) (pos : Nat)
    (room : Option Nat) (hlen : pairs.length = 2 * (c + 1)) :
    read_file_header ⟨c :: (pairs ++ rest), pos, room⟩ = none ∨
      ∃ p f, read_file_header ⟨c :: (pairs ++ rest), pos, room⟩
        = some (read_pairs (fun _ => 0) pairs, c + 1, p, f) := by
  have h1 : List.take ((c + 1) * 2) (pairs ++ rest) = pairs := by
    rw [Nat.mul_comm, ← hlen]; exact List.take_left' rfl
  unfold read_file_header
  simp only [fread, List.drop_zero, List.take_succ_cons, List.take_zero, List.length_cons,
    List.length_nil, Nat.zero_add, List.drop_succ_cons, h1]
  have h2 : ¬ pairs.length < (c + 1) * 2 := by omega
  simp only [h2, if_false]
  split
  · exact Or.inl rfl
  · exact Or.inr ⟨_, _, rfl⟩

/-- C40: for every file that starts with a count byte `c` followed by `c + 1` pairs, of
which two list the same symbol or one has the frequency byte 0, `decompress` returns 0
and leaves the output stream as it was: `fill_minheap` inserts fewer leaves than the list
size `c + 1`. -/
theorem decompress_rejects_header (cfg : Config) (c : Nat) (pairs rest : List Nat)
    (pos : Nat) (room : Option Nat) (output_file : FILE)
    (hlen : pairs.length = 2 * (c + 1))
    (hbad : ¬ ((pair_list pairs).map Prod.fst).Nodup ∨ ∃ p ∈ pair_list pairs, p.2 = 0) :
    decompress_tree (read_pairs (fun _ => 0) pairs) (c + 1) = none ∧
      decompress cfg ⟨c :: (pairs ++ rest), pos, room⟩ output_file = some (0, output_file) := by
  have hshort : decompress_tree (read_pairs (fun _ => 0) pairs) (c + 1) = none := by
    apply decompress_tree_short
    rw [read_pairs_pair_list pairs.length pairs _ (le_refl _)]
    have := nonzero_count_pairs (pair_list pairs) hbad
    rwa [pair_list_length (c + 1) pairs hlen] at this
  refine ⟨hshort, ?_⟩
  unfold decompress
  rcases read_file_header_pairs c pairs rest pos room hlen with h | ⟨p, f, h⟩
  · simp only [h]
  · simp only [h, hshort]

/-- Witness for `decompress_rejects_header`: a header of two pairs that both list A. -/
theorem decompress_rejects_header_witness :
    decompress_tree (read_pairs (fun _ => 0) [0x41, 3, 0x41, 1]) (1 + 1) = none ∧
      decompress ⟨4096, 4096⟩ ⟨1 :: ([0x41, 3, 0x41, 1] ++ [0xE0, 4]), 0, none⟩ (file_of [])
        = some (0, file_of []) :=
  decompress_rejects_header ⟨4096, 4096⟩ 1 [0x41, 3, 0x41, 1] [0xE0, 4] 0 none (file_of [])
    (by decide) (Or.inl (by decide))

/-! ## The bytes `compress` writes with a zeroed buffer -/

theorem fwrite_after (pre : List Nat) (f : FILE) (bytes : List Nat) :
    fwrite (f.after pre) bytes = ((fwrite f bytes).1, (fwrite f bytes).2.after pre) := by
  unfold fwrite FILE.after
  cases f.room with
  | none => simp
  | some r => simp

theorem write_bits_step_after (cfg : Config) (code length : Nat) (pre : List Nat)
    (st : BitWriter × Bool) (i : Nat) :
    write_bits_step cfg code length (st.1.after pre, st.2) i
      = ((write_bits_step cfg code length st i).1.after pre,
          (write_bits_step cfg code length st i).2) := by
  obtain ⟨bw, fl⟩ := st
  unfold write_bits_step
  cases fl with
  | true => rfl
  | false =>
    simp only [Bool.false_eq_true, if_false]
    by_cases hfull : bw.bit_count / 8 ≥ cfg.OUTPUT_BUFFER_SIZE
    · have e1 : (bw.after pre).bit_count = bw.bit_count := rfl
      have e2 : (bw.after pre).buffer = bw.buffer := rfl
      have e3 : (bw.after pre).file = bw.file.after pre := rfl
      simp only [e1, e2, e3, hfull, if_true, fwrite_after]
      split <;> rfl
    · have e1 : (bw.after pre).bit_count = bw.bit_count := rfl
      simp only [e1, hfull, if_false]
      rfl

theorem write_bits_fold_after (cfg : Config) (code length : Nat) (pre : List Nat)
    (is : List Nat) :
    ∀ (st : BitWriter × Bool),
      is.foldl (write_bits_step cfg code length) (st.1.after pre, st.2)
        = ((is.foldl (write_bits_step cfg code length) st).1.after pre,
            (is.foldl (write_bits_step cfg code length) st).2) := by
  induction is with
  | nil => intro st; rfl
  | cons i is ih =>
    intro st
    rw [List.foldl_cons, List.foldl_cons, write_bits_step_after]
    exact ih _

/-- What `write_bits` does is the same whatever the sink already holds. -/
theorem write_bits_after (cfg : Config) (pre : List Nat) (bw : BitWriter) (code length : Nat) :
    write_bits cfg (bw.after pre) code length
      = ((write_bits cfg bw code length).1, (write_bits cfg bw code length).2.after pre) := by
  unfold write_bits
  by_cases h0 : length = 0
  · simp [h0]
  · simp only [h0, if_false]
    have := write_bits_fold_after cfg code length pre (List.range length) (bw, false)
    simp only at this
    rw [this]
    split <;> rfl

theorem flush_writer_after (pre : List Nat) (bw : BitWriter) :
    flush_writer (bw.after pre)
      = ((flush_writer bw).1, (flush_writer bw).2.after pre) := by
  unfold flush_writer
  have e1 : (bw.after pre).bit_count = bw.bit_count := rfl
  have e2 : (bw.after pre).buffer = bw.buffer := rfl
  have e3 : (bw.after pre).file = bw.file.after pre := rfl
  simp only [e1, e2, e3, fwrite_after]
  split
  · split <;> rfl
  · rfl

theorem encode_step_after (cfg : Config) (ct : Nat → Code) (pre : List Nat)
    (st : BitWriter × Bool) (x : Nat) :
    encode_step cfg ct (st.1.after pre, st.2) x
      = ((encode_step cfg ct st x).1.after pre, (encode_step cfg ct st x).2) := by
  obtain ⟨bw, fl⟩ := st
  unfold encode_step
  cases fl with
  | true => rfl
  | false =>
    simp only [Bool.false_eq_true, if_false, write_bits_after]
    split <;> rfl

theorem encode_fold_after (cfg : Config) (ct : Nat → Code) (pre : List Nat) (xs : List Nat) :
    ∀ (st : BitWriter × Bool),
      xs.foldl (encode_step cfg ct) (st.1.after pre, st.2)
        = ((xs.foldl (encode_step cfg ct) st).1.after pre,
            (xs.foldl (encode_step cfg ct) st).2) := by
  induction xs with
  | nil => intro st; rfl
  | cons x xs ih =>
    intro st
    rw [List.foldl_cons, List.foldl_cons, encode_step_after]
    exact ih _

/-- The loop of `encode` over the symbols `xs`, on a zeroed buffer: the writer takes the
bits of the codes of the symbols, in order. -/
theorem encode_fold_inv (cfg : Config) (hc : 1 ≤ cfg.OUTPUT_BUFFER_SIZE)
    (ct : Nat → Code) (xs : List Nat) :
    ∀ (bw : BitWriter) (bits : List Nat), WriterInv cfg.OUTPUT_BUFFER_SIZE bw bits →
      (xs.foldl (encode_step cfg ct) (bw, false)).2 = false ∧
        WriterInv cfg.OUTPUT_BUFFER_SIZE (xs.foldl (encode_step cfg ct) (bw, false)).1
          (bits ++ encoded_bits ct xs) := by
  induction xs with
  | nil => intro bw bits h; exact ⟨rfl, by simpa [encoded_bits] using h⟩
  | cons x xs ih =>
    intro bw bits h
    have hs : encode_step cfg ct (bw, false) x
        = ((encode_step cfg ct (bw, false) x).1, false) ∧
        WriterInv cfg.OUTPUT_BUFFER_SIZE (encode_step cfg ct (bw, false) x).1
          (bits ++ code_bits (ct x).code (ct x).length) := by
      unfold encode_step
      simp only [Bool.false_eq_true, if_false]
      by_cases hl : (ct x).length > 0
      · obtain ⟨w1, w2⟩ := write_bits_inv cfg hc (ct x).code (ct x).length bw bits h
        have hne : ¬ (write_bits cfg bw (ct x).code (ct x).length).1 = -1 := by
          rw [w1]; omega
        simp only [hl, if_true, hne, decide_False]
        exact ⟨trivial, w2⟩
      · simp only [hl, if_false]
        have : (ct x).length = 0 := by omega
        rw [this]
        exact ⟨trivial, by simpa [code_bits] using h⟩
    rw [List.foldl_cons, hs.1]
    have := ih _ _ hs.2
    rw [List.append_assoc] at this
    simpa [encoded_bits] using this

theorem flush_writer_total_bits (bw : BitWriter) :
    (flush_writer bw).2.total_bits = bw.total_bits := by
  unfold flush_writer
  dsimp only
  split_ifs <;> rfl

theorem writerInv_count (cap : Nat) (bw : BitWriter) (bits : List Nat)
    (h : WriterInv cap bw bits) : WriterCount cap bw [] bits.length := by
  obtain ⟨k, hlen, hcap, hroom, htot, hdata, _⟩ := h
  refine ⟨hroom, hcap, htot, bw.file.data, rfl, ?_⟩
  rw [hdata, List.length_map, List.length_range]
  exact hlen

/-- The function `encode` on a zeroed buffer and a sink without limit that already holds
`pre`: it returns 1 and the sink then holds `pre` and the packed bits of the codes. -/
theorem encode_content (cfg : Config) (hr : 1 ≤ cfg.READ_BUFFER_SIZE)
    (hc : 1 ≤ cfg.OUTPUT_BUFFER_SIZE) (ct : Nat → Code) (input_file : FILE) (bw : BitWriter)
    (pre : List Nat) (h : WriterInv cfg.OUTPUT_BUFFER_SIZE bw []) :
    (encode cfg input_file (bw.after pre) ct).1 = 1 ∧
      (encode cfg input_file (bw.after pre) ct).2.total_bits
        = (encoded_bits ct input_file.data).length ∧
      (encode cfg input_file (bw.after pre) ct).2.file.room = none ∧
      (encode cfg input_file (bw.after pre) ct).2.file.data
        = pre ++ pack_bytes (encoded_bits ct input_file.data) := by
  have hloop := encode_loop_eq cfg hr ct (input_file.data.length + 1)
    { input_file with pos := 0 } (bw.after pre) (by show input_file.data.length - 0 < _; omega)
  have hdrop : ({ input_file with pos := 0 } : FILE).data.drop
      ({ input_file with pos := 0 } : FILE).pos = input_file.data := rfl
  rw [hdrop] at hloop
  have hafter := encode_fold_after cfg ct pre input_file.data (bw, false)
  have hfold := encode_fold_inv cfg hc ct input_file.data bw [] h
  rw [List.nil_append] at hfold
  obtain ⟨g1, g2, g3, _⟩ := flush_writer_count _ _ _ _ (writerInv_count _ _ _ hfold.2)
  have g4 := (flush_writer_inv _ _ _ hfold.2).1
  unfold encode
  simp only [hloop, hafter, hfold.1, Bool.not_false, if_true, flush_writer_after, g1, if_false]
  exact ⟨trivial, g2, g3, by show pre ++ _ = _; rw [g4]⟩

/-- Content of the output of `compress` on a sink without limit when the writer's buffer
block is zero at allocation: the header, the packed bits of the codes of the input's
symbols, and the byte `T mod 8` for the number `T` of those bits. -/
theorem compress_content (cfg : Config) (hr : 1 ≤ cfg.READ_BUFFER_SIZE)
    (hc : 1 ≤ cfg.OUTPUT_BUFFER_SIZE) (memory : Uninit)
    (hzero : ∀ i, memory.writer_buffer i = 0) (S : List Nat) (root : Node)
    (hN : 1 ≤ nonzero_count (count_chunk (fun _ => 0) S))
    (htree : compress_tree (count_chunk (fun _ => 0) S) = some root) :
    (compress_writer cfg memory (file_of S) (file_of [])).map (fun bw => bw.total_bits)
        = some (encoded_bits (generate_huffman_code memory.code_table 0 0 root) S).length ∧
      (compress cfg memory (file_of S) (file_of [])).1 = 1 ∧
      (compress cfg memory (file_of S) (file_of [])).2.data
        = header_bytes (count_chunk (fun _ => 0) S) ++
          pack_bytes (encoded_bits (generate_huffman_code memory.code_table 0 0 root) S) ++
          [(encoded_bits (generate_huffman_code memory.code_table 0 0 root) S).length % 8] := by
  have hc1 : (count_run cfg (file_of S)).1 = count_chunk (fun _ => 0) S :=
    count_run_file_of cfg hr S
  have hd : (count_run cfg (file_of S)).2.data = S := count_run_data cfg (file_of S)
  obtain ⟨hh, _, _⟩ := write_file_header_spec (count_chunk (fun _ => 0) S) (file_of []) rfl hN
  have hbuf : (fun i => memory.writer_buffer i % 256) = (fun _ => 0) := by
    funext i; rw [hzero i]
  have hw : ({ init_writer memory.writer_buffer (file_of []) with
        file := { file_of [] with
          data := (file_of []).data ++ header_bytes (count_chunk (fun _ => 0) S)
          pos := (file_of []).pos + (1 + 2 * nonzero_count (count_chunk (fun _ => 0) S)) } }
        : BitWriter)
      = (init_writer (fun _ => 0)
          ⟨[], (file_of []).pos + (1 + 2 * nonzero_count (count_chunk (fun _ => 0) S)),
            none⟩).after (header_bytes (count_chunk (fun _ => 0) S)) := by
    unfold init_writer BitWriter.after FILE.after
    simp only [hbuf, file_of, List.nil_append, List.append_nil, Nat.zero_mod]
  obtain ⟨e1, e2, e3, e4⟩ := encode_content cfg hr hc
    (generate_huffman_code memory.code_table 0 0 root) (count_run cfg (file_of S)).2 _
    (header_bytes (count_chunk (fun _ => 0) S))
    (init_writer_inv cfg.OUTPUT_BUFFER_SIZE
      ⟨[], (file_of []).pos + (1 + 2 * nonzero_count (count_chunk (fun _ => 0) S)), none⟩
      rfl rfl)
  rw [hd] at e2 e4
  rw [← hw] at e1 e2 e3 e4
  refine ⟨?_, ?_, ?_⟩
  · unfold compress_writer
    simp only [hc1, htree, hh, e1, one_ne_zero, if_false, Option.map_some', e2]
  · unfold compress
    simp only [hc1, htree, hh, e1, one_ne_zero, if_false]
    rw [fwrite_none _ _ e3]
    rfl
  · unfold compress
    simp only [hc1, htree, hh, e1, one_ne_zero, if_false]
    rw [fwrite_none _ _ e3]
    show (encode cfg _ _ _).2.file.data ++ _ = _
    rw [e4, e2]

/-! ## The bits of the packed bytes -/

theorem getD_le_one (l : List Nat) (hl : ∀ b ∈ l, b ≤ 1) (i : Nat) : l.getD i 0 ≤ 1 := by
  by_cases h : i < l.length
  · rw [List.getD_eq_getElem _ _ h]; exact hl _ (List.getElem_mem _)
  · rw [List.getD_eq_default _ _ (by omega)]; omega

theorem byte_value_bit (l : List Nat) (hl : ∀ b ∈ l, b ≤ 1) (i : Nat) (hi : i < 8) :
    byte_value l / 2 ^ (7 - i) % 2 = l.getD i 0 := by
  have h0 := getD_le_one l hl 0
  have h1 := getD_le_one l hl 1
  have h2 := getD_le_one l hl 2
  have h3 := getD_le_one l hl 3
  have h4 := getD_le_one l hl 4
  have h5 := getD_le_one l hl 5
  have h6 := getD_le_one l hl 6
  have h7 := getD_le_one l hl 7
  unfold byte_value
  interval_cases i
  · show _ / 128 % 2 = _; omega
  · show _ / 64 % 2 = _; omega
  · show _ / 32 % 2 = _; omega
  · show _ / 16 % 2 = _; omega
  · show _ / 8 % 2 = _; omega
  · show _ / 4 % 2 = _; omega
  · show _ / 2 % 2 = _; omega
  · show _ / 1 % 2 = _; omega

theorem pack_bytes_getD (bits : List Nat) (j : Nat) :
    (pack_bytes bits).getD j 0 = byte_value (bits.drop (8 * j)) := by
  unfold pack_bytes
  by_cases h : j < (bits.length + 7) / 8
  · rw [List.getD_eq_getElem _ _ (by simpa using h)]
    simp
  · rw [List.getD_eq_default _ _ (by simp; omega)]
    rw [List.drop_eq_nil_of_le (by omega)]
    rfl

/-- Bit `k` of the packed bytes, most significant bit of a byte first, is bit `k` of the
sequence (0 in the padding). -/
theorem pack_bytes_bit (bits : List Nat) (hl : ∀ b ∈ bits, b ≤ 1) (k : Nat) :
    (pack_bytes bits).getD (k / 8) 0 / 2 ^ (7 - k % 8) % 2 = bits.getD k 0 := by
  rw [pack_bytes_getD, byte_value_bit _ (fun b hb => hl b (List.mem_of_mem_drop hb)) _
    (Nat.mod_lt _ (by decide))]
  simp only [List.getD_eq_getElem?_getD, List.getElem?_drop]
  rw [Nat.div_add_mod]

theorem code_bits_le (code length : Nat) : ∀ b ∈ code_bits code length, b ≤ 1 := by
  intro b hb
  obtain ⟨i, _, rfl⟩ := List.mem_map.mp hb
  omega

theorem encoded_bits_le (ct : Nat → Code) (S : List Nat) : ∀ b ∈ encoded_bits ct S, b ≤ 1 := by
  intro b hb
  obtain ⟨x, _, hx⟩ := List.mem_flatMap.mp hb
  exact code_bits_le _ _ b hx

/-! ## Reading with an advanced counter -/

theorem read_bits_ahead (cfg : Config) (c : Nat) (br : BitReader) :
    read_bits cfg (br.ahead c) = ((read_bits cfg br).1, (read_bits cfg br).2.ahead c) := by
  unfold read_bits BitReader.ahead take_bit
  dsimp only
  split_ifs <;> simp <;> omega

/-- A call of `read_bits` on a reader whose counter started `c` bits into the bytes `B`. -/
theorem read_bits_ahead_live (cfg : Config) (hc : 1 ≤ cfg.READ_BUFFER_SIZE) (B : List Nat)
    (c : Nat) (br : BitReader) (h : ReaderLive B (br.ahead c))
    (hlt : br.bits_read + c < 8 * B.length) :
    (read_bits cfg br).1
        = ((B.getD ((br.bits_read + c) / 8) 0 / 2 ^ (7 - (br.bits_read + c) % 8) % 2 : Nat)
            : Int) ∧
      ReaderLive B ((read_bits cfg br).2.ahead c) ∧
      (read_bits cfg br).2.bits_read = br.bits_read + 1 := by
  obtain ⟨a1, a2, a3⟩ := read_bits_live cfg hc B (br.ahead c) h hlt
  rw [read_bits_ahead] at a1 a2 a3
  refine ⟨a1, a2, ?_⟩
  have : (read_bits cfg br).2.bits_read + c = br.bits_read + c + 1 := a3
  omega

/-! ## The loop of `decode` follows the reference decoder -/

/-- The loop of `decode` on a sink without limit, for a reader whose counter started `c`
bits into the bytes `B` and a budget of `tb` bits: when bit `n + c` of `B` is `stream[n]`
for the `tb + 1` bits of `stream`, the loop reads them all and delivers (to the sink or
to the pending buffer) the symbols the reference decoder reaches. -/
theorem decode_loop_walk (cfg : Config) (hc : 1 ≤ cfg.READ_BUFFER_SIZE) (root : Node)
    (B : List Nat) (c tb : Nat) (stream : List Nat) (hlen : stream.length = tb + 1)
    (hstream : ∀ n, n < stream.length → n + c < 8 * B.length ∧
      B.getD ((n + c) / 8) 0 / 2 ^ (7 - (n + c) % 8) % 2 = stream.getD n 0) :
    ∀ (fuel : Nat) (br : BitReader) (current : Node) (pending : List Nat) (out : FILE)
      (syms : List Nat),
      ReaderLive B (br.ahead c) → out.room = none → br.bits_read ≤ stream.length →
      stream.length < br.bits_read + fuel →
      walk_bits root current (stream.drop br.bits_read) = some syms →
      ∃ out1 br1 pending1,
        decode_loop cfg root tb fuel br current pending out = some (true, out1, br1, pending1) ∧
        out1.room = none ∧ out1.data ++ pending1 = out.data ++ pending ++ syms := by
  intro fuel
  induction fuel with
  | zero => intro br current pending out syms _ _ h1 h2 _; omega
  | succ fuel ih =>
    intro br current pending out syms hlive hroom hle hfuel hwalk
    unfold decode_loop
    by_cases hb : br.bits_read ≤ tb
    · have hlt : br.bits_read < stream.length := by omega
      obtain ⟨s1, s2⟩ := hstream br.bits_read hlt
      obtain ⟨r1, r2, r3⟩ := read_bits_ahead_live cfg hc B c br hlive s1
      rw [s2] at r1
      have hdrop : stream.drop br.bits_read
          = stream.getD br.bits_read 0 :: stream.drop (br.bits_read + 1) := by
        rw [List.getD_eq_getElem _ _ hlt]
        exact List.drop_eq_getElem_cons hlt
      rw [hdrop] at hwalk
      have hne : ¬ (read_bits cfg br).1 = -1 := by rw [r1]; omega
      have hbit : ((read_bits cfg br).1 ≠ 0) = (stream.getD br.bits_read 0 ≠ 0) := by
        rw [r1]; simp
      simp only [hb, if_true, hne, if_false]
      cases current with
      | leaf s f => simp [walk_bits] at hwalk
      | inner s f l r =>
        simp only [walk_bits] at hwalk
        simp only [hbit]
        generalize (if stream.getD br.bits_read 0 ≠ 0 then r else l) = next at hwalk ⊢
        cases next with
        | leaf symbol fr =>
          simp only [Option.map_eq_some'] at hwalk
          obtain ⟨rest, hrest, rfl⟩ := hwalk
          rw [← r3] at hrest
          by_cases hfull : (pending ++ [symbol]).length ≥ cfg.READ_BUFFER_SIZE
          · simp only [hfull, if_true, fwrite_none _ _ hroom, Nat.lt_irrefl, if_false]
            obtain ⟨o1, b1, p1, e1, e2, e3⟩ := ih (read_bits cfg br).2 root []
              { out with data := out.data ++ (pending ++ [symbol])
                         pos := out.pos + (pending ++ [symbol]).length } rest r2 hroom
              (by omega) (by omega) hrest
            refine ⟨o1, b1, p1, e1, e2, ?_⟩
            rw [e3]
            simp
          · simp only [hfull, if_false]
            obtain ⟨o1, b1, p1, e1, e2, e3⟩ := ih (read_bits cfg br).2 root
              (pending ++ [symbol]) out rest r2 hroom (by omega) (by omega) hrest
            refine ⟨o1, b1, p1, e1, e2, ?_⟩
            rw [e3]
            simp
        | inner s2 f2 l2 r2n =>
          simp only at hwalk
          rw [← r3] at hwalk
          exact ih (read_bits cfg br).2 _ pending out syms r2 hroom (by omega) (by omega) hwalk
    · have he : br.bits_read = stream.length := by omega
      rw [he, List.drop_length] at hwalk
      have : syms = [] := by
        cases current <;> simp [walk_bits] at hwalk <;> exact hwalk
      subst this
      simp only [hb, if_false]
      exact ⟨out, br, pending, rfl, hroom, by simp⟩

/-! ## The reference decoder on the bits of paths -/

theorem walk_bits_path (root : Node) (current : Node) :
    ∀ s f l r, current = .inner s f l r → ∀ p ∈ current.paths, ∀ rest,
      walk_bits root current (path_bits p.2 ++ rest)
        = (walk_bits root root rest).map (fun out => p.1 :: out) := by
  induction current with
  | leaf s f => intro s1 f1 l r h; cases h
  | inner s f l r ihl ihr =>
    intro s1 f1 l1 r1 _ p hp rest
    simp only [Node.paths, List.mem_append, List.mem_map] at hp
    rcases hp with ⟨q, hq, rfl⟩ | ⟨q, hq, rfl⟩
    · show walk_bits root (.inner s f l r) (0 :: (path_bits q.2 ++ rest)) = _
      cases l with
      | leaf sl fl =>
        simp only [Node.paths, List.mem_singleton] at hq
        subst hq
        simp [walk_bits, path_bits]
      | inner sl fl ll lr =>
        have := ihl sl fl ll lr rfl q hq rest
        simpa [walk_bits] using this
    · show walk_bits root (.inner s f l r) (1 :: (path_bits q.2 ++ rest)) = _
      cases r with
      | leaf sr fr =>
        simp only [Node.paths, List.mem_singleton] at hq
        subst hq
        simp [walk_bits, path_bits]
      | inner sr fr rl rr =>
        have := ihr sr fr rl rr rfl q hq rest
        simpa [walk_bits] using this

theorem walk_bits_paths (root : Node) (s f : Nat) (l r : Node) (hroot : root = .inner s f l r)
    (ps : List (Nat × List Bool)) (hps : ∀ p ∈ ps, p ∈ root.paths) (rest : List Nat) :
    walk_bits root root (ps.flatMap (fun p => path_bits p.2) ++ rest)
      = (walk_bits root root rest).map (fun out => ps.map Prod.fst ++ out) := by
  induction ps with
  | nil => simp
  | cons p ps ih =>
    rw [List.flatMap_cons, List.append_assoc,
      walk_bits_path root root s f l r hroot p (hps p (List.mem_cons_self _ _)),
      ih (fun q hq => hps q (List.mem_cons_of_mem _ hq))]
    simp [Option.map_map, Function.comp_def]

/-! ## Round trip -/

theorem encoded_bits_paths (R : Node) (ct : Nat → Code)
    (hnd : (R.leaves.map Prod.fst).Nodup) (hh : R.height ≤ 32) (h1 : 1 ≤ R.height)
    (S : List Nat) (hS : ∀ x ∈ S, x ∈ R.leaves.map Prod.fst) :
    ∃ ps : List (Nat × List Bool), ps.map Prod.fst = S ∧ (∀ p ∈ ps, p ∈ R.paths) ∧
      ps.flatMap (fun p => path_bits p.2) = encoded_bits (generate_huffman_code ct 0 0 R) S := by
  induction S with
  | nil => exact ⟨[], rfl, by simp, rfl⟩
  | cons x S ih =>
    obtain ⟨ps, q1, q2, q3⟩ := ih (fun y hy => hS y (List.mem_cons_of_mem _ hy))
    have hx := hS x (List.mem_cons_self _ _)
    rw [← paths_symbols] at hx
    obtain ⟨p, hp, rfl⟩ := List.mem_map.mp hx
    have hg := generate_code R ct 0 0 hnd (by omega) (Or.inr h1) (by decide) p hp
    refine ⟨p :: ps, by rw [List.map_cons, q1], ?_, ?_⟩
    · intro q hq
      rcases List.mem_cons.mp hq with rfl | hq
      · exact hp
      · exact q2 q hq
    · rw [List.flatMap_cons, q3]
      show _ = code_bits _ _ ++ encoded_bits _ S
      rw [hg]
      simp only [Nat.zero_add, Nat.zero_mul]
      have := code_bits_value (path_bits p.2) (path_bits_le p.2)
      rw [path_bits_length] at this
      rw [this]

/-- The function `decompress` on a file made of the header of the table `t`, the packed
bits `bits` (their number not a multiple of 8) and the byte `T mod 8`: when the reference
decoder reaches the symbols `syms` on `bits` followed by one padding bit, `decompress`
returns 1 and writes `syms`. -/
theorem decompress_written (cfg : Config) (hr : 1 ≤ cfg.READ_BUFFER_SIZE) (t : Nat → Nat)
    (hN : 1 ≤ nonzero_count t) (R : Node) (htree : compress_tree t = some R)
    (bits : List Nat) (hbits : ∀ b ∈ bits, b ≤ 1) (h8 : bits.length % 8 ≠ 0)
    (hlt : bits.length < SIZE_T_MOD) (syms : List Nat)
    (hwalk : walk_bits R R (bits ++ [0]) = some syms) :
    (decompress cfg (file_of (header_bytes t ++ pack_bytes bits ++ [bits.length % 8]))
        (file_of [])).map (fun r => (r.1, r.2.data)) = some (1, syms) := by
  have hhl := header_bytes_length t
  have hpl : (pack_bytes bits).length = (bits.length + 7) / 8 := by
    unfold pack_bytes; rw [List.length_map, List.length_range]
  have hBl : (header_bytes t ++ pack_bytes bits ++ [bits.length % 8]).length
      = (1 + 2 * nonzero_count t) + (bits.length + 7) / 8 + 1 := by
    rw [List.length_append, List.length_append, hhl, hpl]; rfl
  have htb : decode_total_bits
      (header_bytes t ++ pack_bytes bits ++ [bits.length % 8]).length
      (1 + 2 * nonzero_count t) (bits.length % 8) = bits.length := by
    rw [hBl, decode_total_bits_written _ _ (by omega) hlt, if_pos h8]
  have hstream : ∀ n, n < (bits ++ [0]).length →
      n + 8 * (1 + 2 * nonzero_count t)
        < 8 * (header_bytes t ++ pack_bytes bits ++ [bits.length % 8]).length ∧
      (header_bytes t ++ pack_bytes bits ++ [bits.length % 8]).getD
          ((n + 8 * (1 + 2 * nonzero_count t)) / 8) 0
        / 2 ^ (7 - (n + 8 * (1 + 2 * nonzero_count t)) % 8) % 2 = (bits ++ [0]).getD n 0 := by
    intro n hn
    rw [List.length_append, List.length_singleton] at hn
    have hdiv : (n + 8 * (1 + 2 * nonzero_count t)) / 8 = (1 + 2 * nonzero_count t) + n / 8 := by
      omega
    have hmod : (n + 8 * (1 + 2 * nonzero_count t)) % 8 = n % 8 := by omega
    have hn8 : n / 8 < (pack_bytes bits).length := by rw [hpl]; omega
    refine ⟨by rw [hBl]; omega, ?_⟩
    rw [hdiv, hmod, List.append_assoc, ← hhl]
    have e1 : (header_bytes t ++ (pack_bytes bits ++ [bits.length % 8])).getD
        ((header_bytes t).length + n / 8) 0 = (pack_bytes bits).getD (n / 8) 0 := by
      simp only [List.getD_eq_getElem?_getD]
      rw [List.getElem?_append_right (by omega), Nat.add_sub_cancel_left,
        List.getElem?_append_left hn8]
    rw [e1, pack_bytes_bit bits hbits n]
    simp only [List.getD_eq_getElem?_getD]
    by_cases hnl : n < bits.length
    · rw [List.getElem?_append_left hnl]
    · have : n = bits.length := by omega
      subst this
      simp
  have hlive : ReaderLive (header_bytes t ++ pack_bytes bits ++ [bits.length % 8])
      (BitReader.ahead (8 * (1 + 2 * nonzero_count t))
        { init_reader (file_of (header_bytes t ++ pack_bytes bits ++ [bits.length % 8])) with
          file := ⟨header_bytes t ++ pack_bytes bits ++ [bits.length % 8],
            1 + 2 * nonzero_count t, none⟩ }) := by
    refine ⟨rfl, Nat.le_refl 8, 1 + 2 * nonzero_count t, rfl, ?_, Nat.le_refl 0, ?_, ?_, ?_⟩
    · show 1 + 2 * nonzero_count t ≤ _
      rw [hBl]; omega
    · intro h; exact absurd h (Nat.lt_irrefl 8)
    · show 0 + 8 * (1 + 2 * nonzero_count t) + 8 = 8 * (1 + 2 * nonzero_count t + 0) + 8
      omega
    · intro i hi; exact absurd hi (Nat.not_lt_zero i)
  obtain ⟨out1, br1, pending1, d1, d2, d3⟩ := decode_loop_walk cfg hr R
    (header_bytes t ++ pack_bytes bits ++ [bits.length % 8]) (8 * (1 + 2 * nonzero_count t))
    bits.length (bits ++ [0]) (by simp) hstream
    (8 * (header_bytes t ++ pack_bytes bits ++ [bits.length % 8]).length + 2)
    { init_reader (file_of (header_bytes t ++ pack_bytes bits ++ [bits.length % 8])) with
      file := ⟨header_bytes t ++ pack_bytes bits ++ [bits.length % 8],
        1 + 2 * nonzero_count t, none⟩ }
    R [] (file_of []) syms hlive rfl (Nat.zero_le _)
    (by
      show (bits ++ [0]).length < 0 + _
      rw [hBl, List.length_append, List.length_singleton]; omega)
    hwalk
  have hdec : (decode cfg (file_of [])
      { init_reader (file_of (header_bytes t ++ pack_bytes bits ++ [bits.length % 8])) with
        file := ⟨header_bytes t ++ pack_bytes bits ++ [bits.length % 8],
          1 + 2 * nonzero_count t, none⟩ } R (bits.length % 8)).map
        (fun r => (r.1, r.2.1.data)) = some (1, syms) := by
    unfold decode get_file_size
    simp only [htb, d1]
    have d3' : out1.data ++ pending1 = syms := by simpa [file_of] using d3
    by_cases hp : pending1.length > 0
    · simp only [hp, if_true, fwrite_none _ _ d2, Nat.lt_irrefl, if_false, Option.map_some', d3']
    · have : pending1 = [] := List.length_eq_zero.mp (by omega)
      subst this
      rw [List.append_nil] at d3'
      simp only [hp, if_false, Option.map_some', d3']
  unfold decompress
  have hfile : file_of (header_bytes t ++ pack_bytes bits ++ [bits.length % 8])
      = ⟨header_bytes t ++ pack_bytes bits ++ [bits.length % 8], 0, none⟩ := rfl
  rw [hfile, read_file_header_of_header t hN]
  simp only [decompress_tree_scaled, htree]
  rw [← hfile]
  generalize decode cfg (file_of [])
      { init_reader (file_of (header_bytes t ++ pack_bytes bits ++ [bits.length % 8])) with
        file := ⟨header_bytes t ++ pack_bytes bits ++ [bits.length % 8],
          1 + 2 * nonzero_count t, none⟩ } R (bits.length % 8) = d at hdec ⊢
  cases d with
  | none => simp at hdec
  | some r => simpa using hdec

theorem mem_present_of_mem (S : List Nat) (hS : ∀ b ∈ S, b < 256) :
    ∀ x ∈ S, x ∈ present_symbols (count_chunk (fun _ => 0) S) := by
  intro x hx
  unfold present_symbols
  rw [List.mem_filter]
  refine ⟨List.mem_range.mpr (hS x hx), ?_⟩
  rw [count_chunk_apply]
  have := List.count_pos_iff.mpr hx
  simp only [decide_eq_true_eq]
  omega

/-- C38: for every input `S` of bytes with at least two distinct byte values such that
the left child of the root of the tree `compress` builds is not a leaf and the number `T`
of encoded bits (a `size_t`) is not a multiple of 8, with buffers of at least one byte,
a writer buffer block that is zero at allocation and streams on a device without limit,
`compress` returns 1 and `decompress` applied to the file it wrote returns 1 and writes
exactly `S`. -/
theorem round_trip_correct (cfg : Config) (memory : Uninit) (S : List Nat) (T : Nat)
    (hr : 1 ≤ cfg.READ_BUFFER_SIZE) (hc : 1 ≤ cfg.OUTPUT_BUFFER_SIZE)
    (hS : ∀ b ∈ S, b < 256) (hzero : ∀ i, memory.writer_buffer i = 0)
    (h2 : 2 ≤ nonzero_count (count_chunk (fun _ => 0) S))
    (hleft : (compress_tree (count_chunk (fun _ => 0) S)).map Node.left_leaf = some false)
    (hT : (compress_writer cfg memory (file_of S) (file_of [])).map (fun bw => bw.total_bits)
      = some T)
    (hT8 : T % 8 ≠ 0) (hlt : T < SIZE_T_MOD) :
    round_trip cfg memory S = (1, some (1, S)) := by
  have hN : 1 ≤ nonzero_count (count_chunk (fun _ => 0) S) := by omega
  obtain ⟨R, htree, hh, hperm⟩ := compress_tree_height _ hN
  rw [htree] at hleft
  have hleft2 : R.left_leaf = false := by simpa using hleft
  obtain ⟨c1, c2, c3⟩ := compress_content cfg hr hc memory hzero S R hN htree
  rw [hT] at c1
  have hTe : T = (encoded_bits (generate_huffman_code memory.code_table 0 0 R) S).length :=
    Option.some.inj c1
  have hnd : (R.leaves.map Prod.fst).Nodup := hperm.nodup_iff.mpr (present_symbols_nodup _)
  have hlen2 : 2 ≤ R.leaves.length := by
    have := hperm.length_eq
    rw [List.length_map, present_symbols_length] at this
    omega
  have hh1 := height_pos_of_two_leaves R hlen2
  obtain ⟨ps, p1, p2, p3⟩ := encoded_bits_paths R memory.code_table hnd (by omega) hh1 S
    (fun x hx => hperm.mem_iff.mpr (mem_present_of_mem S hS x hx))
  have hwalk : walk_bits R R
      (encoded_bits (generate_huffman_code memory.code_table 0 0 R) S ++ [0]) = some S := by
    cases R with
    | leaf s f => simp [Node.height] at hh1
    | inner s f l r =>
      cases l with
      | leaf sl fl => simp [Node.left_leaf] at hleft2
      | inner sl fl ll lr =>
        rw [← p3, walk_bits_paths _ s f _ r rfl ps p2 [0], p1]
        simp [walk_bits]
  have hd := decompress_written cfg hr _ hN R htree _ (encoded_bits_le _ S)
    (by rw [← hTe]; exact hT8) (by rw [← hTe]; exact hlt) S hwalk
  unfold round_trip
  simp only [c2, c3, hd]

/-- Witness for `round_trip_correct`: the input "AAABC" with buffers of 4096 bytes; the
tree is ((B, C), A) and 7 bits are encoded. -/
theorem round_trip_correct_witness :
    round_trip ⟨4096, 4096⟩ zero_memory [0x41, 0x41, 0x41, 0x42, 0x43]
      = (1, some (1, [0x41, 0x41, 0x41, 0x42, 0x43])) :=
  round_trip_correct ⟨4096, 4096⟩ zero_memory [0x41, 0x41, 0x41, 0x42, 0x43] 7
    (by decide) (by decide) (by decide) (fun _ => rfl) (by decide!) (by decide!) (by decide!)
    (by decide) (by decide)

/-! ## The generated code is an optimal prefix-free code -/

theorem path_bits_word (p : List Bool) : (path_bits p).map (fun b => decide (b = 1)) = p := by
  induction p with
  | nil => rfl
  | cons x p ih =>
    simp only [path_bits, List.map_cons] at ih ⊢
    rw [ih]
    cases x <;> simp

/-- In a tree of height at most 32 with distinct leaf symbols and two leaves at least,
the codeword of the entry of a leaf is the path to the leaf. -/
theorem generated_word (T : Node) (ct : Nat → Code)
    (hnd : (T.leaves.map Prod.fst).Nodup) (h1 : 1 ≤ T.height) (hh : T.height ≤ 32) :
    ∀ p ∈ T.paths, code_word (generate_huffman_code ct 0 0 T p.1) = p.2 := by
  intro p hp
  unfold code_word
  rw [generate_code T ct 0 0 hnd (by omega) (Or.inr h1) (by decide) p hp]
  simp only [Nat.zero_add, Nat.zero_mul]
  have e1 := code_bits_value (path_bits p.2) (path_bits_le p.2)
  rw [path_bits_length] at e1
  rw [e1, path_bits_word]

theorem code_word_length (entry : Code) : (code_word entry).length = entry.length := by
  simp [code_word, code_bits]

/-- C9: for a table with at least two non-zero entries the tree of `compress` exists, and
the code that `generate_huffman_code` assigns from it (whatever the initial contents of
the code table) is a prefix-free binary code on the symbols present, with codewords of the
lengths recorded, whose cost, the sum over the symbols present of scaled frequency times
code length, is at most that of every prefix-free binary code on those symbols. -/
theorem huffman_code_optimal (t : Nat → Nat) (code_table : Nat → Code)
    (h2 : 2 ≤ nonzero_count t) :
    ∃ root, compress_tree t = some root ∧
      PrefixFreeOn (present_symbols t)
        (fun s => code_word (generate_huffman_code code_table 0 0 root s)) ∧
      (∀ s, (code_word (generate_huffman_code code_table 0 0 root s)).length
        = (generate_huffman_code code_table 0 0 root s).length) ∧
      ∀ c : Nat → List Bool, PrefixFreeOn (present_symbols t) c →
        code_cost t (fun s => (generate_huffman_code code_table 0 0 root s).length)
          ≤ code_cost t (fun s => (c s).length) := by
  obtain ⟨R, h1, hh, hperm⟩ := compress_tree_height t (by omega)
  have hnd : (R.leaves.map Prod.fst).Nodup := hperm.nodup_iff.mpr (present_symbols_nodup t)
  have hlen : R.leaves.length = nonzero_count t := by
    have := hperm.length_eq
    rwa [List.length_map, present_symbols_length] at this
  have hpos := height_pos_of_two_leaves R (by omega)
  refine ⟨R, h1, ?_, fun s => code_word_length _, ?_⟩
  · intro a ha b hb hab
    have ha' := hperm.mem_iff.mpr ha
    have hb' := hperm.mem_iff.mpr hb
    rw [← paths_symbols] at ha' hb'
    obtain ⟨p, hp, rfl⟩ := List.mem_map.mp ha'
    obtain ⟨q, hq, rfl⟩ := List.mem_map.mp hb'
    have hpq : p ≠ q := fun h => hab (by rw [h])
    have hsymm : Symmetric (fun p q : Nat × List Bool => ¬ p.2 <+: q.2 ∧ ¬ q.2 <+: p.2) :=
      fun x y h => ⟨h.2, h.1⟩
    have hinc := (paths_incomparable R).forall hsymm hp hq hpq
    show ¬ code_word _ <+: code_word _
    rw [generated_word R code_table hnd hpos (by omega) p hp,
      generated_word R code_table hnd hpos (by omega) q hq]
    exact hinc.1
  · intro c hc
    obtain ⟨R2, h3, h4⟩ := generated_cost_le t code_table h2 c hc
    rw [h1] at h3
    cases h3
    exact h4

/-- Witness for `huffman_code_optimal`: the table of "AAAB". -/
theorem huffman_code_optimal_witness :
    ∃ root, compress_tree table_AAAB = some root ∧
      PrefixFreeOn (present_symbols table_AAAB)
        (fun s => code_word (generate_huffman_code zero_memory.code_table 0 0 root s)) ∧
      (∀ s, (code_word (generate_huffman_code zero_memory.code_table 0 0 root s)).length
        = (generate_huffman_code zero_memory.code_table 0 0 root s).length) ∧
      ∀ c : Nat → List Bool, PrefixFreeOn (present_symbols table_AAAB) c →
        code_cost table_AAAB
            (fun s => (generate_huffman_code zero_memory.code_table 0 0 root s).length)
          ≤ code_cost table_AAAB (fun s => (c s).length) :=
  huffman_code_optimal table_AAAB zero_memory.code_table (by decide!)

end HuffmanC
